import Mathlib

/-!
Verification development for the osmilog circuit simulator.

The definitions below are a shallow embedding of the simulation core of the
repository (src/components.rs, src/wires.rs, src/main.rs):

* `Signal` embeds `BitVec<u32, Lsb0>`: a list of bits, index 0 is the least
  significant bit (little-endian order, as in the `Lsb0` ordering).
* Operations that can abort at runtime in the source (out-of-range indexing,
  `copy_from_bitslice` on slices of unequal length, `load` on an empty or
  over-long bit slice, the `expect` on a failed topological sort) are embedded
  as `Option`-returning functions where `none` marks the abort.
* Arithmetic on `u32` is embedded as `Nat` arithmetic reduced `% 2 ^ 32`
  (release-profile wrapping semantics).
-/

namespace Osmilog

/-- `Signal = BitVec<u32, Lsb0>`: bit 0 is the least significant. -/
abbrev Signal := List Bool

/-- `signal_zeros` (components.rs): an all-zero signal of width `n`. -/
def signal_zeros (n : Nat) : Signal := List.replicate n false

/-- Unsigned little-endian value of a bit sequence (the value computed by
`BitField::load` on an `Lsb0` slice). -/
def loadBits : Signal → Nat
  | [] => 0
  | b :: bs => (if b then 1 else 0) + 2 * loadBits bs

/-- `BitField::load::<M>`: aborts when the slice is empty or longer than the
bit width `bound` of the destination integer type. -/
def load (bound : Nat) (s : Signal) : Option Nat :=
  if 1 ≤ s.length ∧ s.length ≤ bound then some (loadBits s) else none

/-- `n.view_bits::<Lsb0>()[..w]`: the `w` low bits of `n`, LSB first. -/
def viewBitsLow (w : Nat) (n : Nat) : Signal :=
  (List.range w).map (fun i => Nat.testBit n i)

/-- Bitwise NOT (`!s` on a `BitVec`): pointwise negation, width preserved. -/
def notBits (s : Signal) : Signal := s.map (fun b => !b)

/-- `true` iff any bit is set (`BitSlice::any`). -/
def anyBit (s : Signal) : Bool := s.any (fun b => b)

/-- In-place boolean-arithmetic assignment (`|=` / `&=` of the bitvec crate):
the accumulator keeps its own length; positions beyond the shorter operand are
left unchanged, extra bits of the right operand are ignored. -/
def assignWith (op : Bool → Bool → Bool) (acc s : Signal) : Signal :=
  List.zipWith op acc s ++ acc.drop s.length

/-- `Pin` (components.rs): a declared width and an optional stored signal
(`None` = absent / undriven). -/
structure Pin where
  bits : Nat
  signal : Option Signal
deriving DecidableEq

def Pin.new (bits : Nat) : Pin := { bits := bits, signal := none }

def Pin.get (p : Pin) : Option Signal := p.signal

/-- `Pin::set`: storing `None` clears the slot; storing a value over an
existing stored value is an in-place `copy_from_bitslice`, which aborts when
the two lengths differ; storing over an empty slot reallocates. -/
def Pin.set (p : Pin) (value : Option Signal) : Option Pin :=
  match value with
  | none => some { p with signal := none }
  | some new =>
    match p.signal with
    | some old =>
      if old.length = new.length then some { p with signal := some new } else none
    | none => some { p with signal := some new }

/-- `PinIndex` (components.rs). -/
inductive PinIndex where
  | Input (i : Nat)
  | Output (i : Nat)
deriving DecidableEq

/-- `GateKind` (components.rs). -/
inductive GateKind where
  | Not
  | Or
  | And
deriving DecidableEq

/-- `Gate` (components.rs). The source also caches `n_inputs`, which always
equals `inputs.len()`; here the list is the single source of truth. -/
structure Gate where
  kind : GateKind
  data_bits : Nat
  inputs : List Pin
  output : Pin
deriving DecidableEq

/-- The accumulation loop shared by the OR and AND arms of `Gate::do_logic`:
fold the inputs into `acc` with `op`, short-circuiting to `None` (absent) as
soon as an input pin is absent. -/
def foldPins (op : Bool → Bool → Bool) (acc : Signal) : List Pin → Option Signal
  | [] => some acc
  | p :: ps =>
    match p.signal with
    | some s => foldPins op (assignWith op acc s) ps
    | none => none

/-- `Gate::do_logic`. NOT indexes `inputs[0]` (abort when there is no input
pin); OR folds `|=` from all-zeros; AND folds `&=` from all-ones. -/
def Gate.do_logic (g : Gate) : Option Gate :=
  match g.kind with
  | GateKind.Not =>
    (g.inputs[0]?).map fun p =>
      { g with output := { g.output with signal := p.signal.map notBits } }
  | GateKind.Or =>
    some { g with output :=
      { g.output with signal := foldPins or (signal_zeros g.data_bits) g.inputs } }
  | GateKind.And =>
    some { g with output :=
      { g.output with signal := foldPins and (notBits (signal_zeros g.data_bits)) g.inputs } }

def Gate.new (kind : GateKind) (data_bits : Nat) (n_inputs : Nat) : Gate :=
  { kind := kind
    data_bits := data_bits
    inputs := List.replicate n_inputs (Pin.new data_bits)
    output := Pin.new data_bits }

/-- `Mux` (components.rs). -/
structure Mux where
  sel_bits : Nat
  data_bits : Nat
  inputs : List Pin
  output : Pin
  selector : Pin
deriving DecidableEq

def Mux.new (sel_bits : Nat) (data_bits : Nat) : Mux :=
  { sel_bits := sel_bits
    data_bits := data_bits
    inputs := List.replicate (2 ^ sel_bits) (Pin.new data_bits)
    output := Pin.new data_bits
    selector := Pin.new sel_bits }

/-- `Mux::do_logic`: when the selector is absent the output is set absent;
otherwise the selector is loaded as a `usize` (64-bit) index and the selected
input pin's value is copied to the output. -/
def Mux.do_logic (m : Mux) : Option Mux :=
  match m.selector.get with
  | none => (m.output.set none).map fun o => { m with output := o }
  | some s => do
    let sel ← load 64 s
    let p ← m.inputs[sel]?
    let o ← m.output.set p.get
    some { m with output := o }

/-- `Demux` (components.rs). -/
structure Demux where
  sel_bits : Nat
  data_bits : Nat
  input : Pin
  outputs : List Pin
  selector : Pin
deriving DecidableEq

def Demux.new (sel_bits : Nat) (data_bits : Nat) : Demux :=
  { sel_bits := sel_bits
    data_bits := data_bits
    input := Pin.new data_bits
    outputs := List.replicate (2 ^ sel_bits) (Pin.new data_bits)
    selector := Pin.new sel_bits }

/-- `s.fill(false)` applied to a pin that holds a value; absent pins are left
untouched (the `if let Some(s)` in `Demux::do_logic`). -/
def Pin.fillFalse (p : Pin) : Pin :=
  { p with signal := p.signal.map (fun s => List.replicate s.length false) }

/-- `Demux::do_logic`: with an absent selector nothing at all happens; with a
present selector every output that holds a value is zeroed in place, then the
input pin's value is copied into the selected output. -/
def Demux.do_logic (d : Demux) : Option Demux :=
  match d.selector.get with
  | none => some d
  | some s => do
    let sel ← load 64 s
    let outs := d.outputs.map Pin.fillFalse
    let p ← outs[sel]?
    let p' ← p.set d.input.get
    some { d with outputs := outs.set sel p' }

/-- `Register` (components.rs). -/
structure Register where
  data_bits : Nat
  write_enable : Pin
  input : Pin
  output : Pin
deriving DecidableEq

/-- `Register::new`: a 1-bit write-enable pin and absent (`None`) data, input
and output pins. -/
def Register.new (data_bits : Nat) : Register :=
  { data_bits := data_bits
    write_enable := Pin.new 1
    input := Pin.new data_bits
    output := Pin.new data_bits }

/-- `Register::tick_clock`: copy the data input to the output exactly when the
write-enable pin is present and has at least one bit set. -/
def Register.tick_clock (r : Register) : Option Register :=
  match r.write_enable.get with
  | some s =>
    if anyBit s then (r.output.set r.input.get).map fun o => { r with output := o }
    else some r
  | none => some r

/-- `Input` (components.rs): its single pin starts out holding zero. -/
structure Input where
  data_bits : Nat
  value : Pin
deriving DecidableEq

def Input.new (data_bits : Nat) : Input :=
  { data_bits := data_bits
    value := { bits := data_bits, signal := some (signal_zeros data_bits) } }

/-- `Input::interact`: when a value is held, reload it as a `u32`, add one
(wrapping), keep the low `data_bits` bits (slicing a 32-bit view aborts when
`data_bits > 32`), store the result; always report `true`. -/
def Input.interact (i : Input) : Option (Input × Bool) :=
  match i.value.get with
  | some s => do
    let v ← load 32 s
    let incremented := (v + 1) % 2 ^ 32
    if i.data_bits ≤ 32 then
      let value := viewBitsLow i.data_bits incremented
      (i.value.set (some value)).map fun p => ({ i with value := p }, true)
    else none
  | none => some (i, true)

/-- `Output` (components.rs): a pure sink. -/
structure Output where
  data_bits : Nat
  value : Pin
deriving DecidableEq

def Output.new (data_bits : Nat) : Output :=
  { data_bits := data_bits, value := Pin.new data_bits }

/-- `Splitter` (components.rs). `mapping[i]` is the output arm that receives
input bit `i`; `mapping.len() = data_bits_in` is asserted by the constructor. -/
structure Splitter where
  input : Pin
  outputs : List Pin
  data_bits_in : Nat
  data_bits_out : List Nat
  mapping : List Nat
deriving DecidableEq

def Splitter.new (data_bits_in : Nat) (data_bits_out : List Nat) (mapping : List Nat) :
    Splitter :=
  { input := Pin.new data_bits_in
    outputs := data_bits_out.map Pin.new
    data_bits_in := data_bits_in
    data_bits_out := data_bits_out
    mapping := mapping }

/-- The push loop of `Splitter::do_logic`: walk the mapping together with the
input bits, appending each input bit to the signal of its target arm.
Indexing an arm out of range aborts; the `unwrap` on an absent arm signal is
also an abort. Extra input bits beyond the mapping are ignored, a mapping
longer than the input aborts on the out-of-range bit index. -/
def splitGoPins : List Nat → List Bool → List Pin → Option (List Pin)
  | [], _, outs => some outs
  | _ :: _, [], _ => none
  | m :: ms, b :: bs, outs => do
    let p ← outs[m]?
    let s ← p.signal
    splitGoPins ms bs (outs.set m { p with signal := some (s ++ [b]) })

/-- `Splitter::do_logic`: with an absent input all arms become absent; with a
present input all arm signals are first reset to the empty signal
(`clear()` / `Signal::new()`), then each input bit is pushed onto its arm. -/
def Splitter.do_logic (sp : Splitter) : Option Splitter :=
  match sp.input.get with
  | some input => do
    let cleared := sp.outputs.map fun p => { p with signal := some [] }
    let outs ← splitGoPins sp.mapping input cleared
    some { sp with outputs := outs }
  | none =>
    some { sp with outputs := sp.outputs.map fun p => { p with signal := none } }

/-- `TunnelKind` (components.rs). -/
inductive TunnelKind where
  | Sender
  | Receiver
deriving DecidableEq

/-- `Tunnel` (components.rs): one pin that is simultaneously `Input(0)` and
`Output(0)`. `live_label` is the in-progress text of the label editor. -/
structure Tunnel where
  kind : TunnelKind
  label : String
  live_label : String
  data_bits : Nat
  value : Pin
deriving DecidableEq

def Tunnel.new (kind : TunnelKind) (label : String) (data_bits : Nat) : Tunnel :=
  { kind := kind
    label := label
    live_label := label
    data_bits := data_bits
    value := Pin.new data_bits }

/-- The closed set of component kinds (`Box<dyn Comp>` in the source, a sum
type here, as §9 of the design notes recommends). -/
inductive Comp where
  | gate : Gate → Comp
  | mux : Mux → Comp
  | demux : Demux → Comp
  | register : Register → Comp
  | inputC : Input → Comp
  | outputC : Output → Comp
  | splitter : Splitter → Comp
  | tunnel : Tunnel → Comp
deriving DecidableEq

/-- Read a pin from a pin list; `none` is the out-of-range abort. -/
def getPinAt (ps : List Pin) (i : Nat) : Option (Option Signal) :=
  (ps[i]?).map Pin.get

/-- Write a pin in a pin list; `none` is an out-of-range or `Pin::set` abort. -/
def setPinAt (ps : List Pin) (i : Nat) (v : Option Signal) : Option (List Pin) := do
  let p ← ps[i]?
  let p' ← p.set v
  some (ps.set i p')

/-- `Logic::get_pin_value`, dispatched over the kinds exactly as each
implementation matches on `PinIndex` (outer `none` = `panic` on an invalid
index; inner `Option` = the stored signal). -/
def Comp.get_pin_value : Comp → PinIndex → Option (Option Signal)
  | Comp.gate g, PinIndex.Input i => getPinAt g.inputs i
  | Comp.gate g, PinIndex.Output 0 => some g.output.get
  | Comp.gate _, PinIndex.Output (_ + 1) => none
  | Comp.mux m, PinIndex.Input 0 => some m.selector.get
  | Comp.mux m, PinIndex.Input (i + 1) => getPinAt m.inputs i
  | Comp.mux m, PinIndex.Output 0 => some m.output.get
  | Comp.mux _, PinIndex.Output (_ + 1) => none
  | Comp.demux d, PinIndex.Input 0 => some d.selector.get
  | Comp.demux d, PinIndex.Input 1 => some d.input.get
  | Comp.demux _, PinIndex.Input (_ + 2) => none
  | Comp.demux d, PinIndex.Output i => getPinAt d.outputs i
  | Comp.register r, PinIndex.Input 0 => some r.write_enable.get
  | Comp.register r, PinIndex.Input 1 => some r.input.get
  | Comp.register _, PinIndex.Input (_ + 2) => none
  | Comp.register r, PinIndex.Output 0 => some r.output.get
  | Comp.register _, PinIndex.Output (_ + 1) => none
  | Comp.inputC _, PinIndex.Input _ => none
  | Comp.inputC i, PinIndex.Output 0 => some i.value.get
  | Comp.inputC _, PinIndex.Output (_ + 1) => none
  | Comp.outputC o, PinIndex.Input 0 => some o.value.get
  | Comp.outputC _, PinIndex.Input (_ + 1) => none
  | Comp.outputC _, PinIndex.Output _ => none
  | Comp.splitter sp, PinIndex.Input 0 => some sp.input.get
  | Comp.splitter _, PinIndex.Input (_ + 1) => none
  | Comp.splitter sp, PinIndex.Output i => getPinAt sp.outputs i
  | Comp.tunnel t, PinIndex.Input 0 => some t.value.get
  | Comp.tunnel t, PinIndex.Output 0 => some t.value.get
  | Comp.tunnel _, PinIndex.Input (_ + 1) => none
  | Comp.tunnel _, PinIndex.Output (_ + 1) => none

/-- `Logic::set_pin_value`, dispatched as in the source (`none` = abort). -/
def Comp.set_pin_value : Comp → PinIndex → Option Signal → Option Comp
  | Comp.gate g, PinIndex.Input i, v =>
    (setPinAt g.inputs i v).map fun ps => Comp.gate { g with inputs := ps }
  | Comp.gate g, PinIndex.Output 0, v =>
    (g.output.set v).map fun o => Comp.gate { g with output := o }
  | Comp.gate _, PinIndex.Output (_ + 1), _ => none
  | Comp.mux m, PinIndex.Input 0, v =>
    (m.selector.set v).map fun s => Comp.mux { m with selector := s }
  | Comp.mux m, PinIndex.Input (i + 1), v =>
    (setPinAt m.inputs i v).map fun ps => Comp.mux { m with inputs := ps }
  | Comp.mux m, PinIndex.Output 0, v =>
    (m.output.set v).map fun o => Comp.mux { m with output := o }
  | Comp.mux _, PinIndex.Output (_ + 1), _ => none
  | Comp.demux d, PinIndex.Input 0, v =>
    (d.selector.set v).map fun s => Comp.demux { d with selector := s }
  | Comp.demux d, PinIndex.Input 1, v =>
    (d.input.set v).map fun p => Comp.demux { d with input := p }
  | Comp.demux _, PinIndex.Input (_ + 2), _ => none
  | Comp.demux d, PinIndex.Output i, v =>
    (setPinAt d.outputs i v).map fun ps => Comp.demux { d with outputs := ps }
  | Comp.register r, PinIndex.Input 0, v =>
    (r.write_enable.set v).map fun p => Comp.register { r with write_enable := p }
  | Comp.register r, PinIndex.Input 1, v =>
    (r.input.set v).map fun p => Comp.register { r with input := p }
  | Comp.register _, PinIndex.Input (_ + 2), _ => none
  | Comp.register r, PinIndex.Output 0, v =>
    (r.output.set v).map fun p => Comp.register { r with output := p }
  | Comp.register _, PinIndex.Output (_ + 1), _ => none
  | Comp.inputC _, PinIndex.Input _, _ => none
  | Comp.inputC i, PinIndex.Output 0, v =>
    (i.value.set v).map fun p => Comp.inputC { i with value := p }
  | Comp.inputC _, PinIndex.Output (_ + 1), _ => none
  | Comp.outputC o, PinIndex.Input 0, v =>
    (o.value.set v).map fun p => Comp.outputC { o with value := p }
  | Comp.outputC _, PinIndex.Input (_ + 1), _ => none
  | Comp.outputC _, PinIndex.Output _, _ => none
  | Comp.splitter sp, PinIndex.Input 0, v =>
    (sp.input.set v).map fun p => Comp.splitter { sp with input := p }
  | Comp.splitter _, PinIndex.Input (_ + 1), _ => none
  | Comp.splitter sp, PinIndex.Output i, v =>
    (setPinAt sp.outputs i v).map fun ps => Comp.splitter { sp with outputs := ps }
  | Comp.tunnel t, PinIndex.Input 0, v =>
    (t.value.set v).map fun p => Comp.tunnel { t with value := p }
  | Comp.tunnel t, PinIndex.Output 0, v =>
    (t.value.set v).map fun p => Comp.tunnel { t with value := p }
  | Comp.tunnel _, PinIndex.Input (_ + 1), _ => none
  | Comp.tunnel _, PinIndex.Output (_ + 1), _ => none

/-- `Logic::get_pin_width` (`none` = abort on an invalid index). -/
def Comp.get_pin_width : Comp → PinIndex → Option Nat
  | Comp.gate g, PinIndex.Input i => (g.inputs[i]?).map Pin.bits
  | Comp.gate g, PinIndex.Output 0 => some g.output.bits
  | Comp.gate _, PinIndex.Output (_ + 1) => none
  | Comp.mux m, PinIndex.Input 0 => some m.selector.bits
  | Comp.mux m, PinIndex.Input (i + 1) => (m.inputs[i]?).map Pin.bits
  | Comp.mux m, PinIndex.Output 0 => some m.output.bits
  | Comp.mux _, PinIndex.Output (_ + 1) => none
  | Comp.demux d, PinIndex.Input 0 => some d.selector.bits
  | Comp.demux d, PinIndex.Input 1 => some d.input.bits
  | Comp.demux _, PinIndex.Input (_ + 2) => none
  | Comp.demux d, PinIndex.Output i => (d.outputs[i]?).map Pin.bits
  | Comp.register r, PinIndex.Input 0 => some r.write_enable.bits
  | Comp.register r, PinIndex.Input 1 => some r.input.bits
  | Comp.register _, PinIndex.Input (_ + 2) => none
  | Comp.register r, PinIndex.Output 0 => some r.output.bits
  | Comp.register _, PinIndex.Output (_ + 1) => none
  | Comp.inputC _, PinIndex.Input _ => none
  | Comp.inputC i, PinIndex.Output 0 => some i.value.bits
  | Comp.inputC _, PinIndex.Output (_ + 1) => none
  | Comp.outputC o, PinIndex.Input 0 => some o.value.bits
  | Comp.outputC _, PinIndex.Input (_ + 1) => none
  | Comp.outputC _, PinIndex.Output _ => none
  | Comp.splitter sp, PinIndex.Input 0 => some sp.input.bits
  | Comp.splitter _, PinIndex.Input (_ + 1) => none
  | Comp.splitter sp, PinIndex.Output i => (sp.outputs[i]?).map Pin.bits
  | Comp.tunnel t, PinIndex.Input 0 => some t.value.bits
  | Comp.tunnel t, PinIndex.Output 0 => some t.value.bits
  | Comp.tunnel _, PinIndex.Input (_ + 1) => none
  | Comp.tunnel _, PinIndex.Output (_ + 1) => none

/-- `Logic::do_logic` dispatch: Register, Input, Output and Tunnel are no-ops
(the trait default / empty bodies in the source). -/
def Comp.do_logic : Comp → Option Comp
  | Comp.gate g => (g.do_logic).map Comp.gate
  | Comp.mux m => (m.do_logic).map Comp.mux
  | Comp.demux d => (d.do_logic).map Comp.demux
  | Comp.register r => some (Comp.register r)
  | Comp.inputC i => some (Comp.inputC i)
  | Comp.outputC o => some (Comp.outputC o)
  | Comp.splitter sp => (sp.do_logic).map Comp.splitter
  | Comp.tunnel t => some (Comp.tunnel t)

/-- `Logic::is_clocked`: `true` only for `Register`. -/
def Comp.is_clocked : Comp → Bool
  | Comp.register _ => true
  | _ => false

/-- `Wire` (wires.rs). The `wire_group` slot-map key is pure UI bookkeeping
and is omitted; `value` is the cached last-transmitted signal. -/
structure Wire where
  start_comp : Nat
  start_pin : Nat
  end_comp : Nat
  end_pin : Nat
  data_bits : Nat
  value : Option Signal
  is_virtual : Bool
deriving DecidableEq

def Wire.new (start_comp start_pin end_comp end_pin data_bits : Nat)
    (is_virtual : Bool) : Wire :=
  { start_comp := start_comp
    start_pin := start_pin
    end_comp := end_comp
    end_pin := end_pin
    data_bits := data_bits
    value := none
    is_virtual := is_virtual }

/-- `Wire::set_signal`: same in-place copy discipline as `Pin::set`
(`copy_from_bitslice` aborts on unequal lengths). -/
def Wire.set_signal (w : Wire) (value : Option Signal) : Option Wire :=
  match value with
  | none => some { w with value := none }
  | some new =>
    match w.value with
    | some old =>
      if old.length = new.length then some { w with value := some new } else none
    | none => some { w with value := some new }

def Wire.get_signal (w : Wire) : Option Signal := w.value

/-- The circuit graph (`StableGraph<Component, Wire>`): components keyed by a
stable node id, edges as a wire list. The rendering data of `Component`
(position, pin coordinates, bounding boxes) is out of the simulation core. -/
structure CircuitGraph where
  nodes : List (Nat × Comp)
  edges : List Wire
deriving DecidableEq

def CircuitGraph.getComp (g : CircuitGraph) (cx : Nat) : Option Comp :=
  (g.nodes.find? (fun p => p.1 == cx)).map Prod.snd

def CircuitGraph.setComp (g : CircuitGraph) (cx : Nat) (c : Comp) : CircuitGraph :=
  { g with nodes := g.nodes.map (fun p => if p.1 == cx then (p.1, c) else p) }

def CircuitGraph.ids (g : CircuitGraph) : List Nat := g.nodes.map Prod.fst

/-- `TunnelMembers` (main.rs); the hash sets become lists. -/
structure TunnelMembers where
  senders : List Nat
  receivers : List Nat
deriving DecidableEq

/-- `TunnelMembers::is_valid`: exactly one sender. -/
def TunnelMembers.is_valid (t : TunnelMembers) : Bool := t.senders.length == 1

/-- `CircuitContext` (main.rs): label to tunnel net membership. -/
structure CircuitContext where
  tunnels : List (String × TunnelMembers)
deriving DecidableEq

/-- One iteration of `App::add_tunnel_connections` for a single label's
members: a valid net (exactly one sender) synthesizes one virtual wire from
the sender's `Output(0)` to each receiver's `Input(0)`, with the width read
from the sender; an invalid net forces every receiver's pin to absent. -/
def addTunnelFor (g : CircuitGraph) (t : TunnelMembers) : Option CircuitGraph :=
  if t.is_valid then do
    let start_comp ← t.senders.head?
    let c ← g.getComp start_comp
    let data_bits ← c.get_pin_width (PinIndex.Output 0)
    some { g with edges :=
      g.edges ++ t.receivers.map (fun ec => Wire.new start_comp 0 ec 0 data_bits true) }
  else
    t.receivers.foldlM
      (fun h ec => do
        let c ← h.getComp ec
        let c' ← c.set_pin_value (PinIndex.Output 0) none
        some (h.setComp ec c'))
      g

/-- `App::add_tunnel_connections`. -/
def add_tunnel_connections (ctx : CircuitContext) (g : CircuitGraph) :
    Option CircuitGraph :=
  ctx.tunnels.foldlM (fun h p => addTunnelFor h p.2) g

/-- `retain_edges(|g, e| !g[e].is_virtual)`. -/
def removeVirtual (g : CircuitGraph) : CircuitGraph :=
  { g with edges := g.edges.filter (fun w => !w.is_virtual) }

def CircuitGraph.isClockedAt (g : CircuitGraph) (cx : Nat) : Bool :=
  match g.getComp cx with
  | some c => c.is_clocked
  | none => false

/-- The `EdgeFiltered` view: edges whose target component is clocked are
removed from the ordering dependency. -/
def filteredEdges (g : CircuitGraph) : List Wire :=
  g.edges.filter (fun w => !g.isClockedAt w.end_comp)

/-- `v` has no incoming edge (within `E`) from a remaining node. -/
def noIncoming (E : List Wire) (rem : List Nat) (v : Nat) : Bool :=
  !(E.any (fun w => w.end_comp == v && rem.contains w.start_comp))

/-- Kahn's algorithm with explicit fuel, the deterministic embedding of
`petgraph::algo::toposort` on the filtered view: repeatedly emit the first
remaining node with no incoming filtered edge from a remaining node; report
failure (`none`) when no such node exists. -/
def kahnAux (E : List Wire) : Nat → List Nat → Option (List Nat)
  | _, [] => some []
  | 0, _ :: _ => none
  | fuel + 1, x :: xs =>
    match (x :: xs).find? (noIncoming E (x :: xs)) with
    | none => none
    | some v => (kahnAux E fuel ((x :: xs).erase v)).map (fun ord => v :: ord)

def kahn (E : List Wire) (ids : List Nat) : Option (List Nat) :=
  kahnAux E ids.length ids

/-- Indices into `g.edges` of the outgoing wires of `cx` (the petgraph
`neighbors(cx).detach()` walker). -/
def outEdgeIdx (g : CircuitGraph) (cx : Nat) : List Nat :=
  (List.range g.edges.length).filter
    (fun i => ((g.edges[i]?).map Wire.start_comp) == some cx)

/-- The per-wire body of the transmission loop in `App::update_signals`:
if source and destination pin widths agree, copy the (possibly absent) source
output value to the destination input pin and cache it on the wire; on a
width mismatch force the wire cache and destination pin to absent. -/
def transmitAt (g : CircuitGraph) (cx : Nat) (i : Nat) : Option CircuitGraph := do
  let w ← g.edges[i]?
  let src ← g.getComp cx
  let dst ← g.getComp w.end_comp
  let sw ← src.get_pin_width (PinIndex.Output w.start_pin)
  let dw ← dst.get_pin_width (PinIndex.Input w.end_pin)
  if sw = dw then do
    let sig ← src.get_pin_value (PinIndex.Output w.start_pin)
    let dst' ← dst.set_pin_value (PinIndex.Input w.end_pin) sig
    let w' ← w.set_signal sig
    some { nodes := (g.setComp w.end_comp dst').nodes, edges := g.edges.set i w' }
  else do
    let w' ← w.set_signal none
    let dst' ← dst.set_pin_value (PinIndex.Input w.end_pin) none
    some { nodes := (g.setComp w.end_comp dst').nodes, edges := g.edges.set i w' }

/-- Visiting one component in topological order: run its combinational logic,
then transmit along each of its outgoing wires. -/
def processNode (g : CircuitGraph) (cx : Nat) : Option CircuitGraph := do
  let c ← g.getComp cx
  let c' ← c.do_logic
  let g1 := g.setComp cx c'
  (outEdgeIdx g1 cx).foldlM (fun h i => transmitAt h cx i) g1

/-- `App::update_signals`: drop all virtual wires, regenerate them from the
tunnel context, topologically sort the clock-filtered view (the `expect` on
failure is the `none` abort), then visit every component in order. -/
def update_signals (ctx : CircuitContext) (g : CircuitGraph) : Option CircuitGraph := do
  let g1 := removeVirtual g
  let g2 ← add_tunnel_connections ctx g1
  let order ← kahn (filteredEdges g2) g2.ids
  order.foldlM processNode g2

/-- The occupied-input check of `App::try_add_wire`:
`edges_directed(cx_b, Incoming).any(|e| e.weight().end_pin == pin_b)`. -/
def inPinOccupied (g : CircuitGraph) (cx_b : Nat) (pin_b : Nat) : Bool :=
  g.edges.any (fun w => w.end_comp == cx_b && w.end_pin == pin_b)

/-- The tail of `App::try_add_wire` once the roles are resolved (`cx_a` owns
the output pin `pin_a`, `cx_b` the input pin `pin_b`): reject an occupied
input pin, otherwise add the wire and run a full propagation pass. -/
def tryAddWireResolved (ctx : CircuitContext) (g : CircuitGraph)
    (cx_a pin_a cx_b pin_b data_bits : Nat) : Option (Bool × CircuitGraph) :=
  if inPinOccupied g cx_b pin_b then some (false, g)
  else do
    let g' := { g with edges := g.edges ++ [Wire.new cx_a pin_a cx_b pin_b data_bits false] }
    let g'' ← update_signals ctx g'
    some (true, g'')

/-- `App::try_add_wire`: reject wires within one component, then width
mismatches, then pin-role mismatches, then an occupied destination pin; on
success add the edge and propagate, reporting `true`. -/
def try_add_wire (ctx : CircuitContext) (g : CircuitGraph)
    (cx_a : Nat) (px_a : PinIndex) (cx_b : Nat) (px_b : PinIndex) :
    Option (Bool × CircuitGraph) :=
  if cx_a = cx_b then some (false, g)
  else do
    let ca ← g.getComp cx_a
    let cb ← g.getComp cx_b
    let data_bits_a ← ca.get_pin_width px_a
    let data_bits_b ← cb.get_pin_width px_b
    if data_bits_a ≠ data_bits_b then some (false, g)
    else
      match px_a, px_b with
      | PinIndex.Output pin_a, PinIndex.Input pin_b =>
        tryAddWireResolved ctx g cx_a pin_a cx_b pin_b data_bits_a
      | PinIndex.Input pin_a, PinIndex.Output pin_b =>
        tryAddWireResolved ctx g cx_b pin_b cx_a pin_a data_bits_a
      | _, _ => some (false, g)

/-! ### Basic equations for pin and wire updates -/

theorem Pin.set_ok (p : Pin) (v : Option Signal)
    (h : ∀ old new, p.signal = some old → v = some new → old.length = new.length) :
    p.set v = some { p with signal := v } := by
  cases p with
  | mk b s =>
    cases v with
    | none => rfl
    | some new =>
      cases s with
      | none => rfl
      | some old => simp [Pin.set, h old new rfl rfl]

theorem Pin.set_mismatch (p : Pin) (old new : Signal) (h : p.signal = some old)
    (hl : old.length ≠ new.length) : p.set (some new) = none := by
  simp [Pin.set, h, hl]

theorem Pin.set_eq_some {p : Pin} {v : Option Signal} {p' : Pin}
    (h : p.set v = some p') : p'.bits = p.bits ∧ p'.signal = v := by
  cases p with
  | mk b s =>
    cases v with
    | none =>
      simp only [Pin.set] at h
      cases h
      exact ⟨rfl, rfl⟩
    | some new =>
      cases s with
      | none =>
        simp only [Pin.set] at h
        cases h
        exact ⟨rfl, rfl⟩
      | some old =>
        simp only [Pin.set] at h
        by_cases hl : old.length = new.length
        · rw [if_pos hl] at h
          cases h
          exact ⟨rfl, rfl⟩
        · rw [if_neg hl] at h
          cases h

theorem Wire.set_signal_ok (w : Wire) (v : Option Signal)
    (h : ∀ old new, w.value = some old → v = some new → old.length = new.length) :
    w.set_signal v = some { w with value := v } := by
  cases v with
  | none => rfl
  | some new =>
    cases hw : w.value with
    | none => simp [Wire.set_signal, hw]
    | some old => simp [Wire.set_signal, hw, h old new hw rfl]

theorem Wire.set_signal_mismatch (w : Wire) (old new : Signal) (h : w.value = some old)
    (hl : old.length ≠ new.length) : w.set_signal (some new) = none := by
  simp [Wire.set_signal, h, hl]

theorem Wire.set_signal_eq_some {w : Wire} {v : Option Signal} {w' : Wire}
    (h : w.set_signal v = some w') :
    w' = { w with value := v } := by
  cases v with
  | none =>
    simp only [Wire.set_signal] at h
    cases h
    rfl
  | some new =>
    cases hw : w.value with
    | none =>
      simp only [Wire.set_signal, hw] at h
      cases h
      rfl
    | some old =>
      simp only [Wire.set_signal, hw] at h
      by_cases hl : old.length = new.length
      · rw [if_pos hl] at h
        cases h
        rfl
      · rw [if_neg hl] at h
        cases h

/-! ### Gate evaluation lemmas (claim C3) -/

/-- `foldPins` seen on the list of stored signals only. -/
def foldSigs (op : Bool → Bool → Bool) (acc : Signal) : List (Option Signal) → Option Signal
  | [] => some acc
  | none :: _ => none
  | some s :: rest => foldSigs op (assignWith op acc s) rest

theorem foldPins_eq_foldSigs (op : Bool → Bool → Bool) (acc : Signal) (ps : List Pin) :
    foldPins op acc ps = foldSigs op acc (ps.map Pin.signal) := by
  induction ps generalizing acc with
  | nil => rfl
  | cons p ps ih =>
    cases h : p.signal with
    | none => simp [foldPins, foldSigs, h]
    | some s => simp [foldPins, foldSigs, h, ih]

theorem foldSigs_eq_none_iff (op : Bool → Bool → Bool) (acc : Signal)
    (l : List (Option Signal)) : foldSigs op acc l = none ↔ none ∈ l := by
  induction l generalizing acc with
  | nil => simp [foldSigs]
  | cons x xs ih =>
    cases x with
    | none => simp [foldSigs]
    | some s => simp [foldSigs, ih]

theorem assignWith_get? (op : Bool → Bool → Bool) (a s : Signal) (i : Nat) :
    (assignWith op a s)[i]? =
      match a[i]?, s[i]? with
      | some x, some y => some (op x y)
      | some x, none => some x
      | none, _ => none := by
  induction a generalizing s i with
  | nil => cases s <;> simp [assignWith]
  | cons x a iha =>
    cases s with
    | nil =>
      simp only [assignWith, List.zipWith_nil_right, List.nil_append, List.length_nil,
        List.drop_zero]
      cases h : (x :: a)[i]? <;> simp [h]
    | cons y s =>
      have hcons : assignWith op (x :: a) (y :: s) = op x y :: assignWith op a s := by
        simp [assignWith, List.zipWith]
      rw [hcons]
      cases i with
      | zero => simp
      | succ n => simpa using iha s n

theorem assignWith_length (op : Bool → Bool → Bool) (a s : Signal) :
    (assignWith op a s).length = a.length := by
  simp only [assignWith, List.length_append, List.length_zipWith, List.length_drop]
  omega

theorem assignWith_left_comm (op : Bool → Bool → Bool)
    (hc : ∀ a b, op a b = op b a) (ha : ∀ a b c, op (op a b) c = op a (op b c))
    (acc a b : Signal) :
    assignWith op (assignWith op acc a) b = assignWith op (assignWith op acc b) a := by
  apply List.ext_getElem?
  intro i
  simp only [assignWith_get?]
  cases acc[i]? <;> cases a[i]? <;> cases b[i]? <;> simp
  next x y z =>
    rw [ha, ha, hc z y]

theorem foldSigs_perm (op : Bool → Bool → Bool)
    (hc : ∀ a b, op a b = op b a) (ha : ∀ a b c, op (op a b) c = op a (op b c))
    {l₁ l₂ : List (Option Signal)} (hp : List.Perm l₁ l₂) :
    ∀ acc, foldSigs op acc l₁ = foldSigs op acc l₂ := by
  induction hp with
  | nil => intro acc; rfl
  | cons x _ ih =>
    intro acc
    cases x with
    | none => rfl
    | some s => simpa [foldSigs] using ih (assignWith op acc s)
  | swap x y l =>
    intro acc
    cases x with
    | none => cases y <;> rfl
    | some s =>
      cases y with
      | none => rfl
      | some t => simp [foldSigs, assignWith_left_comm op hc ha]
  | trans _ _ ih₁ ih₂ => intro acc; rw [ih₁, ih₂]

theorem assignWith_of_length_eq (op : Bool → Bool → Bool) {a s : Signal}
    (h : s.length = a.length) : assignWith op a s = List.zipWith op a s := by
  simp [assignWith, h, List.drop_length]

theorem foldSigs_all_some (op : Bool → Bool → Bool) (sigs : List Signal) :
    ∀ acc : Signal, (∀ s ∈ sigs, s.length = acc.length) →
    foldSigs op acc (sigs.map some) = some (sigs.foldl (List.zipWith op) acc) := by
  induction sigs with
  | nil => intro acc _; rfl
  | cons s rest ih =>
    intro acc hlen
    have hs : s.length = acc.length := hlen s (by simp)
    have hzip : (List.zipWith op acc s).length = acc.length := by
      simp [List.length_zipWith, hs]
    simp only [List.map_cons, foldSigs, assignWith_of_length_eq op hs, List.foldl_cons]
    exact ih (List.zipWith op acc s) (fun t ht => by rw [hzip]; exact hlen t (by simp [ht]))

/-- The neutral start value of the gate fold: all-zeros for OR, all-ones for
AND (the claim's "bitwise OR / AND of all input signals"). -/
def gateUnit : GateKind → Nat → Signal
  | GateKind.Or, w => List.replicate w false
  | GateKind.And, w => List.replicate w true
  | GateKind.Not, w => List.replicate w false

/-- The pointwise operation of each gate kind. -/
def gateFoldOp : GateKind → Bool → Bool → Bool
  | GateKind.Or => or
  | GateKind.And => and
  | GateKind.Not => fun a _ => a

theorem notBits_signal_zeros (w : Nat) : notBits (signal_zeros w) = List.replicate w true := by
  simp [notBits, signal_zeros]

theorem Gate.do_logic_or (g : Gate) (h : g.kind = GateKind.Or) :
    g.do_logic = some { g with output :=
      { g.output with signal := foldPins or (signal_zeros g.data_bits) g.inputs } } := by
  cases g
  subst h
  rfl

theorem Gate.do_logic_and (g : Gate) (h : g.kind = GateKind.And) :
    g.do_logic = some { g with output :=
      { g.output with signal := foldPins and (notBits (signal_zeros g.data_bits)) g.inputs } } := by
  cases g
  subst h
  rfl

/-- The signal `Gate::do_logic` stores on the output pin of an OR / AND gate,
expressed through `foldSigs`. -/
theorem Gate.do_logic_out_or_and (g : Gate)
    (hk : g.kind = GateKind.Or ∨ g.kind = GateKind.And) :
    (g.do_logic).map (fun x => x.output.signal) =
      some (foldSigs (gateFoldOp g.kind) (gateUnit g.kind g.data_bits)
        (g.inputs.map Pin.signal)) := by
  rcases hk with h | h
  · rw [Gate.do_logic_or g h, h]
    simp [foldPins_eq_foldSigs, gateFoldOp, gateUnit, signal_zeros]
  · rw [Gate.do_logic_and g h, h]
    simp [foldPins_eq_foldSigs, gateFoldOp, gateUnit, notBits_signal_zeros]

/-- claim C3: for every AND and OR gate, `evaluate()` succeeds and the output
is absent exactly when some input pin is absent; when all inputs are present
with the gate's uniform width, the output is the pointwise AND (resp. OR)
fold of the input signals; and the output depends on the multiset of input
signals only (input order is irrelevant). -/
theorem C3_and_or_gates (g : Gate)
    (hk : g.kind = GateKind.Or ∨ g.kind = GateKind.And) :
    (∃ out : Option Signal, (g.do_logic).map (fun x => x.output.signal) = some out ∧
      (out = none ↔ ∃ p ∈ g.inputs, p.signal = none)) ∧
    (∀ sigs : List Signal, g.inputs.map Pin.signal = sigs.map some →
      (∀ s ∈ sigs, s.length = g.data_bits) →
      (g.do_logic).map (fun x => x.output.signal) =
        some (some (sigs.foldl (List.zipWith (gateFoldOp g.kind))
          (gateUnit g.kind g.data_bits)))) ∧
    (∀ g₂ : Gate, g₂.kind = g.kind → g₂.data_bits = g.data_bits →
      List.Perm (g₂.inputs.map Pin.signal) (g.inputs.map Pin.signal) →
      (g₂.do_logic).map (fun x => x.output.signal) =
        (g.do_logic).map (fun x => x.output.signal)) := by
  have hcomm_or : ∀ a b, or a b = or b a := by decide
  have hassoc_or : ∀ a b c, or (or a b) c = or a (or b c) := by decide
  have hcomm_and : ∀ a b, and a b = and b a := by decide
  have hassoc_and : ∀ a b c, and (and a b) c = and a (and b c) := by decide
  have hunit_len : (gateUnit g.kind g.data_bits).length = g.data_bits := by
    cases hg : g.kind <;> simp [gateUnit]
  refine ⟨?_, ?_, ?_⟩
  · refine ⟨_, Gate.do_logic_out_or_and g hk, ?_⟩
    rw [foldSigs_eq_none_iff]
    constructor
    · intro hmem
      rcases List.mem_map.mp hmem with ⟨p, hp, hps⟩
      exact ⟨p, hp, hps⟩
    · rintro ⟨p, hp, hps⟩
      exact List.mem_map.mpr ⟨p, hp, hps⟩
  · intro sigs hsigs hlen
    rw [Gate.do_logic_out_or_and g hk, hsigs,
      foldSigs_all_some _ sigs _ (fun s hs => by rw [hunit_len]; exact hlen s hs)]
  · intro g₂ hkind hdb hperm
    rw [Gate.do_logic_out_or_and g hk,
      Gate.do_logic_out_or_and g₂ (by rw [hkind]; exact hk), hkind, hdb]
    rcases hk with h | h
    · rw [h]
      exact congrArg some (foldSigs_perm _ hcomm_or hassoc_or hperm _)
    · rw [h]
      exact congrArg some (foldSigs_perm _ hcomm_and hassoc_and hperm _)

/-! ### Input interaction (claim C9) -/

theorem viewBitsLow_length (w n : Nat) : (viewBitsLow w n).length = w := by
  simp [viewBitsLow]

theorem viewBitsLow_mod (w m n : Nat) (h : w ≤ m) :
    viewBitsLow w (n % 2 ^ m) = viewBitsLow w n := by
  unfold viewBitsLow
  apply List.map_congr_left
  intro i hi
  have hi' : i < m := Nat.lt_of_lt_of_le (List.mem_range.mp hi) h
  rw [Nat.testBit_mod_two_pow]
  simp [hi']

theorem Input.interact_none (i : Input) (h : i.value.signal = none) :
    i.interact = some (i, true) := by
  simp [Input.interact, Pin.get, h]

theorem Input.interact_some (i : Input) (v : Signal) (h : i.value.signal = some v) :
    i.interact = (load 32 v).bind fun n =>
      if i.data_bits ≤ 32 then
        (i.value.set (some (viewBitsLow i.data_bits ((n + 1) % 2 ^ 32)))).map
          (fun p => ({ i with value := p }, true))
      else none := by
  simp [Input.interact, Pin.get, h]

/-- claim C9: an `Input` of width `w` holding a present value `v` is replaced
by `interact()` with the little-endian encoding of `(v + 1) mod 2 ^ w`, and
`interact()` always reports `true`. -/
theorem C9_input_interact (i : Input) (v : Signal)
    (hv : i.value.signal = some v) (hlen : v.length = i.data_bits)
    (h1 : 1 ≤ i.data_bits) (h32 : i.data_bits ≤ 32) :
    i.interact = some
      ({ i with value := { i.value with
          signal := some (viewBitsLow i.data_bits ((loadBits v + 1) % 2 ^ i.data_bits)) } },
        true) ∧
    (∀ (j : Input) (r : Input × Bool), Input.interact j = some r → r.2 = true) := by
  constructor
  · have hload : load 32 v = some (loadBits v) := by
      unfold load
      rw [if_pos]
      omega
    have hmod : viewBitsLow i.data_bits ((loadBits v + 1) % 2 ^ 32) =
        viewBitsLow i.data_bits ((loadBits v + 1) % 2 ^ i.data_bits) := by
      rw [viewBitsLow_mod _ _ _ h32, viewBitsLow_mod _ _ _ (Nat.le_refl _)]
    have hset : i.value.set (some (viewBitsLow i.data_bits ((loadBits v + 1) % 2 ^ i.data_bits)))
        = some { i.value with
            signal := some (viewBitsLow i.data_bits ((loadBits v + 1) % 2 ^ i.data_bits)) } := by
      apply Pin.set_ok
      intro old new hold hnew
      rw [hv] at hold
      cases hold
      cases hnew
      rw [hlen, viewBitsLow_length]
    rw [Input.interact_some i v hv, hload, Option.some_bind, if_pos h32, hmod, hset]
    rfl
  · intro j r hr
    cases hj : j.value.signal with
    | none =>
      rw [Input.interact_none j hj] at hr
      cases hr
      rfl
    | some s =>
      rw [Input.interact_some j s hj] at hr
      cases hload : load 32 s with
      | none => rw [hload] at hr; cases hr
      | some n =>
        rw [hload, Option.some_bind] at hr
        by_cases hb : j.data_bits ≤ 32
        · rw [if_pos hb] at hr
          cases hset : j.value.set (some (viewBitsLow j.data_bits ((n + 1) % 2 ^ 32))) with
          | none => rw [hset] at hr; cases hr
          | some p =>
            rw [hset] at hr
            simp only [Option.map_some'] at hr
            cases hr
            rfl
        · rw [if_neg hb] at hr
          cases hr

/-- Concrete instantiation of `C9_input_interact`: a fresh 2-bit input holds
`00` and `interact()` advances it to `01` (value 1, LSB first). -/
theorem C9_input_interact_witness :
    Input.interact (Input.new 2) = some
      ({ Input.new 2 with value := { (Input.new 2).value with
          signal := some (viewBitsLow 2 ((loadBits (signal_zeros 2) + 1) % 2 ^ 2)) } },
        true) :=
  (C9_input_interact (Input.new 2) (signal_zeros 2) rfl (by decide) (by decide) (by decide)).1

/-! ### Register sequences (claim C4) -/

/-- One simulated clock step: present the `(write_enable, data)` pair on the
two input pins, then `tick_clock`. -/
def Register.stepTick (r : Register) (we d : Option Signal) : Option Register := do
  let p ← r.write_enable.set we
  let q ← r.input.set d
  Register.tick_clock { r with write_enable := p, input := q }

/-- A whole sequence of clock steps. -/
def Register.runTicks (r : Register) (steps : List (Option Signal × Option Signal)) :
    Option Register :=
  steps.foldlM (fun r s => r.stepTick s.1 s.2) r

/-- The data value presented at the most recent step whose write-enable was
present with at least one bit set, starting from `init`. -/
def latchFold (steps : List (Option Signal × Option Signal)) (init : Option Signal) :
    Option Signal :=
  steps.foldl
    (fun acc s =>
      match s.1 with
      | some we => if anyBit we then s.2 else acc
      | none => acc)
    init

/-- Width discipline on the stored pin values of a register. -/
def RegInv (w : Nat) (r : Register) : Prop :=
  (∀ s, r.write_enable.signal = some s → s.length = 1) ∧
  (∀ s, r.input.signal = some s → s.length = w) ∧
  (∀ s, r.output.signal = some s → s.length = w)

theorem Register.tick_clock_none (r : Register) (h : r.write_enable.signal = none) :
    r.tick_clock = some r := by
  simp [Register.tick_clock, Pin.get, h]

theorem Register.tick_clock_latch (r : Register) (we : Signal)
    (h : r.write_enable.signal = some we) (ha : anyBit we = true) :
    r.tick_clock = (r.output.set r.input.get).map fun o => { r with output := o } := by
  simp [Register.tick_clock, Pin.get, h, ha]

theorem Register.tick_clock_hold (r : Register) (we : Signal)
    (h : r.write_enable.signal = some we) (ha : anyBit we = false) :
    r.tick_clock = some r := by
  simp [Register.tick_clock, Pin.get, h, ha]

theorem runTicks_spec (w : Nat) :
    ∀ (steps : List (Option Signal × Option Signal)) (r : Register),
    (∀ s ∈ steps, ∀ v, s.1 = some v → v.length = 1) →
    (∀ s ∈ steps, ∀ v, s.2 = some v → v.length = w) →
    RegInv w r →
    ∃ r', Register.runTicks r steps = some r' ∧ RegInv w r' ∧
      r'.output.signal = latchFold steps r.output.signal := by
  intro steps
  induction steps with
  | nil =>
    intro r _ _ hinv
    exact ⟨r, rfl, hinv, rfl⟩
  | cons s rest ih =>
    intro r hwe hd hinv
    obtain ⟨hinv_we, hinv_in, hinv_out⟩ := hinv
    have hp : r.write_enable.set s.1 = some { r.write_enable with signal := s.1 } := by
      apply Pin.set_ok
      intro old new hold hnew
      rw [hinv_we old hold, hwe s (by simp) new hnew]
    have hq : r.input.set s.2 = some { r.input with signal := s.2 } := by
      apply Pin.set_ok
      intro old new hold hnew
      rw [hinv_in old hold, hd s (by simp) new hnew]
    set r1 : Register :=
      { r with write_enable := { r.write_enable with signal := s.1 },
               input := { r.input with signal := s.2 } } with hr1
    have hinv1_we : ∀ t, r1.write_enable.signal = some t → t.length = 1 := by
      intro t ht
      exact hwe s (by simp) t ht
    have hinv1_in : ∀ t, r1.input.signal = some t → t.length = w :=
      fun t ht => hd s (by simp) t ht
    have htick : ∃ r2, r1.tick_clock = some r2 ∧
        r2.output.signal =
          (match s.1 with
            | some we => if anyBit we then s.2 else r.output.signal
            | none => r.output.signal) ∧
        RegInv w r2 := by
      have hwe1 : r1.write_enable.signal = s.1 := rfl
      cases h1 : s.1 with
      | none =>
        rw [Register.tick_clock_none r1 (by rw [hwe1, h1])]
        exact ⟨r1, rfl, rfl, hinv1_we, hinv1_in, hinv_out⟩
      | some we =>
        by_cases hany : anyBit we = true
        · rw [Register.tick_clock_latch r1 we (by rw [hwe1, h1]) hany]
          have hin : r1.input.get = s.2 := rfl
          have hset_out : r1.output.set r1.input.get =
              some { r1.output with signal := s.2 } := by
            rw [hin]
            apply Pin.set_ok
            intro old new hold hnew
            rw [hinv_out old hold, hd s (by simp) new hnew]
          rw [hset_out]
          refine ⟨{ r1 with output := { r1.output with signal := s.2 } }, rfl,
            by simp [hany], hinv1_we, hinv1_in, ?_⟩
          intro t ht
          exact hd s (by simp) t ht
        · rw [Register.tick_clock_hold r1 we (by rw [hwe1, h1])
            (Bool.not_eq_true _ ▸ hany)]
          exact ⟨r1, rfl, by simp [hany], hinv1_we, hinv1_in, hinv_out⟩
    obtain ⟨r2, hr2, hr2out, hr2inv⟩ := htick
    have hstep : r.stepTick s.1 s.2 = some r2 := by
      unfold Register.stepTick
      rw [hp, hq]
      simpa using hr2
    obtain ⟨r', hrun, hinv', hout'⟩ :=
      ih r2 (fun t ht v hv => hwe t (by simp [ht]) v hv)
        (fun t ht v hv => hd t (by simp [ht]) v hv) hr2inv
    refine ⟨r', ?_, hinv', ?_⟩
    · unfold Register.runTicks at hrun ⊢
      rw [List.foldlM_cons, hstep]
      exact hrun
    · rw [hout', hr2out]
      unfold latchFold
      rw [List.foldl_cons]

/-- claim C4 as stated is false: after one tick with an absent write-enable,
a fresh 1-bit register's output is absent, not the claimed initial zero
state. -/
theorem C4_register_counterexample :
    (Register.runTicks (Register.new 1) [(none, none)]).map (fun r => r.output.signal) =
      some none ∧
    latchFold [(none, none)] (some (signal_zeros 1)) = some (signal_zeros 1) ∧
    (none : Option Signal) ≠ some (signal_zeros 1) := by
  refine ⟨rfl, rfl, by decide⟩

/-- claim C4, amended: the output of a fresh register after a sequence of
`(write_enable, data)` ticks is the data value most recently presented at a
tick whose write-enable was present with a set bit, or stays absent — not the
zero state — when no such tick has occurred; and `evaluate()` never changes a
register. -/
theorem C4_register_amended (w : Nat) (steps : List (Option Signal × Option Signal))
    (hwe : ∀ s ∈ steps, ∀ v, s.1 = some v → v.length = 1)
    (hd : ∀ s ∈ steps, ∀ v, s.2 = some v → v.length = w) :
    (∃ r', Register.runTicks (Register.new w) steps = some r' ∧
      r'.output.signal = latchFold steps none) ∧
    (∀ r : Register, Comp.do_logic (Comp.register r) = some (Comp.register r)) := by
  constructor
  · have hinv : RegInv w (Register.new w) := by
      refine ⟨?_, ?_, ?_⟩ <;> · intro s hs; cases hs
    obtain ⟨r', hrun, _, hout⟩ := runTicks_spec w steps (Register.new w) hwe hd hinv
    exact ⟨r', hrun, hout⟩
  · intro r; rfl

/-- Concrete instantiation of `C4_register_amended`: write-enable set with
data `1` latches `1`. -/
theorem C4_register_amended_witness :
    (∃ r', Register.runTicks (Register.new 1) [(some [true], some [true])] = some r' ∧
      r'.output.signal = latchFold [(some [true], some [true])] none) ∧
    (∀ r : Register, Comp.do_logic (Comp.register r) = some (Comp.register r)) :=
  C4_register_amended 1 [(some [true], some [true])] (by decide) (by decide)

/-! ### Demux evaluation (claim C5) -/

theorem Demux.do_logic_none (d : Demux) (h : d.selector.signal = none) :
    d.do_logic = some d := by
  simp [Demux.do_logic, Pin.get, h]

theorem Demux.do_logic_some (d : Demux) (s : Signal) (h : d.selector.signal = some s) :
    d.do_logic = (load 64 s).bind fun sel =>
      ((d.outputs.map Pin.fillFalse)[sel]?).bind fun p =>
        (p.set d.input.get).bind fun p' =>
          some { d with outputs := (d.outputs.map Pin.fillFalse).set sel p' } := by
  simp [Demux.do_logic, Pin.get, h]

/-- claim C5 as stated is false: with a present selector, an output pin that
was absent before `evaluate()` stays absent; it is not zeroed. For the demux
below (selector present with value 0, `outputs[1]` absent) the claim demands
`outputs[1] = 0` after evaluation, yet it stays absent. -/
theorem C5_demux_counterexample :
    (Demux.do_logic
        { sel_bits := 1, data_bits := 1, input := Pin.mk 1 (some [true]), outputs := [Pin.mk 1 (some [true]), Pin.mk 1 none], selector := Pin.mk 1 (some [false]) }).map
        (fun d => d.outputs.map Pin.signal) =
      some [some [true], none] ∧
    (none : Option Signal) ≠ some (signal_zeros 1) := by
  exact ⟨rfl, by decide⟩

/-- claim C5, amended: `evaluate()` with an absent selector changes nothing at
all (stale values persist, absent ones included); with a present selector of
value `s` every output that holds a value is zeroed, absent outputs remain
absent, and the data-input pin's value is then copied into output `s` only. -/
theorem C5_demux_amended (d : Demux) :
    (d.selector.signal = none → d.do_logic = some d) ∧
    (∀ s sel, d.selector.signal = some s → 1 ≤ s.length → s.length ≤ 64 →
      loadBits s = sel → sel < d.outputs.length →
      (∀ p t v, d.outputs[sel]? = some p → p.signal = some t → d.input.signal = some v →
        t.length = v.length) →
      ∃ d', d.do_logic = some d' ∧
        d'.outputs.length = d.outputs.length ∧
        ((d'.outputs[sel]?).map Pin.signal = some d.input.signal) ∧
        (∀ j, j ≠ sel →
          (d'.outputs[j]?).map Pin.signal =
            (d.outputs[j]?).map (fun p => p.signal.map (fun t => List.replicate t.length false)))) := by
  constructor
  · exact fun h => Demux.do_logic_none d h
  · intro s sel hsel hs1 hs64 hsel_val hrange hcompat
    obtain ⟨p0, hp0⟩ : ∃ p0, d.outputs[sel]? = some p0 :=
      ⟨_, List.getElem?_eq_getElem hrange⟩
    have hload : load 64 s = some sel := by
      unfold load
      rw [if_pos ⟨hs1, hs64⟩, hsel_val]
    have houts : (d.outputs.map Pin.fillFalse)[sel]? = some (Pin.fillFalse p0) := by
      rw [List.getElem?_map, hp0]
      rfl
    have hset : (Pin.fillFalse p0).set d.input.get =
        some { Pin.fillFalse p0 with signal := d.input.signal } := by
      apply Pin.set_ok
      intro old new hold hnew
      have hnew' : d.input.signal = some new := hnew
      cases ht : p0.signal with
      | none => rw [Pin.fillFalse, ht] at hold; cases hold
      | some t =>
        rw [Pin.fillFalse, ht] at hold
        simp only [Option.map_some'] at hold
        cases hold
        simpa using hcompat p0 t new hp0 ht hnew'
    refine ⟨{ d with outputs := (d.outputs.map Pin.fillFalse).set sel { Pin.fillFalse p0 with signal := d.input.signal } }, ?_, ?_, ?_, ?_⟩
    · rw [Demux.do_logic_some d s hsel, hload, Option.some_bind, houts, Option.some_bind,
        hset, Option.some_bind]
    · simp
    · have hlen : sel < (d.outputs.map Pin.fillFalse).length := by simpa using hrange
      simp [List.getElem?_set_self hlen]
    · intro j hj
      simp only [List.getElem?_set_ne (fun h => hj h.symm), List.getElem?_map, hp0]
      cases hj' : d.outputs[j]? with
      | none => rfl
      | some pj => rfl

/-- Concrete instantiation of `C5_demux_amended`: selector value 1 routes the
input into output 1, zeroing the present output 0. -/
theorem C5_demux_amended_witness :
    ∃ d', Demux.do_logic
        { sel_bits := 1, data_bits := 1, input := Pin.mk 1 (some [true]), outputs := [Pin.mk 1 (some [true]), Pin.mk 1 (some [false])], selector := Pin.mk 1 (some [true]) } = some d' ∧
      d'.outputs.length = 2 ∧
      (d'.outputs[1]?).map Pin.signal = some (some [true]) ∧
      (d'.outputs[0]?).map Pin.signal = some (some [false]) := by
  obtain ⟨d', h1, h2, h3, h4⟩ :=
    (C5_demux_amended
      { sel_bits := 1, data_bits := 1, input := Pin.mk 1 (some [true]), outputs := [Pin.mk 1 (some [true]), Pin.mk 1 (some [false])], selector := Pin.mk 1 (some [true]) }).2
      [true] 1 rfl (by decide) (by decide) (by decide) (by decide)
      (by intro p t v hp ht hv
          cases hp
          cases ht
          cases hv
          rfl)
  refine ⟨d', h1, by simpa using h2, by simpa using h3, ?_⟩
  have := h4 0 (by decide)
  simpa using this

/-! ### Splitter round trip (claim C7) -/

/-- Append a bit at the back of arm `j` (the queue discipline of the
splitter's push loop, on bare bit lists). -/
def pushToArm (arms : List (List Bool)) (j : Nat) (b : Bool) : List (List Bool) :=
  arms.set j (((arms[j]?).getD []) ++ [b])

/-- Remove the front bit of arm `j`. -/
def popArm (arms : List (List Bool)) (j : Nat) : List (List Bool) :=
  arms.set j ((arms[j]?).getD []).tail

/-- The splitter push loop on bare bit lists. -/
def pureSplit : List Nat → List Bool → List (List Bool) → List (List Bool)
  | [], _, arms => arms
  | _ :: _, [], arms => arms
  | m :: ms, b :: bs, arms => pureSplit ms bs (pushToArm arms m b)

/-- "Unsplitting" as the spec describes it: rebuild the input by walking the
recorded bit-to-arm mapping in increasing source-bit order, consuming the
front bit of the arm each source bit was assigned to. -/
def unsplit : List Nat → List (List Bool) → List Bool
  | [], _ => []
  | m :: ms, arms => ((((arms[m]?).getD []).head?).getD false) :: unsplit ms (popArm arms m)

theorem length_pushToArm (arms : List (List Bool)) (j : Nat) (b : Bool) :
    (pushToArm arms j b).length = arms.length := by
  simp [pushToArm]

theorem length_popArm (arms : List (List Bool)) (j : Nat) :
    (popArm arms j).length = arms.length := by
  simp [popArm]

theorem set_of_getElem? {α : Type} (l : List α) (j : Nat) (x : α)
    (h : l[j]? = some x) : l.set j x = l := by
  induction l generalizing j with
  | nil => cases h
  | cons y ys ih =>
    cases j with
    | zero =>
      simp only [List.getElem?_cons_zero, Option.some_inj] at h
      rw [List.set_cons_zero, h]
    | succ n =>
      simp only [List.getElem?_cons_succ] at h
      rw [List.set_cons_succ, ih n h]

theorem pushToArm_nonempty (arms : List (List Bool)) (m j : Nat) (b : Bool)
    (h : ((arms[j]?).getD []) ≠ []) : (((pushToArm arms m b)[j]?).getD []) ≠ [] := by
  by_cases hjm : m = j
  · subst hjm
    by_cases hm : m < arms.length
    · simp [pushToArm, List.getElem?_set_self (by simpa using hm)]
    · have : arms[m]? = none := List.getElem?_eq_none (by omega)
      simp [this] at h
  · simpa [pushToArm, List.getElem?_set_ne hjm] using h

theorem pushToArm_head (arms : List (List Bool)) (m j : Nat) (b : Bool)
    (h : ((arms[j]?).getD []) ≠ []) :
    (((pushToArm arms m b)[j]?).getD []).head? = ((arms[j]?).getD []).head? := by
  by_cases hjm : m = j
  · subst hjm
    by_cases hm : m < arms.length
    · cases ha : arms[m]? with
      | none => simp [ha] at h
      | some a =>
        have ha' : a ≠ [] := by simpa [ha] using h
        have hsome : (a.head?).isSome := List.head?_isSome.mpr ha'
        simp [pushToArm, List.getElem?_set_self hm, ha, List.head?_append,
          Option.or_of_isSome hsome]
    · have : arms[m]? = none := List.getElem?_eq_none (by omega)
      simp [this] at h
  · simp [pushToArm, List.getElem?_set_ne hjm]

theorem pushToArm_popArm_comm (arms : List (List Bool)) (m j : Nat) (b : Bool)
    (hj : j < arms.length) (h : ((arms[j]?).getD []) ≠ []) :
    popArm (pushToArm arms m b) j = pushToArm (popArm arms j) m b := by
  by_cases hjm : m = j
  · subst hjm
    obtain ⟨a, ha⟩ : ∃ a, arms[m]? = some a := ⟨_, List.getElem?_eq_getElem hj⟩
    have ha' : a ≠ [] := by simpa [ha] using h
    unfold popArm pushToArm
    rw [List.getElem?_set_self hj, List.getElem?_set_self hj, ha]
    simp only [Option.getD_some, List.set_set]
    rw [List.tail_append_of_ne_nil ha']
  · unfold popArm pushToArm
    rw [List.getElem?_set_ne hjm, List.getElem?_set_ne (fun hh => hjm hh.symm)]
    exact List.set_comm _ _ _ hjm

theorem pureSplit_head : ∀ (ms : List Nat) (bs : List Bool) (arms : List (List Bool))
    (j : Nat), ((arms[j]?).getD []) ≠ [] →
    ((((pureSplit ms bs arms)[j]?).getD []) ≠ [] ∧
      (((pureSplit ms bs arms)[j]?).getD []).head? = ((arms[j]?).getD []).head?) := by
  intro ms
  induction ms with
  | nil => intro bs arms j h; exact ⟨h, rfl⟩
  | cons m ms ih =>
    intro bs arms j h
    cases bs with
    | nil => exact ⟨h, rfl⟩
    | cons b bs =>
      have hne := pushToArm_nonempty arms m j b h
      have hhd := pushToArm_head arms m j b h
      obtain ⟨h1, h2⟩ := ih bs (pushToArm arms m b) j hne
      have hred : pureSplit (m :: ms) (b :: bs) arms = pureSplit ms bs (pushToArm arms m b) :=
        rfl
      rw [hred]
      exact ⟨h1, by rw [h2, hhd]⟩

theorem pureSplit_pop : ∀ (ms : List Nat) (bs : List Bool) (arms : List (List Bool))
    (j : Nat), j < arms.length → ((arms[j]?).getD []) ≠ [] →
    (∀ m ∈ ms, m < arms.length) →
    popArm (pureSplit ms bs arms) j = pureSplit ms bs (popArm arms j) := by
  intro ms
  induction ms with
  | nil => intro bs arms j _ _ _; rfl
  | cons m ms ih =>
    intro bs arms j hj h hms
    cases bs with
    | nil => rfl
    | cons b bs =>
      have hne := pushToArm_nonempty arms m j b h
      have hlen : j < (pushToArm arms m b).length := by rw [length_pushToArm]; exact hj
      have hms' : ∀ m' ∈ ms, m' < (pushToArm arms m b).length := by
        intro m' hm'
        rw [length_pushToArm]
        exact hms m' (by simp [hm'])
      calc popArm (pureSplit ms bs (pushToArm arms m b)) j
          = pureSplit ms bs (popArm (pushToArm arms m b) j) :=
            ih bs (pushToArm arms m b) j hlen hne hms'
        _ = pureSplit ms bs (pushToArm (popArm arms j) m b) := by
            rw [pushToArm_popArm_comm arms m j b hj h]

theorem unsplit_pureSplit : ∀ (ms : List Nat) (bs : List Bool) (arms : List (List Bool)),
    bs.length = ms.length → (∀ m ∈ ms, m < arms.length) → (∀ a ∈ arms, a = []) →
    unsplit ms (pureSplit ms bs arms) = bs := by
  intro ms
  induction ms with
  | nil =>
    intro bs arms hlen _ _
    rw [List.length_eq_zero.mp hlen]
    rfl
  | cons m ms ih =>
    intro bs arms hlen hms hempty
    cases bs with
    | nil => cases hlen
    | cons b bs =>
      have hm : m < arms.length := hms m (by simp)
      obtain ⟨a, ha⟩ : ∃ a, arms[m]? = some a := ⟨_, List.getElem?_eq_getElem hm⟩
      have ha0 : a = [] := hempty a (List.getElem?_mem ha)
      subst ha0
      have hpush : (pushToArm arms m b)[m]? = some [b] := by
        simp [pushToArm, List.getElem?_set_self (by simpa using hm), ha]
      have hpush_len : ∀ m' ∈ ms, m' < (pushToArm arms m b).length := by
        intro m' hm'
        rw [length_pushToArm]
        exact hms m' (by simp [hm'])
      have hne : (((pushToArm arms m b)[m]?).getD []) ≠ [] := by simp [hpush]
      obtain ⟨h1, h2⟩ := pureSplit_head ms bs (pushToArm arms m b) m hne
      have hpop : popArm (pureSplit ms bs (pushToArm arms m b)) m =
          pureSplit ms bs (popArm (pushToArm arms m b) m) :=
        pureSplit_pop ms bs (pushToArm arms m b) m
          (by rw [length_pushToArm]; exact hm) hne hpush_len
      have hpoppush : popArm (pushToArm arms m b) m = arms := by
        unfold popArm
        rw [hpush]
        simp only [Option.getD_some, List.tail_cons]
        unfold pushToArm
        rw [List.set_set]
        exact set_of_getElem? arms m [] ha
      have hred : pureSplit (m :: ms) (b :: bs) arms = pureSplit ms bs (pushToArm arms m b) :=
        rfl
      rw [hred]
      show (_ :: _) = b :: bs
      congr 1
      · rw [h2, hpush]
        rfl
      · rw [hpop, hpoppush]
        exact ih bs arms (by simpa using hlen) (fun m' hm' => hms m' (by simp [hm'])) hempty

/-- The stored arm contents of a pin list. -/
def projArms (outs : List Pin) : List (List Bool) := outs.map (fun p => (p.signal).getD [])

theorem splitGoPins_sim : ∀ (ms : List Nat) (bs : List Bool) (outs : List Pin),
    (∀ m ∈ ms, m < outs.length) → ms.length ≤ bs.length →
    (∀ p ∈ outs, (p.signal).isSome) →
    ∃ outs', splitGoPins ms bs outs = some outs' ∧
      projArms outs' = pureSplit ms bs (projArms outs) ∧
      outs'.length = outs.length ∧ (∀ p ∈ outs', (p.signal).isSome) := by
  intro ms
  induction ms with
  | nil =>
    intro bs outs _ _ hsome
    exact ⟨outs, rfl, rfl, rfl, hsome⟩
  | cons m ms ih =>
    intro bs outs hms hlen hsome
    cases bs with
    | nil => simp at hlen
    | cons b bs =>
      have hm : m < outs.length := hms m (by simp)
      obtain ⟨p, hp⟩ : ∃ p, outs[m]? = some p := ⟨_, List.getElem?_eq_getElem hm⟩
      obtain ⟨s, hs⟩ : ∃ s, p.signal = some s :=
        Option.isSome_iff_exists.mp (hsome p (List.getElem?_mem hp))
      have hstep : splitGoPins (m :: ms) (b :: bs) outs =
          splitGoPins ms bs (outs.set m { p with signal := some (s ++ [b]) }) := by
        simp [splitGoPins, hp, hs]
      have hlen' : ∀ m' ∈ ms, m' < (outs.set m { p with signal := some (s ++ [b]) }).length := by
        intro m' hm'
        rw [List.length_set]
        exact hms m' (by simp [hm'])
      have hsome' : ∀ q ∈ outs.set m { p with signal := some (s ++ [b]) }, (q.signal).isSome := by
        intro q hq
        rcases List.mem_or_eq_of_mem_set hq with hq | hq
        · exact hsome q hq
        · rw [hq]; rfl
      obtain ⟨outs', hgo, hproj, hlen2, hsome2⟩ :=
        ih bs (outs.set m { p with signal := some (s ++ [b]) }) hlen' (by simpa using hlen) hsome'
      refine ⟨outs', by rw [hstep, hgo], ?_, by rw [hlen2, List.length_set], hsome2⟩
      rw [hproj]
      show pureSplit ms bs _ = pureSplit (m :: ms) (b :: bs) (projArms outs)
      have harm : ((projArms outs)[m]?).getD [] = s := by
        simp [projArms, List.getElem?_map, hp, hs]
      have : projArms (outs.set m { p with signal := some (s ++ [b]) }) =
          pushToArm (projArms outs) m b := by
        unfold pushToArm
        rw [harm]
        simp [projArms, List.map_set]
      rw [this]
      rfl

theorem Splitter.do_logic_some_s (sp : Splitter) (input : Signal)
    (h : sp.input.signal = some input) :
    sp.do_logic = (splitGoPins sp.mapping input
        (sp.outputs.map fun p => { p with signal := some [] })).bind
      fun outs => some { sp with outputs := outs } := by
  simp [Splitter.do_logic, Pin.get, h]

theorem Splitter.do_logic_absent (sp : Splitter) (h : sp.input.signal = none) :
    sp.do_logic = some { sp with outputs := sp.outputs.map fun p => { p with signal := none } } := by
  simp [Splitter.do_logic, Pin.get, h]

/-- claim C7: for every splitter whose mapping has one entry per input bit and
targets existing arms, evaluating on a present input of width `Win` and then
re-concatenating the arms in recorded bit order reconstructs the input
exactly; evaluating on an absent input makes every arm absent. -/
theorem C7_splitter_roundtrip (sp : Splitter) :
    (∀ input : Signal, sp.input.signal = some input →
      sp.mapping.length = input.length →
      input.length = sp.data_bits_in →
      sp.data_bits_out.sum = sp.data_bits_in →
      (∀ m ∈ sp.mapping, m < sp.outputs.length) →
      ∃ sp', sp.do_logic = some sp' ∧
        unsplit sp.mapping (projArms sp'.outputs) = input) ∧
    (sp.input.signal = none →
      ∃ sp', sp.do_logic = some sp' ∧ ∀ p ∈ sp'.outputs, p.signal = none) := by
  constructor
  · intro input hin hmaplen hwin _ hbound
    set cleared : List Pin := sp.outputs.map fun p => { p with signal := some [] } with hcl
    have hcl_len : cleared.length = sp.outputs.length := by simp [hcl]
    have hbound' : ∀ m ∈ sp.mapping, m < cleared.length := by
      rw [hcl_len]; exact hbound
    have hsome : ∀ p ∈ cleared, (p.signal).isSome := by
      intro p hp
      rcases List.mem_map.mp hp with ⟨q, _, hq⟩
      rw [← hq]
      rfl
    obtain ⟨outs', hgo, hproj, _, _⟩ :=
      splitGoPins_sim sp.mapping input cleared hbound' (by omega) hsome
    refine ⟨{ sp with outputs := outs' }, ?_, ?_⟩
    · rw [Splitter.do_logic_some_s sp input hin, ← hcl, hgo, Option.some_bind]
    · show unsplit sp.mapping (projArms outs') = input
      rw [hproj]
      apply unsplit_pureSplit
      · omega
      · intro m hm
        simp only [projArms, List.length_map]
        rw [hcl_len]
        exact hbound m hm
      · intro a ha
        rcases List.mem_map.mp ha with ⟨p, hp, hpa⟩
        rcases List.mem_map.mp hp with ⟨q, _, hq⟩
        rw [← hpa, ← hq]
        rfl
  · intro hin
    refine ⟨_, Splitter.do_logic_absent sp hin, ?_⟩
    intro p hp
    rcases List.mem_map.mp hp with ⟨q, _, hq⟩
    rw [← hq]

/-- Concrete instantiation of `C7_splitter_roundtrip`: splitting `101` (LSB
first) over two arms with mapping `[0, 1, 0]` and unsplitting restores
`101`. -/
theorem C7_splitter_roundtrip_witness :
    ∃ sp', Splitter.do_logic
        { input := Pin.mk 3 (some [true, false, true]), outputs := [Pin.new 2, Pin.new 1], data_bits_in := 3, data_bits_out := [2, 1], mapping := [0, 1, 0] } = some sp' ∧
      unsplit [0, 1, 0] (projArms sp'.outputs) = [true, false, true] :=
  (C7_splitter_roundtrip _).1 [true, false, true] rfl (by decide) (by decide) (by decide)
    (by decide)

/-- Concrete instantiation of `C3_and_or_gates`: a 2-bit OR gate with inputs
`01` and `10` evaluates to `11`. -/
theorem C3_and_or_gates_witness :
    ((Gate.do_logic
        { kind := GateKind.Or
          data_bits := 2
          inputs := [Pin.mk 2 (some [true, false]), Pin.mk 2 (some [false, true])]
          output := Pin.new 2 }).map (fun x => x.output.signal)) =
      some (some ([[true, false], [false, true]].foldl (List.zipWith (gateFoldOp GateKind.Or))
        (gateUnit GateKind.Or 2))) :=
  (C3_and_or_gates _ (Or.inl rfl)).2.1 [[true, false], [false, true]] (by decide) (by decide)

/-! ### Scheduler infrastructure: pin slot lemmas -/

theorem Pin.set_self (p : Pin) : p.set p.signal = some p := by
  cases p with
  | mk b s =>
    cases s with
    | none => rfl
    | some old => simp [Pin.set]

theorem setPinAt_eq_some {ps : List Pin} {i : Nat} {v : Option Signal} {ps' : List Pin}
    (h : setPinAt ps i v = some ps') :
    ∃ p p', ps[i]? = some p ∧ p.set v = some p' ∧ ps' = ps.set i p' := by
  unfold setPinAt at h
  simp only [Option.bind_eq_bind] at h
  cases hp : ps[i]? with
  | none => rw [hp] at h; cases h
  | some p =>
    rw [hp, Option.some_bind] at h
    cases hset : p.set v with
    | none => rw [hset] at h; cases h
    | some p' =>
      rw [hset, Option.some_bind] at h
      cases h
      exact ⟨p, p', rfl, hset, rfl⟩

theorem setPinAt_ok {ps : List Pin} {i : Nat} {v : Option Signal} {p : Pin}
    (hp : ps[i]? = some p)
    (h : ∀ s s', p.signal = some s → v = some s' → s.length = s'.length) :
    setPinAt ps i v = some (ps.set i { p with signal := v }) := by
  unfold setPinAt
  simp only [Option.bind_eq_bind]
  rw [hp, Option.some_bind, Pin.set_ok p v h, Option.some_bind]

theorem setPinAt_self {ps : List Pin} {i : Nat} {p : Pin} (hp : ps[i]? = some p) :
    setPinAt ps i p.signal = some ps := by
  unfold setPinAt
  simp only [Option.bind_eq_bind]
  rw [hp, Option.some_bind, Pin.set_self, Option.some_bind, set_of_getElem? ps i p hp]

theorem setPinAt_bits {ps : List Pin} {i : Nat} {v : Option Signal} {ps' : List Pin}
    (h : setPinAt ps i v = some ps') : ps'.map Pin.bits = ps.map Pin.bits := by
  obtain ⟨p, p', hp, hset, rfl⟩ := setPinAt_eq_some h
  obtain ⟨hbits, _⟩ := Pin.set_eq_some hset
  rw [List.map_set, hbits]
  exact set_of_getElem? _ i _ (by rw [List.getElem?_map, hp]; rfl)

theorem setPinAt_get_self {ps : List Pin} {i : Nat} {v : Option Signal} {ps' : List Pin}
    (h : setPinAt ps i v = some ps') : getPinAt ps' i = some v := by
  obtain ⟨p, p', hp, hset, rfl⟩ := setPinAt_eq_some h
  obtain ⟨_, hsig⟩ := Pin.set_eq_some hset
  have hi : i < ps.length := by
    by_contra hi
    rw [List.getElem?_eq_none (by omega)] at hp
    cases hp
  unfold getPinAt
  rw [List.getElem?_set_self hi, Option.map_some']
  rw [Pin.get, hsig]

theorem setPinAt_get_ne {ps : List Pin} {i j : Nat} {v : Option Signal} {ps' : List Pin}
    (h : setPinAt ps i v = some ps') (hij : i ≠ j) : getPinAt ps' j = getPinAt ps j := by
  obtain ⟨p, p', hp, hset, rfl⟩ := setPinAt_eq_some h
  unfold getPinAt
  rw [List.getElem?_set_ne hij]

theorem getPinAt_eq_some {ps : List Pin} {i : Nat} {v : Option Signal}
    (h : getPinAt ps i = some v) : ∃ p, ps[i]? = some p ∧ p.signal = v := by
  unfold getPinAt at h
  cases hp : ps[i]? with
  | none => rw [hp] at h; cases h
  | some p =>
    rw [hp, Option.map_some'] at h
    cases h
    exact ⟨p, rfl, rfl⟩

/-- Widths stored in a pin agree with its declared width. -/
def PinOK (p : Pin) : Prop := ∀ s, p.signal = some s → s.length = p.bits

theorem PinOK_set {p p' : Pin} {v : Option Signal} (h : p.set v = some p')
    (hv : ∀ s, v = some s → s.length = p.bits) : PinOK p' := by
  obtain ⟨hbits, hsig⟩ := Pin.set_eq_some h
  intro s hs
  rw [hbits]
  exact hv s (by rw [← hsig, hs])

theorem bitsAt_congr {ps ps' : List Pin} (h : ps'.map Pin.bits = ps.map Pin.bits)
    (j : Nat) : (ps'[j]?).map Pin.bits = (ps[j]?).map Pin.bits := by
  rw [← List.getElem?_map, ← List.getElem?_map, h]

/-- `set_pin_value` never changes any declared pin width. -/
theorem Comp.set_pin_value_width {c : Comp} {px : PinIndex} {v : Option Signal} {c' : Comp}
    (h : c.set_pin_value px v = some c') :
    ∀ qx, c'.get_pin_width qx = c.get_pin_width qx := by
  intro qx
  cases c <;> rcases px with i | i
  case gate.Input g =>
    rcases Option.map_eq_some'.mp h with ⟨ps', hset, hc⟩
    subst hc
    have hb := setPinAt_bits hset
    rcases qx with j | j
    · exact bitsAt_congr hb j
    · cases j <;> rfl
  case gate.Output g =>
    cases i with
    | zero =>
      rcases Option.map_eq_some'.mp h with ⟨o, hset, hc⟩
      subst hc
      obtain ⟨hbits, _⟩ := Pin.set_eq_some hset
      rcases qx with j | j
      · rfl
      · cases j <;> simp [Comp.get_pin_width, hbits]
    | succ n => cases h
  case mux.Input m =>
    cases i with
    | zero =>
      rcases Option.map_eq_some'.mp h with ⟨p, hset, hc⟩
      subst hc
      obtain ⟨hbits, _⟩ := Pin.set_eq_some hset
      rcases qx with j | j
      · cases j <;> simp [Comp.get_pin_width, hbits]
      · cases j <;> rfl
    | succ n =>
      rcases Option.map_eq_some'.mp h with ⟨ps', hset, hc⟩
      subst hc
      have hb := setPinAt_bits hset
      rcases qx with j | j
      · cases j with
        | zero => rfl
        | succ j => exact bitsAt_congr hb j
      · cases j <;> rfl
  case mux.Output m =>
    cases i with
    | zero =>
      rcases Option.map_eq_some'.mp h with ⟨o, hset, hc⟩
      subst hc
      obtain ⟨hbits, _⟩ := Pin.set_eq_some hset
      rcases qx with j | j
      · cases j <;> rfl
      · cases j <;> simp [Comp.get_pin_width, hbits]
    | succ n => cases h
  case demux.Input d =>
    cases i with
    | zero =>
      rcases Option.map_eq_some'.mp h with ⟨p, hset, hc⟩
      subst hc
      obtain ⟨hbits, _⟩ := Pin.set_eq_some hset
      rcases qx with j | j
      · cases j with
        | zero => simp [Comp.get_pin_width, hbits]
        | succ j => cases j <;> rfl
      · rfl
    | succ n =>
      cases n with
      | zero =>
        rcases Option.map_eq_some'.mp h with ⟨p, hset, hc⟩
        subst hc
        obtain ⟨hbits, _⟩ := Pin.set_eq_some hset
        rcases qx with j | j
        · cases j with
          | zero => rfl
          | succ j => cases j <;> simp [Comp.get_pin_width, hbits]
        · rfl
      | succ n => cases h
  case demux.Output d =>
    rcases Option.map_eq_some'.mp h with ⟨ps', hset, hc⟩
    subst hc
    have hb := setPinAt_bits hset
    rcases qx with j | j
    · cases j with
      | zero => rfl
      | succ j => cases j <;> rfl
    · exact bitsAt_congr hb j
  case register.Input r =>
    cases i with
    | zero =>
      rcases Option.map_eq_some'.mp h with ⟨p, hset, hc⟩
      subst hc
      obtain ⟨hbits, _⟩ := Pin.set_eq_some hset
      rcases qx with j | j
      · cases j with
        | zero => simp [Comp.get_pin_width, hbits]
        | succ j => cases j <;> rfl
      · cases j <;> rfl
    | succ n =>
      cases n with
      | zero =>
        rcases Option.map_eq_some'.mp h with ⟨p, hset, hc⟩
        subst hc
        obtain ⟨hbits, _⟩ := Pin.set_eq_some hset
        rcases qx with j | j
        · cases j with
          | zero => rfl
          | succ j => cases j <;> simp [Comp.get_pin_width, hbits]
        · cases j <;> rfl
      | succ n => cases h
  case register.Output r =>
    cases i with
    | zero =>
      rcases Option.map_eq_some'.mp h with ⟨p, hset, hc⟩
      subst hc
      obtain ⟨hbits, _⟩ := Pin.set_eq_some hset
      rcases qx with j | j
      · cases j with
        | zero => rfl
        | succ j => cases j <;> rfl
      · cases j <;> simp [Comp.get_pin_width, hbits]
    | succ n => cases h
  case inputC.Input ic => cases h
  case inputC.Output ic =>
    cases i with
    | zero =>
      rcases Option.map_eq_some'.mp h with ⟨p, hset, hc⟩
      subst hc
      obtain ⟨hbits, _⟩ := Pin.set_eq_some hset
      rcases qx with j | j
      · rfl
      · cases j <;> simp [Comp.get_pin_width, hbits]
    | succ n => cases h
  case outputC.Input oc =>
    cases i with
    | zero =>
      rcases Option.map_eq_some'.mp h with ⟨p, hset, hc⟩
      subst hc
      obtain ⟨hbits, _⟩ := Pin.set_eq_some hset
      rcases qx with j | j
      · cases j <;> simp [Comp.get_pin_width, hbits]
      · rfl
    | succ n => cases h
  case outputC.Output oc => cases h
  case splitter.Input sp =>
    cases i with
    | zero =>
      rcases Option.map_eq_some'.mp h with ⟨p, hset, hc⟩
      subst hc
      obtain ⟨hbits, _⟩ := Pin.set_eq_some hset
      rcases qx with j | j
      · cases j <;> simp [Comp.get_pin_width, hbits]
      · rfl
    | succ n => cases h
  case splitter.Output sp =>
    rcases Option.map_eq_some'.mp h with ⟨ps', hset, hc⟩
    subst hc
    have hb := setPinAt_bits hset
    rcases qx with j | j
    · cases j <;> rfl
    · exact bitsAt_congr hb j
  case tunnel.Input t =>
    cases i with
    | zero =>
      rcases Option.map_eq_some'.mp h with ⟨p, hset, hc⟩
      subst hc
      obtain ⟨hbits, _⟩ := Pin.set_eq_some hset
      rcases qx with j | j
      · cases j <;> simp [Comp.get_pin_width, hbits]
      · cases j <;> simp [Comp.get_pin_width, hbits]
    | succ n => cases h
  case tunnel.Output t =>
    cases i with
    | zero =>
      rcases Option.map_eq_some'.mp h with ⟨p, hset, hc⟩
      subst hc
      obtain ⟨hbits, _⟩ := Pin.set_eq_some hset
      rcases qx with j | j
      · cases j <;> simp [Comp.get_pin_width, hbits]
      · cases j <;> simp [Comp.get_pin_width, hbits]
    | succ n => cases h

/-! ### Per-kind evaluation lemmas -/

attribute [ext] Pin Gate Mux Demux Register Input Output Splitter Tunnel Wire CircuitGraph

theorem loadBits_lt (s : Signal) : loadBits s < 2 ^ s.length := by
  induction s with
  | nil => simp [loadBits]
  | cons b bs ih =>
    simp only [loadBits, List.length_cons, pow_succ]
    cases b <;> simp <;> omega

theorem foldSigs_length {op : Bool → Bool → Bool} :
    ∀ {l : List (Option Signal)} {acc r : Signal},
    foldSigs op acc l = some r → r.length = acc.length := by
  intro l
  induction l with
  | nil =>
    intro acc r h
    cases h
    rfl
  | cons x xs ih =>
    intro acc r h
    cases x with
    | none => cases h
    | some s =>
      have := ih h
      rw [this, assignWith_length]

theorem Gate.do_logic_not (g : Gate) (h : g.kind = GateKind.Not) :
    g.do_logic = (g.inputs[0]?).map fun p =>
      { g with output := { g.output with signal := p.signal.map notBits } } := by
  cases g
  subst h
  rfl

theorem Gate.do_logic_ok (g : Gate)
    (hnz : g.kind = GateKind.Not → 0 < g.inputs.length)
    (hin : ∀ p ∈ g.inputs, PinOK p ∧ p.bits = g.data_bits)
    (houtb : g.output.bits = g.data_bits) :
    ∃ g', g.do_logic = some g' ∧ g'.kind = g.kind ∧ g'.data_bits = g.data_bits ∧
      g'.inputs = g.inputs ∧ g'.output.bits = g.output.bits ∧ PinOK g'.output := by
  cases hk : g.kind with
  | Not =>
    obtain ⟨p, hp⟩ : ∃ p, g.inputs[0]? = some p :=
      ⟨_, List.getElem?_eq_getElem (hnz hk)⟩
    refine ⟨{ g with output := { g.output with signal := p.signal.map notBits } }, ?_, hk,
      rfl, rfl, rfl, ?_⟩
    · rw [Gate.do_logic_not g hk, hp, Option.map_some']
    · intro s hs
      simp only at hs
      cases hps : p.signal with
      | none => rw [hps] at hs; cases hs
      | some t =>
        rw [hps, Option.map_some', Option.some_inj] at hs
        obtain ⟨hpok, hpb⟩ := hin p (List.getElem?_mem hp)
        rw [← hs]
        show (notBits t).length = g.output.bits
        rw [notBits, List.length_map, hpok t hps, hpb, houtb]
  | Or =>
    refine ⟨{ g with output :=
        { g.output with signal := foldPins or (signal_zeros g.data_bits) g.inputs } },
      Gate.do_logic_or g hk, hk, rfl, rfl, rfl, ?_⟩
    intro s hs
    simp only at hs
    have := foldSigs_length (by rw [← foldPins_eq_foldSigs]; exact hs)
    rw [this]
    show (signal_zeros g.data_bits).length = g.output.bits
    simp [signal_zeros, houtb]
  | And =>
    refine ⟨{ g with output :=
        { g.output with signal := foldPins and (notBits (signal_zeros g.data_bits)) g.inputs } },
      Gate.do_logic_and g hk, hk, rfl, rfl, rfl, ?_⟩
    intro s hs
    simp only at hs
    have := foldSigs_length (by rw [← foldPins_eq_foldSigs]; exact hs)
    rw [this]
    show (notBits (signal_zeros g.data_bits)).length = g.output.bits
    simp [notBits_signal_zeros, houtb]

theorem Gate.do_logic_deterministic (g₁ g₂ : Gate) (hkind : g₁.kind = g₂.kind)
    (hdb : g₁.data_bits = g₂.data_bits) (hins : g₁.inputs = g₂.inputs)
    {g₁' g₂' : Gate} (h₁ : g₁.do_logic = some g₁') (h₂ : g₂.do_logic = some g₂') :
    g₁'.output.signal = g₂'.output.signal := by
  cases hk : g₁.kind with
  | Not =>
    rw [Gate.do_logic_not g₁ hk] at h₁
    rw [Gate.do_logic_not g₂ (by rw [← hkind, hk])] at h₂
    rw [← hins] at h₂
    cases hp : g₁.inputs[0]? with
    | none => rw [hp] at h₁; cases h₁
    | some p =>
      rw [hp, Option.map_some'] at h₁ h₂
      cases h₁
      cases h₂
      rfl
  | Or =>
    rw [Gate.do_logic_or g₁ hk] at h₁
    rw [Gate.do_logic_or g₂ (by rw [← hkind, hk])] at h₂
    cases h₁
    cases h₂
    simp only
    rw [hins, hdb]
  | And =>
    rw [Gate.do_logic_and g₁ hk] at h₁
    rw [Gate.do_logic_and g₂ (by rw [← hkind, hk])] at h₂
    cases h₁
    cases h₂
    simp only
    rw [hins, hdb]

theorem Mux.do_logic_sel_none (m : Mux) (h : m.selector.signal = none) :
    m.do_logic = some { m with output := { m.output with signal := none } } := by
  simp [Mux.do_logic, Pin.get, h, Pin.set]

theorem Mux.do_logic_sel_some (m : Mux) (s : Signal) (h : m.selector.signal = some s) :
    m.do_logic = (load 64 s).bind fun sel =>
      (m.inputs[sel]?).bind fun p =>
        (m.output.set p.get).bind fun o => some { m with output := o } := by
  simp [Mux.do_logic, Pin.get, h]

theorem Mux.do_logic_ok_m (m : Mux)
    (hsel : PinOK m.selector) (hselb : m.selector.bits = m.sel_bits)
    (h1 : 1 ≤ m.sel_bits) (h64 : m.sel_bits ≤ 64)
    (hilen : m.inputs.length = 2 ^ m.sel_bits)
    (hin : ∀ p ∈ m.inputs, PinOK p ∧ p.bits = m.data_bits)
    (hout : PinOK m.output) (houtb : m.output.bits = m.data_bits) :
    ∃ m', m.do_logic = some m' ∧ m'.selector = m.selector ∧ m'.inputs = m.inputs ∧
      m'.sel_bits = m.sel_bits ∧ m'.data_bits = m.data_bits ∧
      m'.output.bits = m.output.bits ∧ PinOK m'.output ∧
      (m.selector.signal = none → m'.output.signal = none) ∧
      (∀ s, m.selector.signal = some s →
        ∃ p, m.inputs[loadBits s]? = some p ∧ m'.output.signal = p.signal) := by
  cases hs : m.selector.signal with
  | none =>
    refine ⟨_, Mux.do_logic_sel_none m hs, rfl, rfl, rfl, rfl, rfl, ?_, ?_, ?_⟩
    · intro s hss; cases hss
    · intro _; rfl
    · intro s hss; cases hss
  | some s =>
    have hslen : s.length = m.sel_bits := by rw [hsel s hs, hselb]
    have hload : load 64 s = some (loadBits s) := by
      unfold load
      rw [if_pos]
      omega
    have hidx : loadBits s < m.inputs.length := by
      rw [hilen, ← hslen]
      exact loadBits_lt s
    obtain ⟨p, hp⟩ : ∃ p, m.inputs[loadBits s]? = some p :=
      ⟨_, List.getElem?_eq_getElem hidx⟩
    obtain ⟨hpok, hpb⟩ := hin p (List.getElem?_mem hp)
    have hset : m.output.set p.get = some { m.output with signal := p.signal } := by
      apply Pin.set_ok
      intro old new hold hnew
      rw [hout old hold, houtb, ← hpb]
      exact (hpok new hnew).symm
    refine ⟨{ m with output := { m.output with signal := p.signal } }, ?_, rfl, rfl, rfl,
      rfl, rfl, ?_, ?_, ?_⟩
    · rw [Mux.do_logic_sel_some m s hs, hload, Option.some_bind, hp, Option.some_bind,
        hset, Option.some_bind]
    · intro t ht
      simp only at ht
      rw [hpok t ht, hpb, houtb]
    · intro hnone
      cases hnone
    · intro t ht
      cases ht
      exact ⟨p, hp, rfl⟩

theorem Pin.fillFalse_bits (p : Pin) : (Pin.fillFalse p).bits = p.bits := rfl

theorem PinOK_fillFalse {p : Pin} (h : PinOK p) : PinOK (Pin.fillFalse p) := by
  intro s hs
  unfold Pin.fillFalse at hs
  cases hp : p.signal with
  | none => rw [hp] at hs; cases hs
  | some t =>
    rw [hp, Option.map_some', Option.some_inj] at hs
    rw [← hs]
    simpa using h t hp

theorem Demux.do_logic_ok_d (d : Demux)
    (hsel : PinOK d.selector) (hselb : d.selector.bits = d.sel_bits)
    (h1 : 1 ≤ d.sel_bits) (h64 : d.sel_bits ≤ 64)
    (holen : d.outputs.length = 2 ^ d.sel_bits)
    (houts : ∀ p ∈ d.outputs, PinOK p ∧ p.bits = d.data_bits)
    (hin : PinOK d.input) (hinb : d.input.bits = d.data_bits) :
    ∃ d', d.do_logic = some d' ∧ d'.selector = d.selector ∧ d'.input = d.input ∧
      d'.sel_bits = d.sel_bits ∧ d'.data_bits = d.data_bits ∧
      d'.outputs.map Pin.bits = d.outputs.map Pin.bits ∧
      (∀ p ∈ d'.outputs, PinOK p) ∧
      (d.selector.signal = none → d' = d) ∧
      (∀ s, d.selector.signal = some s →
        ∃ p0, d.outputs[loadBits s]? = some p0 ∧
          d'.outputs = (d.outputs.map Pin.fillFalse).set (loadBits s)
            { Pin.fillFalse p0 with signal := d.input.signal }) := by
  cases hs : d.selector.signal with
  | none =>
    refine ⟨d, Demux.do_logic_none d hs, rfl, rfl, rfl, rfl, rfl,
      fun p hp => (houts p hp).1, fun _ => rfl, ?_⟩
    intro s hss
    cases hss
  | some s =>
    have hslen : s.length = d.sel_bits := by rw [hsel s hs, hselb]
    have hload : load 64 s = some (loadBits s) := by
      unfold load
      rw [if_pos]
      omega
    have hidx : loadBits s < d.outputs.length := by
      rw [holen, ← hslen]
      exact loadBits_lt s
    obtain ⟨p0, hp0⟩ : ∃ p0, d.outputs[loadBits s]? = some p0 :=
      ⟨_, List.getElem?_eq_getElem hidx⟩
    obtain ⟨hp0ok, hp0b⟩ := houts p0 (List.getElem?_mem hp0)
    have houts_sel : (d.outputs.map Pin.fillFalse)[loadBits s]? = some (Pin.fillFalse p0) := by
      rw [List.getElem?_map, hp0]
      rfl
    have hset : (Pin.fillFalse p0).set d.input.get =
        some { Pin.fillFalse p0 with signal := d.input.signal } := by
      apply Pin.set_ok
      intro old new hold hnew
      have : (Pin.fillFalse p0).bits = p0.bits := rfl
      rw [PinOK_fillFalse hp0ok old hold, this, hp0b, ← hinb]
      exact (hin new hnew).symm
    refine ⟨{ d with outputs := (d.outputs.map Pin.fillFalse).set (loadBits s) { Pin.fillFalse p0 with signal := d.input.signal } }, ?_, rfl, rfl, rfl, rfl, ?_, ?_, ?_, ?_⟩
    · rw [Demux.do_logic_some d s hs, hload, Option.some_bind, houts_sel, Option.some_bind,
        hset, Option.some_bind]
    · show (((d.outputs.map Pin.fillFalse).set (loadBits s) _).map Pin.bits) = _
      rw [List.map_set]
      have hb : ((d.outputs.map Pin.fillFalse).map Pin.bits) = d.outputs.map Pin.bits := by
        rw [List.map_map]
        rfl
      rw [hb]
      apply set_of_getElem?
      rw [List.getElem?_map, hp0]
      rfl
    · intro p hp
      rcases List.mem_or_eq_of_mem_set hp with hp | hp
      · rcases List.mem_map.mp hp with ⟨q, hq, hqf⟩
        rw [← hqf]
        exact PinOK_fillFalse (houts q hq).1
      · subst hp
        intro t ht
        simp only at ht
        show t.length = (Pin.fillFalse p0).bits
        rw [Pin.fillFalse_bits, hp0b, ← hinb]
        exact hin t ht
    · intro hnone
      cases hnone
    · intro t ht
      cases ht
      exact ⟨p0, hp0, rfl⟩

theorem splitGoPins_bits : ∀ {ms : List Nat} {bs : List Bool} {outs outs' : List Pin},
    splitGoPins ms bs outs = some outs' → outs'.map Pin.bits = outs.map Pin.bits := by
  intro ms
  induction ms with
  | nil =>
    intro bs outs outs' h
    cases h
    rfl
  | cons m ms ih =>
    intro bs outs outs' h
    cases bs with
    | nil => cases h
    | cons b bs =>
      unfold splitGoPins at h
      simp only [Option.bind_eq_bind] at h
      cases hp : outs[m]? with
      | none => rw [hp] at h; cases h
      | some p =>
        rw [hp, Option.some_bind] at h
        cases hs : p.signal with
        | none => rw [hs] at h; cases h
        | some s =>
          rw [hs, Option.some_bind] at h
          have := ih h
          rw [this, List.map_set]
          apply set_of_getElem?
          rw [List.getElem?_map, hp]
          rfl

theorem pureSplit_arm_length : ∀ (ms : List Nat) (bs : List Bool)
    (arms : List (List Bool)) (j : Nat), bs.length = ms.length →
    (∀ m ∈ ms, m < arms.length) →
    (((pureSplit ms bs arms)[j]?).getD []).length =
      ((arms[j]?).getD []).length + ms.count j := by
  intro ms
  induction ms with
  | nil =>
    intro bs arms j _ _
    simp [pureSplit, List.count_nil]
  | cons m ms ih =>
    intro bs arms j hlen hbound
    cases bs with
    | nil => cases hlen
    | cons b bs =>
      have hm : m < arms.length := hbound m (by simp)
      have hred : pureSplit (m :: ms) (b :: bs) arms = pureSplit ms bs (pushToArm arms m b) :=
        rfl
      have hbound' : ∀ m' ∈ ms, m' < (pushToArm arms m b).length := by
        intro m' hm'
        rw [length_pushToArm]
        exact hbound m' (by simp [hm'])
      rw [hred, ih bs (pushToArm arms m b) j (by simpa using hlen) hbound']
      have hcount : (m :: ms).count j = ms.count j + (if m = j then 1 else 0) := by
        rw [List.count_cons]
        simp [beq_iff_eq]
      rw [hcount]
      by_cases hjm : m = j
      · subst hjm
        obtain ⟨a, ha⟩ : ∃ a, arms[m]? = some a := ⟨_, List.getElem?_eq_getElem hm⟩
        have : (pushToArm arms m b)[m]? = some (a ++ [b]) := by
          simp [pushToArm, List.getElem?_set_self hm, ha]
        simp [this, ha]
        omega
      · have : (pushToArm arms m b)[j]? = arms[j]? := by
          unfold pushToArm
          exact List.getElem?_set_ne hjm
        simp [this, hjm]

theorem Splitter.do_logic_ok_s (sp : Splitter)
    (hin : PinOK sp.input) (hmap : sp.mapping.length = sp.input.bits)
    (hbound : ∀ m ∈ sp.mapping, m < sp.outputs.length)
    (hcount : ∀ j pj, sp.outputs[j]? = some pj → pj.bits = sp.mapping.count j) :
    ∃ sp', sp.do_logic = some sp' ∧ sp'.input = sp.input ∧ sp'.mapping = sp.mapping ∧
      sp'.data_bits_in = sp.data_bits_in ∧ sp'.data_bits_out = sp.data_bits_out ∧
      sp'.outputs.map Pin.bits = sp.outputs.map Pin.bits ∧
      (∀ p ∈ sp'.outputs, PinOK p) := by
  cases hsig : sp.input.signal with
  | none =>
    refine ⟨_, Splitter.do_logic_absent sp hsig, rfl, rfl, rfl, rfl, ?_, ?_⟩
    · rw [List.map_map]
      rfl
    · intro p hp
      rcases List.mem_map.mp hp with ⟨q, _, hq⟩
      intro t ht
      rw [← hq] at ht
      cases ht
  | some input =>
    have hinlen : input.length = sp.mapping.length := by
      rw [hin input hsig, hmap]
    set cleared : List Pin := sp.outputs.map fun p => { p with signal := some [] } with hcl
    have hclen : cleared.length = sp.outputs.length := by simp [hcl]
    obtain ⟨outs', hgo, hproj, hlen', hsome'⟩ :=
      splitGoPins_sim sp.mapping input cleared (by rw [hclen]; exact hbound) (by omega)
        (by intro p hp
            rcases List.mem_map.mp hp with ⟨q, _, hq⟩
            rw [← hq]
            rfl)
    have hbits : outs'.map Pin.bits = sp.outputs.map Pin.bits := by
      rw [splitGoPins_bits hgo, hcl, List.map_map]
      rfl
    refine ⟨{ sp with outputs := outs' }, ?_, rfl, rfl, rfl, rfl, hbits, ?_⟩
    · rw [Splitter.do_logic_some_s sp input hsig, ← hcl, hgo, Option.some_bind]
    · intro p hp
      obtain ⟨j, hj, hpj⟩ := List.getElem_of_mem hp
      have hpj' : outs'[j]? = some p := by
        rw [List.getElem?_eq_getElem hj, hpj]
      intro t ht
      -- the stored arm is the pure-split arm, whose length is the mapping count
      have harm : ((projArms outs')[j]?).getD [] = t := by
        rw [projArms, List.getElem?_map, hpj', Option.map_some', Option.getD_some, ht]
        rfl
      have hclarm : ((projArms cleared)[j]?).getD [] = [] := by
        cases hcj : (projArms cleared)[j]? with
        | none => rfl
        | some a =>
          rw [Option.getD_some]
          rw [projArms, List.getElem?_map] at hcj
          cases hc2 : cleared[j]? with
          | none => rw [hc2] at hcj; cases hcj
          | some q =>
            rw [hc2, Option.map_some', Option.some_inj] at hcj
            rw [hcl, List.getElem?_map] at hc2
            cases hc3 : sp.outputs[j]? with
            | none => rw [hc3] at hc2; cases hc2
            | some q0 =>
              rw [hc3, Option.map_some', Option.some_inj] at hc2
              rw [← hcj, ← hc2]
              rfl
      have hlen2 : t.length = sp.mapping.count j := by
        have := pureSplit_arm_length sp.mapping input (projArms cleared) j hinlen
          (by intro m' hm'
              simp only [projArms, List.length_map]
              rw [hclen]
              exact hbound m' hm')
        rw [← hproj] at this
        rw [harm, hclarm] at this
        simpa using this
      -- and the declared width of the arm equals the same count
      have hb : p.bits = sp.mapping.count j := by
        have hmb : (outs'.map Pin.bits)[j]? = some p.bits := by
          rw [List.getElem?_map, hpj']
          rfl
        rw [hbits] at hmb
        rw [List.getElem?_map] at hmb
        cases hc3 : sp.outputs[j]? with
        | none => rw [hc3] at hmb; cases hmb
        | some q0 =>
          rw [hc3, Option.map_some', Option.some_inj] at hmb
          rw [← hmb]
          exact hcount j q0 hc3
      rw [hlen2, hb]

/-! ### Component width discipline -/

/-- The data-model invariants of §3 for each component kind: stored signal
widths match declared pin widths, and the declared widths are structurally
coherent (mux/demux selector versus port count, splitter mapping versus arm
widths, a NOT gate has its input pin). -/
def Comp.WidthOK : Comp → Prop
  | Comp.gate g => (∀ p ∈ g.inputs, PinOK p ∧ p.bits = g.data_bits) ∧
      PinOK g.output ∧ g.output.bits = g.data_bits ∧
      (g.kind = GateKind.Not → 0 < g.inputs.length)
  | Comp.mux m => PinOK m.selector ∧ m.selector.bits = m.sel_bits ∧
      1 ≤ m.sel_bits ∧ m.sel_bits ≤ 64 ∧ m.inputs.length = 2 ^ m.sel_bits ∧
      (∀ p ∈ m.inputs, PinOK p ∧ p.bits = m.data_bits) ∧
      PinOK m.output ∧ m.output.bits = m.data_bits
  | Comp.demux d => PinOK d.selector ∧ d.selector.bits = d.sel_bits ∧
      1 ≤ d.sel_bits ∧ d.sel_bits ≤ 64 ∧ d.outputs.length = 2 ^ d.sel_bits ∧
      (∀ p ∈ d.outputs, PinOK p ∧ p.bits = d.data_bits) ∧
      PinOK d.input ∧ d.input.bits = d.data_bits
  | Comp.register r => PinOK r.write_enable ∧ PinOK r.input ∧ PinOK r.output
  | Comp.inputC i => PinOK i.value
  | Comp.outputC o => PinOK o.value
  | Comp.splitter sp => PinOK sp.input ∧ sp.mapping.length = sp.input.bits ∧
      (∀ m ∈ sp.mapping, m < sp.outputs.length) ∧
      (∀ j pj, sp.outputs[j]? = some pj → pj.bits = sp.mapping.count j) ∧
      (∀ p ∈ sp.outputs, PinOK p)
  | Comp.tunnel t => PinOK t.value

theorem bitsAt_transfer {ps qs : List Pin} (h : ps.map Pin.bits = qs.map Pin.bits)
    {j : Nat} {pj : Pin} (hj : ps[j]? = some pj) :
    ∃ qj, qs[j]? = some qj ∧ qj.bits = pj.bits := by
  have h1 : (ps.map Pin.bits)[j]? = some pj.bits := by
    rw [List.getElem?_map, hj]
    rfl
  rw [h, List.getElem?_map] at h1
  cases hq : qs[j]? with
  | none => rw [hq] at h1; cases h1
  | some qj =>
    rw [hq, Option.map_some', Option.some_inj] at h1
    exact ⟨qj, rfl, h1⟩

theorem mem_bits_transfer {ps qs : List Pin} (h : ps.map Pin.bits = qs.map Pin.bits)
    {w : Nat} (hq : ∀ p ∈ qs, p.bits = w) : ∀ p ∈ ps, p.bits = w := by
  intro p hp
  obtain ⟨j, hj, hpj⟩ := List.getElem_of_mem hp
  obtain ⟨qj, hqj, hb⟩ := bitsAt_transfer h (by rw [List.getElem?_eq_getElem hj, hpj])
  rw [← hb]
  exact hq qj (List.getElem?_mem hqj)

/-! ### Idempotence of evaluation -/

theorem Pin.set_of_sig_eq {p : Pin} {v : Option Signal} (h : p.signal = v) :
    p.set v = some p := by
  rw [← h]
  exact Pin.set_self p

theorem Gate.do_logic_idem {g g' : Gate} (h : g.do_logic = some g') :
    g'.do_logic = some g' := by
  cases hk : g.kind with
  | Not =>
    rw [Gate.do_logic_not g hk] at h
    cases hp : g.inputs[0]? with
    | none => rw [hp] at h; cases h
    | some p =>
      rw [hp, Option.map_some', Option.some_inj] at h
      have hk' : g'.kind = GateKind.Not := by rw [← h]; exact hk
      have hin' : g'.inputs[0]? = some p := by rw [← h]; exact hp
      rw [Gate.do_logic_not g' hk', hin', Option.map_some', Option.some_inj]
      refine Gate.ext rfl rfl rfl (Pin.ext rfl ?_)
      rw [← h]
  | Or =>
    rw [Gate.do_logic_or g hk, Option.some_inj] at h
    have hk' : g'.kind = GateKind.Or := by rw [← h]; exact hk
    rw [Gate.do_logic_or g' hk', Option.some_inj]
    refine Gate.ext rfl rfl rfl (Pin.ext rfl ?_)
    rw [← h]
  | And =>
    rw [Gate.do_logic_and g hk, Option.some_inj] at h
    have hk' : g'.kind = GateKind.And := by rw [← h]; exact hk
    rw [Gate.do_logic_and g' hk', Option.some_inj]
    refine Gate.ext rfl rfl rfl (Pin.ext rfl ?_)
    rw [← h]

theorem Mux.do_logic_idem_m {m m' : Mux} (h : m.do_logic = some m') :
    m'.do_logic = some m' := by
  cases hs : m.selector.signal with
  | none =>
    rw [Mux.do_logic_sel_none m hs, Option.some_inj] at h
    have hs' : m'.selector.signal = none := by rw [← h]; exact hs
    rw [Mux.do_logic_sel_none m' hs', Option.some_inj]
    refine Mux.ext rfl rfl rfl (Pin.ext rfl ?_) rfl
    rw [← h]
  | some s =>
    rw [Mux.do_logic_sel_some m s hs] at h
    cases hload : load 64 s with
    | none => rw [hload] at h; cases h
    | some sel =>
      rw [hload, Option.some_bind] at h
      cases hp : m.inputs[sel]? with
      | none => rw [hp] at h; cases h
      | some p =>
        rw [hp, Option.some_bind] at h
        cases hset : m.output.set p.get with
        | none => rw [hset] at h; cases h
        | some o =>
          rw [hset, Option.some_bind, Option.some_inj] at h
          obtain ⟨_, hsig⟩ := Pin.set_eq_some hset
          have hs' : m'.selector.signal = some s := by rw [← h]; exact hs
          have hp' : m'.inputs[sel]? = some p := by rw [← h]; exact hp
          have hout' : m'.output = o := by rw [← h]
          rw [Mux.do_logic_sel_some m' s hs', hload, Option.some_bind, hp',
            Option.some_bind, hout', Pin.set_of_sig_eq hsig, Option.some_bind,
            Option.some_inj]
          exact Mux.ext rfl rfl rfl hout'.symm rfl

theorem Pin.fillFalse_idem (p : Pin) : Pin.fillFalse (Pin.fillFalse p) = Pin.fillFalse p := by
  cases p with
  | mk b s =>
    cases s with
    | none => rfl
    | some t => simp [Pin.fillFalse]

theorem Demux.do_logic_idem_d {d d' : Demux} (h : d.do_logic = some d') :
    d'.do_logic = some d' := by
  cases hs : d.selector.signal with
  | none =>
    rw [Demux.do_logic_none d hs, Option.some_inj] at h
    subst h
    rw [Demux.do_logic_none d hs]
  | some s =>
    rw [Demux.do_logic_some d s hs] at h
    cases hload : load 64 s with
    | none => rw [hload] at h; cases h
    | some sel =>
      rw [hload, Option.some_bind] at h
      cases hp : (d.outputs.map Pin.fillFalse)[sel]? with
      | none => rw [hp] at h; cases h
      | some p =>
        rw [hp, Option.some_bind] at h
        cases hset : p.set d.input.get with
        | none => rw [hset] at h; cases h
        | some p' =>
          rw [hset, Option.some_bind, Option.some_inj] at h
          obtain ⟨hbits', hsig'⟩ := Pin.set_eq_some hset
          have hsel_lt : sel < d.outputs.length := by
            by_contra hlt
            push_neg at hlt
            have hle : (d.outputs.map Pin.fillFalse).length ≤ sel := by
              rw [List.length_map]
              exact hlt
            rw [List.getElem?_eq_none hle] at hp
            cases hp
          have hs' : d'.selector.signal = some s := by rw [← h]; exact hs
          have hin' : d'.input = d.input := by rw [← h]
          have houts' : d'.outputs = (d.outputs.map Pin.fillFalse).set sel p' := by rw [← h]
          have hmapfill :
              (((d.outputs.map Pin.fillFalse).set sel p').map Pin.fillFalse) =
                (d.outputs.map Pin.fillFalse).set sel (Pin.fillFalse p') := by
            rw [List.map_set]
            congr 1
            rw [List.map_map]
            apply List.map_congr_left
            intro q _
            exact Pin.fillFalse_idem q
          have hget2 : ((d'.outputs.map Pin.fillFalse)[sel]?) = some (Pin.fillFalse p') := by
            rw [houts', hmapfill]
            exact List.getElem?_set_self (by simpa using hsel_lt)
          have hset2 : (Pin.fillFalse p').set d'.input.get = some p' := by
            rw [hin']
            cases hin : d.input.signal with
            | none =>
              have hfp : Pin.fillFalse p' = { p' with signal := none } := by
                rw [Pin.fillFalse]
                rw [hsig', Pin.get, hin]
                rfl
              rw [Pin.get, hin, hfp]
              show Pin.set _ none = _
              rw [Pin.set]
              simp only [Option.some_inj]
              refine Pin.ext rfl ?_
              rw [hsig', Pin.get, hin]
            | some v =>
              have hfp : (Pin.fillFalse p').signal = some (List.replicate v.length false) := by
                rw [Pin.fillFalse, hsig', Pin.get, hin]
                rfl
              have hsetok : (Pin.fillFalse p').set (some v) =
                  some { Pin.fillFalse p' with signal := some v } := by
                apply Pin.set_ok
                intro old new hold hnew
                rw [hfp] at hold
                cases hold
                cases hnew
                simp
              rw [Pin.get, hin, hsetok]
              simp only [Option.some_inj]
              refine Pin.ext ?_ ?_
              · rw [Pin.fillFalse_bits]
              · rw [hsig', Pin.get, hin]
          rw [Demux.do_logic_some d' s hs', hload, Option.some_bind, hget2,
            Option.some_bind, hset2, Option.some_bind, Option.some_inj]
          refine Demux.ext rfl rfl rfl ?_ rfl
          rw [houts', hmapfill, List.set_set]

theorem clearedList_congr {ps qs : List Pin} (h : ps.map Pin.bits = qs.map Pin.bits) :
    (ps.map fun p => { p with signal := some ([] : Signal) }) =
      (qs.map fun p => { p with signal := some ([] : Signal) }) := by
  have e : ∀ (l : List Pin), (l.map fun p => { p with signal := some ([] : Signal) }) =
      (l.map Pin.bits).map (fun b => Pin.mk b (some [])) := by
    intro l
    rw [List.map_map]
    rfl
  rw [e, e, h]

theorem Splitter.do_logic_idem_s {sp sp' : Splitter} (h : sp.do_logic = some sp') :
    sp'.do_logic = some sp' := by
  cases hin : sp.input.signal with
  | none =>
    rw [Splitter.do_logic_absent sp hin, Option.some_inj] at h
    have hin2 : sp'.input.signal = none := by rw [← h]; exact hin
    rw [Splitter.do_logic_absent sp' hin2, Option.some_inj]
    refine Splitter.ext rfl ?_ rfl rfl rfl
    rw [← h]
    show ((sp.outputs.map fun p => { p with signal := none }).map
        fun p => { p with signal := none }) = sp.outputs.map fun p => { p with signal := none }
    rw [List.map_map]
    apply List.map_congr_left
    intro q _
    rfl
  | some input =>
    rw [Splitter.do_logic_some_s sp input hin] at h
    cases hgo : splitGoPins sp.mapping input (sp.outputs.map fun p => { p with signal := some [] }) with
    | none => rw [hgo] at h; cases h
    | some outs' =>
      rw [hgo, Option.some_bind, Option.some_inj] at h
      have hin2 : sp'.input.signal = some input := by rw [← h]; exact hin
      have hmap2 : sp'.mapping = sp.mapping := by rw [← h]
      have houts : sp'.outputs = outs' := by rw [← h]
      have hbits : outs'.map Pin.bits = sp.outputs.map Pin.bits := by
        rw [splitGoPins_bits hgo, List.map_map]
        apply List.map_congr_left
        intro q _
        rfl
      have hclear : (sp'.outputs.map fun p => { p with signal := some ([] : Signal) }) =
          (sp.outputs.map fun p => { p with signal := some ([] : Signal) }) := by
        rw [houts]
        exact clearedList_congr hbits
      have hgo2 : splitGoPins sp'.mapping input
          (sp'.outputs.map fun p => { p with signal := some [] }) = some outs' := by
        rw [hclear, hmap2]
        exact hgo
      rw [Splitter.do_logic_some_s sp' input hin2, hgo2, Option.some_bind, Option.some_inj]
      refine Splitter.ext rfl ?_ rfl rfl rfl
      exact houts.symm

/-! ### Component-level evaluation panel -/

theorem Comp.do_logic_clocked {c c' : Comp} (h : c.do_logic = some c') :
    c'.is_clocked = c.is_clocked := by
  cases c with
  | gate g =>
    rcases Option.map_eq_some'.mp h with ⟨g', _, hc⟩
    subst hc
    rfl
  | mux m =>
    rcases Option.map_eq_some'.mp h with ⟨m', _, hc⟩
    subst hc
    rfl
  | demux d =>
    rcases Option.map_eq_some'.mp h with ⟨d', _, hc⟩
    subst hc
    rfl
  | register r => cases h; rfl
  | inputC i => cases h; rfl
  | outputC o => cases h; rfl
  | splitter sp =>
    rcases Option.map_eq_some'.mp h with ⟨sp', _, hc⟩
    subst hc
    rfl
  | tunnel t => cases h; rfl

theorem Comp.set_pin_value_clocked {c : Comp} {px : PinIndex} {v : Option Signal} {c' : Comp}
    (h : c.set_pin_value px v = some c') : c'.is_clocked = c.is_clocked := by
  cases c <;> rcases px with i | i <;> (try rcases i with _ | _ | i) <;>
    first
    | (rcases Option.map_eq_some'.mp h with ⟨x, _, hc⟩; subst hc; rfl)
    | cases h

/-- Running `do_logic` twice without touching the component gives the same
result as running it once. -/
theorem Comp.do_logic_idem_c {c c' : Comp} (h : c.do_logic = some c') :
    c'.do_logic = some c' := by
  cases c with
  | gate g =>
    rcases Option.map_eq_some'.mp h with ⟨g', hg, hc⟩
    subst hc
    show (Gate.do_logic g').map Comp.gate = _
    rw [Gate.do_logic_idem hg]
    rfl
  | mux m =>
    rcases Option.map_eq_some'.mp h with ⟨m', hm, hc⟩
    subst hc
    show (Mux.do_logic m').map Comp.mux = _
    rw [Mux.do_logic_idem_m hm]
    rfl
  | demux d =>
    rcases Option.map_eq_some'.mp h with ⟨d', hd, hc⟩
    subst hc
    show (Demux.do_logic d').map Comp.demux = _
    rw [Demux.do_logic_idem_d hd]
    rfl
  | register r => cases h; rfl
  | inputC i => cases h; rfl
  | outputC o => cases h; rfl
  | splitter sp =>
    rcases Option.map_eq_some'.mp h with ⟨sp', hsp, hc⟩
    subst hc
    show (Splitter.do_logic sp').map Comp.splitter = _
    rw [Splitter.do_logic_idem_s hsp]
    rfl
  | tunnel t => cases h; rfl

/-- On a width-coherent component, `do_logic` succeeds, preserves width
coherence and leaves every declared pin width unchanged. -/
theorem Comp.do_logic_ok_c {c : Comp} (h : Comp.WidthOK c) :
    ∃ c', c.do_logic = some c' ∧ Comp.WidthOK c' ∧
      ∀ px, c'.get_pin_width px = c.get_pin_width px := by
  cases c with
  | gate g =>
    obtain ⟨hin, hout, houtb, hnz⟩ := h
    obtain ⟨g', hdl, hkind, hdb, hins, houtb', hPout⟩ := Gate.do_logic_ok g hnz hin houtb
    refine ⟨Comp.gate g', ?_, ?_, ?_⟩
    · show (Gate.do_logic g).map Comp.gate = _
      rw [hdl]
      rfl
    · refine ⟨?_, hPout, ?_, ?_⟩
      · simp only [hins, hdb]
        exact hin
      · rw [houtb', houtb, hdb]
      · simp only [hkind, hins]
        exact hnz
    · intro px
      rcases px with j | j
      · show (g'.inputs[j]?).map Pin.bits = (g.inputs[j]?).map Pin.bits
        rw [hins]
      · cases j with
        | zero =>
          show some g'.output.bits = some g.output.bits
          rw [houtb']
        | succ j => rfl
  | mux m =>
    obtain ⟨hsel, hselb, h1, h64, hilen, hin, hout, houtb⟩ := h
    obtain ⟨m', hdl, hsel', hins, hsb, hdb, houtb', hPout, _, _⟩ :=
      Mux.do_logic_ok_m m hsel hselb h1 h64 hilen hin hout houtb
    refine ⟨Comp.mux m', ?_, ?_, ?_⟩
    · show (Mux.do_logic m).map Comp.mux = _
      rw [hdl]
      rfl
    · refine ⟨?_, ?_, ?_, ?_, ?_, ?_, hPout, ?_⟩
      · rw [hsel']
        exact hsel
      · rw [hsel', hsb]
        exact hselb
      · rw [hsb]
        exact h1
      · rw [hsb]
        exact h64
      · rw [hins, hsb]
        exact hilen
      · simp only [hins, hdb]
        exact hin
      · rw [houtb', houtb, hdb]
    · intro px
      rcases px with j | j
      · cases j with
        | zero =>
          show some m'.selector.bits = some m.selector.bits
          rw [hsel']
        | succ j =>
          show (m'.inputs[j]?).map Pin.bits = (m.inputs[j]?).map Pin.bits
          rw [hins]
      · cases j with
        | zero =>
          show some m'.output.bits = some m.output.bits
          rw [houtb']
        | succ j => rfl
  | demux d =>
    obtain ⟨hsel, hselb, h1, h64, holen, houts, hinp, hinb⟩ := h
    obtain ⟨d', hdl, hsel', hin', hsb, hdb, houtsb, hPouts, _, _⟩ :=
      Demux.do_logic_ok_d d hsel hselb h1 h64 holen houts hinp hinb
    have hlen : d'.outputs.length = d.outputs.length := by
      have := congrArg List.length houtsb
      simpa using this
    refine ⟨Comp.demux d', ?_, ?_, ?_⟩
    · show (Demux.do_logic d).map Comp.demux = _
      rw [hdl]
      rfl
    · refine ⟨?_, ?_, ?_, ?_, ?_, ?_, ?_, ?_⟩
      · rw [hsel']
        exact hsel
      · rw [hsel', hsb]
        exact hselb
      · rw [hsb]
        exact h1
      · rw [hsb]
        exact h64
      · rw [hlen, hsb]
        exact holen
      · intro p hp
        refine ⟨hPouts p hp, ?_⟩
        rw [hdb]
        exact mem_bits_transfer houtsb (fun q hq => (houts q hq).2) p hp
      · rw [hin']
        exact hinp
      · rw [hin', hdb]
        exact hinb
    · intro px
      rcases px with j | j
      · rcases j with _ | _ | j
        · show some d'.selector.bits = some d.selector.bits
          rw [hsel']
        · show some d'.input.bits = some d.input.bits
          rw [hin']
        · rfl
      · exact bitsAt_congr houtsb j
  | register r => exact ⟨Comp.register r, rfl, h, fun px => rfl⟩
  | inputC i => exact ⟨Comp.inputC i, rfl, h, fun px => rfl⟩
  | outputC o => exact ⟨Comp.outputC o, rfl, h, fun px => rfl⟩
  | splitter sp =>
    obtain ⟨hinp, hmap, hbound, hcount, hPouts0⟩ := h
    obtain ⟨sp', hdl, hin', hmap', hdbi, hdbo, houtsb, hPouts⟩ :=
      Splitter.do_logic_ok_s sp hinp hmap hbound hcount
    have hlen : sp'.outputs.length = sp.outputs.length := by
      have := congrArg List.length houtsb
      simpa using this
    refine ⟨Comp.splitter sp', ?_, ?_, ?_⟩
    · show (Splitter.do_logic sp).map Comp.splitter = _
      rw [hdl]
      rfl
    · refine ⟨?_, ?_, ?_, ?_, hPouts⟩
      · rw [hin']
        exact hinp
      · rw [hmap', hin']
        exact hmap
      · simp only [hmap', hlen]
        exact hbound
      · intro j pj hj
        obtain ⟨qj, hqj, hb⟩ := bitsAt_transfer houtsb hj
        have hc := hcount j qj hqj
        rw [hb] at hc
        rw [hmap']
        exact hc
    · intro px
      rcases px with j | j
      · cases j with
        | zero =>
          show some sp'.input.bits = some sp.input.bits
          rw [hin']
        | succ j => rfl
      · exact bitsAt_congr houtsb j
  | tunnel t => exact ⟨Comp.tunnel t, rfl, h, fun px => rfl⟩

theorem getPinAt_isSome {ps : List Pin} {i : Nat} {wd : Nat}
    (h : (ps[i]?).map Pin.bits = some wd) : ∃ ov, getPinAt ps i = some ov := by
  rcases Option.map_eq_some'.mp h with ⟨p, hp, _⟩
  refine ⟨p.get, ?_⟩
  unfold getPinAt
  rw [hp, Option.map_some']

/-- Any pin slot with a defined width can be read without aborting. -/
theorem Comp.get_pin_value_isSome {c : Comp} {px : PinIndex} {wd : Nat}
    (h : c.get_pin_width px = some wd) : ∃ ov, c.get_pin_value px = some ov := by
  cases c <;> rcases px with i | i <;> (try rcases i with _ | _ | i) <;>
    first
    | exact ⟨_, rfl⟩
    | cases h
    | exact getPinAt_isSome h

theorem pinValueLength {p : Pin} (hPK : PinOK p)
    {wd : Nat} {s : Signal} (hw : some p.bits = some wd) (hv : some p.get = some (some s)) :
    s.length = wd := by
  cases hw
  exact hPK s (Option.some.inj hv)

theorem pinListValueLength {ps : List Pin} {i : Nat}
    (hPK : ∀ p ∈ ps, PinOK p)
    {wd : Nat} {s : Signal} (hw : (ps[i]?).map Pin.bits = some wd)
    (hv : getPinAt ps i = some (some s)) : s.length = wd := by
  rcases Option.map_eq_some'.mp hw with ⟨p, hp, hb⟩
  obtain ⟨p', hp', hsig⟩ := getPinAt_eq_some hv
  rw [hp] at hp'
  cases hp'
  rw [← hb]
  exact hPK p (List.getElem?_mem hp) s hsig

/-- On a width-coherent component a present stored value has exactly the
declared width of its slot. -/
theorem Comp.get_pin_value_length {c : Comp} {px : PinIndex} {wd : Nat} {s : Signal}
    (hWF : Comp.WidthOK c) (hw : c.get_pin_width px = some wd)
    (hv : c.get_pin_value px = some (some s)) : s.length = wd := by
  cases c <;> rcases px with i | i
  case gate.Input g =>
    exact pinListValueLength (fun p hp => (hWF.1 p hp).1) hw hv
  case gate.Output g =>
    rcases i with _ | i
    · exact pinValueLength hWF.2.1 hw hv
    · cases hw
  case mux.Input m =>
    rcases i with _ | i
    · exact pinValueLength hWF.1 hw hv
    · exact pinListValueLength (fun p hp => ((hWF.2.2.2.2.2.1) p hp).1) hw hv
  case mux.Output m =>
    rcases i with _ | i
    · exact pinValueLength hWF.2.2.2.2.2.2.1 hw hv
    · cases hw
  case demux.Input d =>
    rcases i with _ | _ | i
    · exact pinValueLength hWF.1 hw hv
    · exact pinValueLength hWF.2.2.2.2.2.2.1 hw hv
    · cases hw
  case demux.Output d =>
    exact pinListValueLength (fun p hp => ((hWF.2.2.2.2.2.1) p hp).1) hw hv
  case register.Input r =>
    rcases i with _ | _ | i
    · exact pinValueLength hWF.1 hw hv
    · exact pinValueLength hWF.2.1 hw hv
    · cases hw
  case register.Output r =>
    rcases i with _ | i
    · exact pinValueLength hWF.2.2 hw hv
    · cases hw
  case inputC.Input ic => cases hw
  case inputC.Output ic =>
    rcases i with _ | i
    · exact pinValueLength hWF hw hv
    · cases hw
  case outputC.Input oc =>
    rcases i with _ | i
    · exact pinValueLength hWF hw hv
    · cases hw
  case outputC.Output oc => cases hw
  case splitter.Input sp =>
    rcases i with _ | i
    · exact pinValueLength hWF.1 hw hv
    · cases hw
  case splitter.Output sp =>
    exact pinListValueLength hWF.2.2.2.2 hw hv
  case tunnel.Input t =>
    rcases i with _ | i
    · exact pinValueLength hWF hw hv
    · cases hw
  case tunnel.Output t =>
    rcases i with _ | i
    · exact pinValueLength hWF hw hv
    · cases hw

theorem getElem?_lt {α : Type} {l : List α} {i : Nat} {x : α}
    (h : l[i]? = some x) : i < l.length := by
  by_contra hcon
  rw [List.getElem?_eq_none (by omega)] at h
  cases h

/-- Writing a value of the declared slot width into any pin slot succeeds,
keeps the component width-coherent, and is read back exactly. -/
theorem Comp.set_pin_value_ok {c : Comp} {px : PinIndex} {v : Option Signal} {wd : Nat}
    (hWF : Comp.WidthOK c) (hw : c.get_pin_width px = some wd)
    (hlen : ∀ s, v = some s → s.length = wd) :
    ∃ c', c.set_pin_value px v = some c' ∧ Comp.WidthOK c' ∧
      c'.get_pin_value px = some v := by
  cases c <;> rcases px with i | i
  case gate.Input g =>
    obtain ⟨hin, hout, houtb, hnz⟩ := hWF
    rcases Option.map_eq_some'.mp hw with ⟨p, hp, hb⟩
    have hset : setPinAt g.inputs i v = some (g.inputs.set i { p with signal := v }) :=
      setPinAt_ok hp (fun s s' hs hs' => by
        rw [hlen s' hs', ← hb]
        exact (hin p (List.getElem?_mem hp)).1 s hs)
    refine ⟨Comp.gate { g with inputs := g.inputs.set i { p with signal := v } }, ?_, ?_, ?_⟩
    · show (setPinAt g.inputs i v).map _ = _
      rw [hset]
      rfl
    · refine ⟨?_, hout, houtb, ?_⟩
      · intro q hq
        rcases List.mem_or_eq_of_mem_set hq with hq' | hq'
        · exact hin q hq'
        · subst hq'
          exact ⟨fun s hs => by rw [hlen s hs, ← hb], (hin p (List.getElem?_mem hp)).2⟩
      · intro hknot
        rw [List.length_set]
        exact hnz hknot
    · exact setPinAt_get_self hset
  case gate.Output g =>
    rcases i with _ | i
    · obtain ⟨hin, hout, houtb, hnz⟩ := hWF
      cases hw
      have hset : g.output.set v = some { g.output with signal := v } :=
        Pin.set_ok _ _ (fun old new hold hnew => by
          rw [hlen new hnew]
          exact hout old hold)
      refine ⟨Comp.gate { g with output := { g.output with signal := v } }, ?_, ?_, rfl⟩
      · show (g.output.set v).map _ = _
        rw [hset]
        rfl
      · exact ⟨hin, fun s hs => hlen s hs, houtb, hnz⟩
    · cases hw
  case mux.Input m =>
    obtain ⟨hsel, hselb, h1, h64, hilen, hin, hout, houtb⟩ := hWF
    rcases i with _ | i
    · cases hw
      have hset : m.selector.set v = some { m.selector with signal := v } :=
        Pin.set_ok _ _ (fun old new hold hnew => by
          rw [hlen new hnew]
          exact hsel old hold)
      refine ⟨Comp.mux { m with selector := { m.selector with signal := v } }, ?_, ?_, rfl⟩
      · show (m.selector.set v).map _ = _
        rw [hset]
        rfl
      · exact ⟨fun s hs => hlen s hs, hselb, h1, h64, hilen, hin, hout, houtb⟩
    · rcases Option.map_eq_some'.mp hw with ⟨p, hp, hb⟩
      have hset : setPinAt m.inputs i v = some (m.inputs.set i { p with signal := v }) :=
        setPinAt_ok hp (fun s s' hs hs' => by
          rw [hlen s' hs', ← hb]
          exact (hin p (List.getElem?_mem hp)).1 s hs)
      refine ⟨Comp.mux { m with inputs := m.inputs.set i { p with signal := v } }, ?_, ?_, ?_⟩
      · show (setPinAt m.inputs i v).map _ = _
        rw [hset]
        rfl
      · refine ⟨hsel, hselb, h1, h64, ?_, ?_, hout, houtb⟩
        · rw [List.length_set]
          exact hilen
        · intro q hq
          rcases List.mem_or_eq_of_mem_set hq with hq' | hq'
          · exact hin q hq'
          · subst hq'
            exact ⟨fun s hs => by rw [hlen s hs, ← hb], (hin p (List.getElem?_mem hp)).2⟩
      · exact setPinAt_get_self hset
  case mux.Output m =>
    obtain ⟨hsel, hselb, h1, h64, hilen, hin, hout, houtb⟩ := hWF
    rcases i with _ | i
    · cases hw
      have hset : m.output.set v = some { m.output with signal := v } :=
        Pin.set_ok _ _ (fun old new hold hnew => by
          rw [hlen new hnew]
          exact hout old hold)
      refine ⟨Comp.mux { m with output := { m.output with signal := v } }, ?_, ?_, rfl⟩
      · show (m.output.set v).map _ = _
        rw [hset]
        rfl
      · exact ⟨hsel, hselb, h1, h64, hilen, hin, fun s hs => hlen s hs, houtb⟩
    · cases hw
  case demux.Input d =>
    obtain ⟨hsel, hselb, h1, h64, holen, houts, hinp, hinb⟩ := hWF
    rcases i with _ | _ | i
    · cases hw
      have hset : d.selector.set v = some { d.selector with signal := v } :=
        Pin.set_ok _ _ (fun old new hold hnew => by
          rw [hlen new hnew]
          exact hsel old hold)
      refine ⟨Comp.demux { d with selector := { d.selector with signal := v } }, ?_, ?_, rfl⟩
      · show (d.selector.set v).map _ = _
        rw [hset]
        rfl
      · exact ⟨fun s hs => hlen s hs, hselb, h1, h64, holen, houts, hinp, hinb⟩
    · cases hw
      have hset : d.input.set v = some { d.input with signal := v } :=
        Pin.set_ok _ _ (fun old new hold hnew => by
          rw [hlen new hnew]
          exact hinp old hold)
      refine ⟨Comp.demux { d with input := { d.input with signal := v } }, ?_, ?_, rfl⟩
      · show (d.input.set v).map _ = _
        rw [hset]
        rfl
      · exact ⟨hsel, hselb, h1, h64, holen, houts, fun s hs => hlen s hs, hinb⟩
    · cases hw
  case demux.Output d =>
    obtain ⟨hsel, hselb, h1, h64, holen, houts, hinp, hinb⟩ := hWF
    rcases Option.map_eq_some'.mp hw with ⟨p, hp, hb⟩
    have hset : setPinAt d.outputs i v = some (d.outputs.set i { p with signal := v }) :=
      setPinAt_ok hp (fun s s' hs hs' => by
        rw [hlen s' hs', ← hb]
        exact (houts p (List.getElem?_mem hp)).1 s hs)
    refine ⟨Comp.demux { d with outputs := d.outputs.set i { p with signal := v } }, ?_, ?_, ?_⟩
    · show (setPinAt d.outputs i v).map _ = _
      rw [hset]
      rfl
    · refine ⟨hsel, hselb, h1, h64, ?_, ?_, hinp, hinb⟩
      · rw [List.length_set]
        exact holen
      · intro q hq
        rcases List.mem_or_eq_of_mem_set hq with hq' | hq'
        · exact houts q hq'
        · subst hq'
          exact ⟨fun s hs => by rw [hlen s hs, ← hb], (houts p (List.getElem?_mem hp)).2⟩
    · exact setPinAt_get_self hset
  case register.Input r =>
    obtain ⟨hwe, hrin, hro⟩ := hWF
    rcases i with _ | _ | i
    · cases hw
      have hset : r.write_enable.set v = some { r.write_enable with signal := v } :=
        Pin.set_ok _ _ (fun old new hold hnew => by
          rw [hlen new hnew]
          exact hwe old hold)
      refine ⟨Comp.register { r with write_enable := { r.write_enable with signal := v } },
        ?_, ?_, rfl⟩
      · show (r.write_enable.set v).map _ = _
        rw [hset]
        rfl
      · exact ⟨fun s hs => hlen s hs, hrin, hro⟩
    · cases hw
      have hset : r.input.set v = some { r.input with signal := v } :=
        Pin.set_ok _ _ (fun old new hold hnew => by
          rw [hlen new hnew]
          exact hrin old hold)
      refine ⟨Comp.register { r with input := { r.input with signal := v } }, ?_, ?_, rfl⟩
      · show (r.input.set v).map _ = _
        rw [hset]
        rfl
      · exact ⟨hwe, fun s hs => hlen s hs, hro⟩
    · cases hw
  case register.Output r =>
    obtain ⟨hwe, hrin, hro⟩ := hWF
    rcases i with _ | i
    · cases hw
      have hset : r.output.set v = some { r.output with signal := v } :=
        Pin.set_ok _ _ (fun old new hold hnew => by
          rw [hlen new hnew]
          exact hro old hold)
      refine ⟨Comp.register { r with output := { r.output with signal := v } }, ?_, ?_, rfl⟩
      · show (r.output.set v).map _ = _
        rw [hset]
        rfl
      · exact ⟨hwe, hrin, fun s hs => hlen s hs⟩
    · cases hw
  case inputC.Input ic => cases hw
  case inputC.Output ic =>
    rcases i with _ | i
    · cases hw
      have hset : ic.value.set v = some { ic.value with signal := v } :=
        Pin.set_ok _ _ (fun old new hold hnew => by
          rw [hlen new hnew]
          exact hWF old hold)
      refine ⟨Comp.inputC { ic with value := { ic.value with signal := v } }, ?_, ?_, rfl⟩
      · show (ic.value.set v).map _ = _
        rw [hset]
        rfl
      · exact fun s hs => hlen s hs
    · cases hw
  case outputC.Input oc =>
    rcases i with _ | i
    · cases hw
      have hset : oc.value.set v = some { oc.value with signal := v } :=
        Pin.set_ok _ _ (fun old new hold hnew => by
          rw [hlen new hnew]
          exact hWF old hold)
      refine ⟨Comp.outputC { oc with value := { oc.value with signal := v } }, ?_, ?_, rfl⟩
      · show (oc.value.set v).map _ = _
        rw [hset]
        rfl
      · exact fun s hs => hlen s hs
    · cases hw
  case outputC.Output oc => cases hw
  case splitter.Input sp =>
    obtain ⟨hinp, hmap, hbound, hcount, hPouts⟩ := hWF
    rcases i with _ | i
    · cases hw
      have hset : sp.input.set v = some { sp.input with signal := v } :=
        Pin.set_ok _ _ (fun old new hold hnew => by
          rw [hlen new hnew]
          exact hinp old hold)
      refine ⟨Comp.splitter { sp with input := { sp.input with signal := v } }, ?_, ?_, rfl⟩
      · show (sp.input.set v).map _ = _
        rw [hset]
        rfl
      · exact ⟨fun s hs => hlen s hs, hmap, hbound, hcount, hPouts⟩
    · cases hw
  case splitter.Output sp =>
    obtain ⟨hinp, hmap, hbound, hcount, hPouts⟩ := hWF
    rcases Option.map_eq_some'.mp hw with ⟨p, hp, hb⟩
    have hset : setPinAt sp.outputs i v = some (sp.outputs.set i { p with signal := v }) :=
      setPinAt_ok hp (fun s s' hs hs' => by
        rw [hlen s' hs', ← hb]
        exact hPouts p (List.getElem?_mem hp) s hs)
    refine ⟨Comp.splitter { sp with outputs := sp.outputs.set i { p with signal := v } },
      ?_, ?_, ?_⟩
    · show (setPinAt sp.outputs i v).map _ = _
      rw [hset]
      rfl
    · refine ⟨hinp, hmap, ?_, ?_, ?_⟩
      · intro m hm
        rw [List.length_set]
        exact hbound m hm
      · intro j pj hj
        by_cases hij : i = j
        · subst hij
          rw [List.getElem?_set_self (getElem?_lt hp)] at hj
          cases hj
          exact hcount i p hp
        · rw [List.getElem?_set_ne hij] at hj
          exact hcount j pj hj
      · intro q hq
        rcases List.mem_or_eq_of_mem_set hq with hq' | hq'
        · exact hPouts q hq'
        · subst hq'
          exact fun s hs => by rw [hlen s hs, ← hb]
    · exact setPinAt_get_self hset
  case tunnel.Input t =>
    rcases i with _ | i
    · cases hw
      have hset : t.value.set v = some { t.value with signal := v } :=
        Pin.set_ok _ _ (fun old new hold hnew => by
          rw [hlen new hnew]
          exact hWF old hold)
      refine ⟨Comp.tunnel { t with value := { t.value with signal := v } }, ?_, ?_, rfl⟩
      · show (t.value.set v).map _ = _
        rw [hset]
        rfl
      · exact fun s hs => hlen s hs
    · cases hw
  case tunnel.Output t =>
    rcases i with _ | i
    · cases hw
      have hset : t.value.set v = some { t.value with signal := v } :=
        Pin.set_ok _ _ (fun old new hold hnew => by
          rw [hlen new hnew]
          exact hWF old hold)
      refine ⟨Comp.tunnel { t with value := { t.value with signal := v } }, ?_, ?_, rfl⟩
      · show (t.value.set v).map _ = _
        rw [hset]
        rfl
      · exact fun s hs => hlen s hs
    · cases hw

/-! ### Graph-level well-formedness -/

/-- The structural fields of a wire (everything except the cached value). -/
def edgeShape (w : Wire) : Nat × Nat × Nat × Nat × Nat × Bool :=
  (w.start_comp, w.start_pin, w.end_comp, w.end_pin, w.data_bits, w.is_virtual)

theorem edgeShape_fields {w w' : Wire} (h : edgeShape w' = edgeShape w) :
    w'.start_comp = w.start_comp ∧ w'.start_pin = w.start_pin ∧
    w'.end_comp = w.end_comp ∧ w'.end_pin = w.end_pin ∧
    w'.data_bits = w.data_bits ∧ w'.is_virtual = w.is_virtual := by
  unfold edgeShape at h
  simp only [Prod.mk.injEq] at h
  exact h

theorem shapeAt_congr {es es' : List Wire} (h : es'.map edgeShape = es.map edgeShape)
    (i : Nat) : (es'[i]?).map edgeShape = (es[i]?).map edgeShape := by
  rw [← List.getElem?_map, ← List.getElem?_map, h]

/-- Structural coherence of one wire against the graph it lives in: both
endpoints resolve, the source pin width is the wire's recorded width, the
destination pin has some width, and the cached value (if present) has the
recorded width. -/
def EdgeOK (g : CircuitGraph) (w : Wire) : Prop :=
  (∃ src, g.getComp w.start_comp = some src ∧
    src.get_pin_width (PinIndex.Output w.start_pin) = some w.data_bits) ∧
  (∃ dst dw, g.getComp w.end_comp = some dst ∧
    dst.get_pin_width (PinIndex.Input w.end_pin) = some dw) ∧
  (∀ s, w.value = some s → s.length = w.data_bits)

/-- Graph well-formedness: distinct node ids, width-coherent components,
structurally coherent wires. -/
def GraphWF (g : CircuitGraph) : Prop :=
  g.ids.Nodup ∧ (∀ p ∈ g.nodes, Comp.WidthOK p.2) ∧ (∀ w ∈ g.edges, EdgeOK g w)

theorem getComp_eq_some {g : CircuitGraph} {cx : Nat} {c : Comp}
    (h : g.getComp cx = some c) : (cx, c) ∈ g.nodes := by
  unfold CircuitGraph.getComp at h
  rcases Option.map_eq_some'.mp h with ⟨pr, hfind, hsnd⟩
  have hmem := List.mem_of_find?_eq_some hfind
  have hpred := List.find?_some hfind
  have h1 : pr.1 = cx := by simpa using hpred
  have h2 : pr = (cx, c) := by
    cases pr with
    | mk a b =>
      simp only at h1 hsnd
      rw [h1, hsnd]
  rw [← h2]
  exact hmem

theorem getComp_isSome_of_mem {g : CircuitGraph} {cx : Nat} (h : cx ∈ g.ids) :
    ∃ c, g.getComp cx = some c := by
  unfold CircuitGraph.ids at h
  rcases List.mem_map.mp h with ⟨pr, hpr, hfst⟩
  have hs : (g.nodes.find? (fun p => p.1 == cx)).isSome := by
    rw [List.find?_isSome]
    exact ⟨pr, hpr, by simpa using hfst⟩
  rcases Option.isSome_iff_exists.mp hs with ⟨x, hx⟩
  refine ⟨x.2, ?_⟩
  unfold CircuitGraph.getComp
  rw [hx, Option.map_some']

theorem setComp_edges (g : CircuitGraph) (cx : Nat) (c : Comp) :
    (g.setComp cx c).edges = g.edges := rfl

theorem setComp_ids (g : CircuitGraph) (cx : Nat) (c : Comp) :
    (g.setComp cx c).ids = g.ids := by
  show (g.nodes.map _).map Prod.fst = g.nodes.map Prod.fst
  rw [List.map_map]
  apply List.map_congr_left
  intro p _
  show (if p.1 == cx then (p.1, c) else p).1 = p.1
  split <;> rfl

theorem find?_cons_true {cx : Nat} {a : Nat × Comp} (l : List (Nat × Comp))
    (ha : (a.1 == cx) = true) : (a :: l).find? (fun p => p.1 == cx) = some a :=
  List.find?_cons_of_pos l ha

theorem find?_cons_false {cx : Nat} {a : Nat × Comp} (l : List (Nat × Comp))
    (ha : ¬(a.1 == cx) = true) :
    (a :: l).find? (fun p => p.1 == cx) = l.find? (fun p => p.1 == cx) :=
  List.find?_cons_of_neg l ha

theorem find?_replace_self {cx : Nat} {c : Comp} :
    ∀ {l : List (Nat × Comp)} {pr : Nat × Comp},
      l.find? (fun p => p.1 == cx) = some pr →
      (l.map (fun p => if p.1 == cx then (p.1, c) else p)).find?
        (fun p => p.1 == cx) = some (cx, c) := by
  intro l
  induction l with
  | nil => intro pr h; cases h
  | cons a t ih =>
    intro pr h
    rw [List.map_cons]
    by_cases ha : (a.1 == cx) = true
    · rw [if_pos ha]
      rw [find?_cons_true (a := (a.1, c)) _ ha]
      have : a.1 = cx := by simpa using ha
      rw [this]
    · rw [if_neg ha]
      rw [find?_cons_false (a := a) _ ha]
      rw [find?_cons_false (a := a) _ ha] at h
      exact ih h

theorem find?_replace_ne {cx cy : Nat} {c : Comp} (hne : cx ≠ cy) :
    ∀ (l : List (Nat × Comp)),
      (l.map (fun p => if p.1 == cx then (p.1, c) else p)).find? (fun p => p.1 == cy) =
        l.find? (fun p => p.1 == cy) := by
  intro l
  induction l with
  | nil => rfl
  | cons a t ih =>
    rw [List.map_cons]
    by_cases hx : (a.1 == cx) = true
    · have hax : a.1 = cx := by simpa using hx
      have hy : ¬((a.1, c).1 == cy) = true := by
        simp only
        rw [hax]
        simp [beq_eq_false_iff_ne.mpr hne]
      rw [if_pos hx]
      rw [find?_cons_false (a := (a.1, c)) _ hy]
      rw [find?_cons_false (a := a) _ (by
        show ¬(a.1 == cy) = true
        rw [hax]
        simp [beq_eq_false_iff_ne.mpr hne])]
      exact ih
    · rw [if_neg hx]
      by_cases hy : (a.1 == cy) = true
      · rw [find?_cons_true (a := a) _ hy, find?_cons_true (a := a) _ hy]
      · rw [find?_cons_false (a := a) _ hy, find?_cons_false (a := a) _ hy]
        exact ih

theorem getComp_setComp_self {g : CircuitGraph} {cx : Nat} {c0 c : Comp}
    (h : g.getComp cx = some c0) : (g.setComp cx c).getComp cx = some c := by
  unfold CircuitGraph.getComp at h ⊢
  rcases Option.map_eq_some'.mp h with ⟨pr, hfind, _⟩
  show ((g.nodes.map _).find? _).map Prod.snd = some c
  rw [find?_replace_self hfind, Option.map_some']

theorem getComp_setComp_ne {g : CircuitGraph} {cx cy : Nat} {c : Comp} (hne : cx ≠ cy) :
    (g.setComp cx c).getComp cy = g.getComp cy := by
  unfold CircuitGraph.getComp
  show ((g.nodes.map _).find? _).map Prod.snd = _
  rw [find?_replace_ne hne]

theorem NodesOK_setComp {g : CircuitGraph} {cx : Nat} {c : Comp}
    (hn : ∀ p ∈ g.nodes, Comp.WidthOK p.2) (hc : Comp.WidthOK c) :
    ∀ p ∈ (g.setComp cx c).nodes, Comp.WidthOK p.2 := by
  intro p hp
  rcases List.mem_map.mp hp with ⟨q, hq, hfq⟩
  by_cases h : (q.1 == cx) = true
  · rw [if_pos h] at hfq
    rw [← hfq]
    exact hc
  · rw [if_neg h] at hfq
    rw [← hfq]
    exact hn q hq

theorem EdgeOK_transfer {g g' : CircuitGraph} {w w' : Wire}
    (hmaps : ∀ cy c, g.getComp cy = some c → ∃ c', g'.getComp cy = some c' ∧
      ∀ px, c'.get_pin_width px = c.get_pin_width px)
    (hsh : edgeShape w' = edgeShape w)
    (hcache : ∀ s, w'.value = some s → s.length = w'.data_bits)
    (h : EdgeOK g w) : EdgeOK g' w' := by
  obtain ⟨⟨src, hsrc, hsw⟩, ⟨dst, dw, hdst, hdw⟩, _⟩ := h
  obtain ⟨hsc, hsp, hec, hep, hdb, _⟩ := edgeShape_fields hsh
  obtain ⟨src', hsrc', hsw'⟩ := hmaps _ _ hsrc
  obtain ⟨dst', hdst', hdw'⟩ := hmaps _ _ hdst
  refine ⟨⟨src', ?_, ?_⟩, ⟨dst', dw, ?_, ?_⟩, hcache⟩
  · rw [hsc]
    exact hsrc'
  · rw [hsp, hdb, hsw']
    exact hsw
  · rw [hec]
    exact hdst'
  · rw [hep, hdw']
    exact hdw

theorem foldlM_option_inv {α β : Type} (f : β → α → Option β) (P : β → Prop) :
    ∀ (l : List α) (s : β), P s →
      (∀ s' a, a ∈ l → P s' → ∃ s'', f s' a = some s'' ∧ P s'') →
      ∃ s', l.foldlM f s = some s' ∧ P s' := by
  intro l
  induction l with
  | nil => intro s hs _; exact ⟨s, rfl, hs⟩
  | cons a t ih =>
    intro s hs hstep
    obtain ⟨s1, hf, hP1⟩ := hstep s a (List.mem_cons_self a t) hs
    obtain ⟨s', hfold, hP'⟩ :=
      ih s1 hP1 (fun s' b hb hP => hstep s' b (List.mem_cons_of_mem a hb) hP)
    refine ⟨s', ?_, hP'⟩
    rw [List.foldlM_cons, hf]
    show t.foldlM f s1 = some s'
    exact hfold

theorem setComp_maps {g : CircuitGraph} {cx : Nat} {c c' : Comp}
    (hc : g.getComp cx = some c)
    (hwidths : ∀ qx, c'.get_pin_width qx = c.get_pin_width qx)
    (hclk : c'.is_clocked = c.is_clocked) :
    ∀ cy c0, g.getComp cy = some c0 → ∃ c0', (g.setComp cx c').getComp cy = some c0' ∧
      (∀ qx, c0'.get_pin_width qx = c0.get_pin_width qx) ∧
      c0'.is_clocked = c0.is_clocked := by
  intro cy c0 h0
  by_cases hcy : cy = cx
  · subst hcy
    rw [hc] at h0
    cases h0
    exact ⟨c', getComp_setComp_self hc, hwidths, hclk⟩
  · refine ⟨c0, ?_, fun qx => rfl, rfl⟩
    rw [getComp_setComp_ne (fun h => hcy h.symm)]
    exact h0

theorem setComp_WF {g : CircuitGraph} {cx : Nat} {c c' : Comp}
    (hWF : GraphWF g) (hc : g.getComp cx = some c) (hWOK' : Comp.WidthOK c')
    (hwidths : ∀ qx, c'.get_pin_width qx = c.get_pin_width qx)
    (hclk : c'.is_clocked = c.is_clocked) :
    GraphWF (g.setComp cx c') := by
  obtain ⟨hnd, hnOK, heOK⟩ := hWF
  refine ⟨?_, NodesOK_setComp hnOK hWOK', ?_⟩
  · rw [setComp_ids]
    exact hnd
  · intro w hw
    rw [setComp_edges] at hw
    refine EdgeOK_transfer ?_ rfl (heOK w hw).2.2 (heOK w hw)
    intro cy c0 h0
    obtain ⟨c0', h1, h2, _⟩ := setComp_maps hc hwidths hclk cy c0 h0
    exact ⟨c0', h1, h2⟩

theorem setComp_set_props {g : CircuitGraph} {i cxd : Nat} {w w' : Wire} {dst dst' : Comp}
    {px : PinIndex} {v : Option Signal} {g' : CircuitGraph}
    (hWF : GraphWF g) (hw : g.edges[i]? = some w) (hdst : g.getComp cxd = some dst)
    (hdset : dst.set_pin_value px v = some dst') (hdWOK : Comp.WidthOK dst')
    (hsh : edgeShape w' = edgeShape w)
    (hcache : ∀ s, w'.value = some s → s.length = w'.data_bits)
    (hg' : g' = { nodes := (g.setComp cxd dst').nodes, edges := g.edges.set i w' }) :
    GraphWF g' ∧ g'.ids = g.ids ∧ g'.edges.map edgeShape = g.edges.map edgeShape ∧
    (∀ cy c, g.getComp cy = some c → ∃ c', g'.getComp cy = some c' ∧
      (∀ qx, c'.get_pin_width qx = c.get_pin_width qx) ∧ c'.is_clocked = c.is_clocked) := by
  subst hg'
  obtain ⟨hnd, hnOK, heOK⟩ := hWF
  have hmaps : ∀ cy c, g.getComp cy = some c →
      ∃ c', (g.setComp cxd dst').getComp cy = some c' ∧
        (∀ qx, c'.get_pin_width qx = c.get_pin_width qx) ∧
        c'.is_clocked = c.is_clocked :=
    setComp_maps hdst (Comp.set_pin_value_width hdset) (Comp.set_pin_value_clocked hdset)
  have hshape : (g.edges.set i w').map edgeShape = g.edges.map edgeShape := by
    rw [List.map_set, hsh]
    exact set_of_getElem? _ i _ (by rw [List.getElem?_map, hw]; rfl)
  refine ⟨⟨?_, ?_, ?_⟩, ?_, hshape, hmaps⟩
  · show ((g.setComp cxd dst').ids).Nodup
    rw [setComp_ids]
    exact hnd
  · exact NodesOK_setComp hnOK hdWOK
  · intro w'' hw''
    show EdgeOK _ w''
    rcases List.mem_or_eq_of_mem_set hw'' with hmem | heq
    · exact EdgeOK_transfer
        (fun cy c h0 => (hmaps cy c h0).imp (fun c' hc' => ⟨hc'.1, hc'.2.1⟩))
        rfl (heOK w'' hmem).2.2 (heOK w'' hmem)
    · subst heq
      exact EdgeOK_transfer
        (fun cy c h0 => (hmaps cy c h0).imp (fun c' hc' => ⟨hc'.1, hc'.2.1⟩))
        hsh hcache (heOK w (List.getElem?_mem hw))
  · show (g.setComp cxd dst').ids = g.ids
    exact setComp_ids g cxd dst'

/-- A transmit step along a structurally coherent wire never aborts, and
preserves graph well-formedness, the node ids, the wire structure, and every
component's declared widths and clockedness. -/
theorem transmitAt_ok {g : CircuitGraph} {cx i : Nat} {w : Wire}
    (hWF : GraphWF g) (hw : g.edges[i]? = some w) (hstart : w.start_comp = cx) :
    ∃ g', transmitAt g cx i = some g' ∧ GraphWF g' ∧ g'.ids = g.ids ∧
      g'.edges.map edgeShape = g.edges.map edgeShape ∧
      (∀ cy c, g.getComp cy = some c → ∃ c', g'.getComp cy = some c' ∧
        (∀ qx, c'.get_pin_width qx = c.get_pin_width qx) ∧
        c'.is_clocked = c.is_clocked) := by
  obtain ⟨hnd, hnOK, heOK⟩ := hWF
  obtain ⟨⟨src, hsrc, hsw⟩, ⟨dst, dw, hdst, hdw⟩, hcache⟩ := heOK w (List.getElem?_mem hw)
  have hsrcWOK : Comp.WidthOK src := hnOK _ (getComp_eq_some hsrc)
  have hdstWOK : Comp.WidthOK dst := hnOK _ (getComp_eq_some hdst)
  subst hstart
  unfold transmitAt
  simp only [Option.bind_eq_bind]
  rw [hw, Option.some_bind, hsrc, Option.some_bind, hdst, Option.some_bind, hsw,
    Option.some_bind, hdw, Option.some_bind]
  by_cases heq : w.data_bits = dw
  · rw [if_pos heq]
    obtain ⟨sig, hsig⟩ := Comp.get_pin_value_isSome hsw
    have hsiglen : ∀ s, sig = some s → s.length = dw := fun s hs => by
      rw [← heq]
      exact Comp.get_pin_value_length hsrcWOK hsw (by rw [hsig, hs])
    obtain ⟨dst', hdset, hdWOK, _⟩ := Comp.set_pin_value_ok hdstWOK hdw hsiglen
    have hwset : ∃ w', w.set_signal sig = some w' ∧ edgeShape w' = edgeShape w ∧
        (∀ s, w'.value = some s → s.length = w'.data_bits) := by
      cases sig with
      | none => exact ⟨{ w with value := none }, rfl, rfl, fun s hs => by cases hs⟩
      | some sg =>
        refine ⟨{ w with value := some sg }, ?_, rfl, ?_⟩
        · exact Wire.set_signal_ok w (some sg) (fun old new hold hnew => by
            cases hnew
            rw [hcache old hold, heq, hsiglen sg rfl])
        · intro s hs
          cases hs
          show sg.length = w.data_bits
          rw [heq]
          exact hsiglen sg rfl
    obtain ⟨w', hwset', hsh, hc'⟩ := hwset
    rw [hsig, Option.some_bind, hdset, Option.some_bind, hwset', Option.some_bind]
    obtain ⟨hWF', hids, hshape, hmaps⟩ :=
      setComp_set_props ⟨hnd, hnOK, heOK⟩ hw hdst hdset hdWOK hsh hc' rfl
    exact ⟨_, rfl, hWF', hids, hshape, hmaps⟩
  · rw [if_neg heq]
    have hwset : w.set_signal none = some { w with value := none } := rfl
    obtain ⟨dst', hdset, hdWOK, _⟩ :=
      Comp.set_pin_value_ok (v := none) hdstWOK hdw (fun s hs => by cases hs)
    rw [hwset, Option.some_bind, hdset, Option.some_bind]
    have hsh0 : edgeShape ({ w with value := none } : Wire) = edgeShape w := rfl
    have hcache0 : ∀ s, ({ w with value := none } : Wire).value = some s →
        s.length = ({ w with value := none } : Wire).data_bits := fun s hs => by cases hs
    obtain ⟨hWF', hids, hshape, hmaps⟩ :=
      setComp_set_props ⟨hnd, hnOK, heOK⟩ hw hdst hdset hdWOK hsh0 hcache0 rfl
    exact ⟨_, rfl, hWF', hids, hshape, hmaps⟩

theorem outEdgeIdx_mem {g : CircuitGraph} {cx i : Nat} (h : i ∈ outEdgeIdx g cx) :
    ∃ w, g.edges[i]? = some w ∧ w.start_comp = cx := by
  unfold outEdgeIdx at h
  obtain ⟨_, hpred⟩ := List.mem_filter.mp h
  have : (g.edges[i]?).map Wire.start_comp = some cx := by
    exact beq_iff_eq.mp hpred
  rcases Option.map_eq_some'.mp this with ⟨w, hw, hs⟩
  exact ⟨w, hw, hs⟩

/-- Visiting one well-formed component never aborts and preserves the graph
invariants. -/
theorem processNode_ok {g : CircuitGraph} {cx : Nat}
    (hWF : GraphWF g) (hmem : cx ∈ g.ids) :
    ∃ g', processNode g cx = some g' ∧ GraphWF g' ∧ g'.ids = g.ids ∧
      g'.edges.map edgeShape = g.edges.map edgeShape ∧
      (∀ cy c, g.getComp cy = some c → ∃ c', g'.getComp cy = some c' ∧
        (∀ qx, c'.get_pin_width qx = c.get_pin_width qx) ∧
        c'.is_clocked = c.is_clocked) := by
  obtain ⟨c, hc⟩ := getComp_isSome_of_mem hmem
  have hcWOK : Comp.WidthOK c := hWF.2.1 _ (getComp_eq_some hc)
  obtain ⟨c', hdl, hcWOK', hwidths⟩ := Comp.do_logic_ok_c hcWOK
  have hclk := Comp.do_logic_clocked hdl
  have hWF1 : GraphWF (g.setComp cx c') := setComp_WF hWF hc hcWOK' hwidths hclk
  have hmaps1 := setComp_maps hc hwidths hclk
  have hstep : ∀ h i, i ∈ outEdgeIdx (g.setComp cx c') cx →
      (GraphWF h ∧ h.ids = (g.setComp cx c').ids ∧
        h.edges.map edgeShape = (g.setComp cx c').edges.map edgeShape ∧
        (∀ cy c0, (g.setComp cx c').getComp cy = some c0 →
          ∃ c0', h.getComp cy = some c0' ∧
            (∀ qx, c0'.get_pin_width qx = c0.get_pin_width qx) ∧
            c0'.is_clocked = c0.is_clocked)) →
      ∃ h', transmitAt h cx i = some h' ∧
        (GraphWF h' ∧ h'.ids = (g.setComp cx c').ids ∧
          h'.edges.map edgeShape = (g.setComp cx c').edges.map edgeShape ∧
          (∀ cy c0, (g.setComp cx c').getComp cy = some c0 →
            ∃ c0', h'.getComp cy = some c0' ∧
              (∀ qx, c0'.get_pin_width qx = c0.get_pin_width qx) ∧
              c0'.is_clocked = c0.is_clocked)) := by
    intro h i hi hP
    obtain ⟨hWFh, hidsh, hshapeh, hmapsh⟩ := hP
    obtain ⟨w0, hw0, hs0⟩ := outEdgeIdx_mem hi
    have hsh := shapeAt_congr hshapeh i
    rw [hw0, Option.map_some'] at hsh
    rcases Option.map_eq_some'.mp hsh with ⟨wh, hwh, hshwh⟩
    have hstartwh : wh.start_comp = cx := by
      rw [(edgeShape_fields hshwh).1, hs0]
    obtain ⟨h', ht, hWF', hids', hshape', hmaps'⟩ := transmitAt_ok hWFh hwh hstartwh
    refine ⟨h', ht, hWF', ?_, ?_, ?_⟩
    · rw [hids', hidsh]
    · rw [hshape', hshapeh]
    · intro cy c0 h0
      obtain ⟨c1, h1, h2, h3⟩ := hmapsh cy c0 h0
      obtain ⟨c2, h4, h5, h6⟩ := hmaps' cy c1 h1
      exact ⟨c2, h4, fun qx => by rw [h5, h2], by rw [h6, h3]⟩
  obtain ⟨g', hrun, hWF', hids', hshape', hmaps'⟩ :=
    foldlM_option_inv (fun h i => transmitAt h cx i)
      (fun h => GraphWF h ∧ h.ids = (g.setComp cx c').ids ∧
        h.edges.map edgeShape = (g.setComp cx c').edges.map edgeShape ∧
        (∀ cy c0, (g.setComp cx c').getComp cy = some c0 →
          ∃ c0', h.getComp cy = some c0' ∧
            (∀ qx, c0'.get_pin_width qx = c0.get_pin_width qx) ∧
            c0'.is_clocked = c0.is_clocked))
      (outEdgeIdx (g.setComp cx c') cx) (g.setComp cx c')
      ⟨hWF1, rfl, rfl, fun cy c0 h0 => ⟨c0, h0, fun qx => rfl, rfl⟩⟩
      hstep
  have hids'' : g'.ids = g.ids := by
    rw [hids', setComp_ids]
  have hshape'' : g'.edges.map edgeShape = g.edges.map edgeShape := by
    rw [hshape', setComp_edges]
  refine ⟨g', ?_, hWF', hids'', hshape'', ?_⟩
  · unfold processNode
    simp only [Option.bind_eq_bind]
    rw [hc, Option.some_bind, hdl, Option.some_bind]
    exact hrun
  · intro cy c0 h0
    obtain ⟨c1, h1, h2, h3⟩ := hmaps1 cy c0 h0
    obtain ⟨c2, h4, h5, h6⟩ := hmaps' cy c1 h1
    exact ⟨c2, h4, fun qx => by rw [h5, h2], by rw [h6, h3]⟩

/-! ### Paths, cycles, and the topological sort -/

/-- A single directed edge of the wire list. -/
def hasEdge (E : List Wire) (a b : Nat) : Prop :=
  ∃ w ∈ E, w.start_comp = a ∧ w.end_comp = b

/-- Nonempty directed paths through the wire list. -/
inductive EPath (E : List Wire) : Nat → Nat → Prop
  | single {a b : Nat} : hasEdge E a b → EPath E a b
  | cons {a b c : Nat} : hasEdge E a b → EPath E b c → EPath E a c

theorem EPath.start_mem {E : List Wire} {a b : Nat} (h : EPath E a b) :
    a ∈ E.map Wire.start_comp := by
  cases h with
  | single he =>
    obtain ⟨w, hw, hs, _⟩ := he
    exact List.mem_map.mpr ⟨w, hw, hs⟩
  | cons he _ =>
    obtain ⟨w, hw, hs, _⟩ := he
    exact List.mem_map.mpr ⟨w, hw, hs⟩

/-- If every remaining node has an incoming edge from a remaining node, the
edge list has a directed cycle. -/
theorem cycle_of_all_incoming {E : List Wire} {rem : List Nat} (hne : rem ≠ [])
    (hstep : ∀ v ∈ rem, ∃ u ∈ rem, hasEdge E u v) : ∃ v, EPath E v v := by
  have hstep' : ∀ v : {x // x ∈ rem}, ∃ u : {x // x ∈ rem}, hasEdge E u.1 v.1 := by
    rintro ⟨v, hv⟩
    obtain ⟨u, hu, he⟩ := hstep v hv
    exact ⟨⟨u, hu⟩, he⟩
  choose F hF using hstep'
  obtain ⟨v0, hv0⟩ := List.exists_mem_of_ne_nil rem hne
  let seq : ℕ → {x // x ∈ rem} := fun n => F^[n] ⟨v0, hv0⟩
  have hedge : ∀ n, hasEdge E (seq (n + 1)).1 (seq n).1 := by
    intro n
    have hs : seq (n + 1) = F (seq n) := Function.iterate_succ_apply' F n _
    rw [hs]
    exact hF (seq n)
  have chain : ∀ (d i : ℕ), EPath E (seq (i + d + 1)).1 (seq i).1 := by
    intro d
    induction d with
    | zero => intro i; exact EPath.single (hedge i)
    | succ d ihd =>
      intro i
      have he : i + (d + 1) + 1 = (i + d + 1) + 1 := by omega
      rw [he]
      exact EPath.cons (hedge (i + d + 1)) (ihd i)
  have hmapsto : ∀ n ∈ Finset.range (rem.length + 1), (seq n).1 ∈ rem.toFinset := by
    intro n _
    rw [List.mem_toFinset]
    exact (seq n).2
  have hcard : rem.toFinset.card < (Finset.range (rem.length + 1)).card := by
    rw [Finset.card_range]
    exact Nat.lt_succ_of_le rem.toFinset_card_le
  obtain ⟨i, _, j, _, hij, heqv⟩ :=
    Finset.exists_ne_map_eq_of_card_lt_of_maps_to hcard hmapsto
  have key : ∀ a b : ℕ, a < b → (seq a).1 = (seq b).1 → ∃ v, EPath E v v := by
    intro a b hab hfeq
    have hb : b = a + (b - a - 1) + 1 := by omega
    have hpath := chain (b - a - 1) a
    rw [← hb] at hpath
    rw [← hfeq] at hpath
    exact ⟨_, hpath⟩
  rcases Nat.lt_or_ge i j with hlt | hge
  · exact key i j hlt heqv
  · exact key j i (by omega) heqv.symm

theorem kahnAux_perm {E : List Wire} :
    ∀ {fuel : Nat} {rem ord : List Nat}, kahnAux E fuel rem = some ord →
      ord.Perm rem := by
  intro fuel
  induction fuel with
  | zero =>
    intro rem ord h
    cases rem with
    | nil => cases h; exact List.Perm.nil
    | cons x xs => cases h
  | succ fuel ih =>
    intro rem ord h
    cases rem with
    | nil => cases h; exact List.Perm.nil
    | cons x xs =>
      have hmatch : kahnAux E (fuel + 1) (x :: xs) =
          match (x :: xs).find? (noIncoming E (x :: xs)) with
          | none => none
          | some v => (kahnAux E fuel ((x :: xs).erase v)).map (fun o => v :: o) := rfl
      rw [hmatch] at h
      cases hfind : (x :: xs).find? (noIncoming E (x :: xs)) with
      | none => rw [hfind] at h; cases h
      | some v =>
        rw [hfind] at h
        rcases Option.map_eq_some'.mp h with ⟨o, ho, hco⟩
        subst hco
        have hperm := ih ho
        have hv := List.mem_of_find?_eq_some hfind
        exact (hperm.cons v).trans (List.perm_cons_erase hv).symm

/-- The scheduler's order is topologically sorted: once `v` is emitted, no
edge reaches `v` from `v` itself or any later node. -/
theorem kahnAux_sorted {E : List Wire} :
    ∀ {fuel : Nat} {rem ord : List Nat}, kahnAux E fuel rem = some ord →
      ∀ l1 v l2, ord = l1 ++ v :: l2 → ∀ w ∈ E, w.end_comp = v →
        w.start_comp ∉ (v :: l2) := by
  intro fuel
  induction fuel with
  | zero =>
    intro rem ord h l1 v l2 heq w hwE hend
    cases rem with
    | nil =>
      cases h
      cases l1 <;> simp at heq
    | cons x xs => cases h
  | succ fuel ih =>
    intro rem ord h l1 v l2 heq w hwE hend
    cases rem with
    | nil =>
      cases h
      cases l1 <;> simp at heq
    | cons x xs =>
      have hmatch : kahnAux E (fuel + 1) (x :: xs) =
          match (x :: xs).find? (noIncoming E (x :: xs)) with
          | none => none
          | some v => (kahnAux E fuel ((x :: xs).erase v)).map (fun o => v :: o) := rfl
      rw [hmatch] at h
      cases hfind : (x :: xs).find? (noIncoming E (x :: xs)) with
      | none => rw [hfind] at h; cases h
      | some v0 =>
        rw [hfind] at h
        rcases Option.map_eq_some'.mp h with ⟨o, ho, hco⟩
        subst hco
        cases l1 with
        | nil =>
          rw [List.nil_append] at heq
          cases heq
          intro hmem
          have hv0 := List.mem_of_find?_eq_some hfind
          have hsub : w.start_comp ∈ x :: xs := by
            rcases List.mem_cons.mp hmem with hm | hm
            · rw [hm]
              exact hv0
            · exact List.mem_of_mem_erase ((kahnAux_perm ho).subset hm)
          have hni := List.find?_some hfind
          unfold noIncoming at hni
          rw [Bool.not_eq_true'] at hni
          have hall := List.any_eq_false.mp hni w hwE
          apply hall
          rw [Bool.and_eq_true]
          constructor
          · simpa using hend
          · simpa using hsub
        | cons a l1' =>
          rw [List.cons_append] at heq
          have heq2 := List.cons.inj heq
          exact ih ho l1' v l2 heq2.2 w hwE hend

/-- From acyclicity of the filtered view, the topological sort always
succeeds (the pigeonhole argument behind `toposort`). -/
theorem kahnAux_complete (E : List Wire) (hacyc : ∀ v, ¬ EPath E v v) :
    ∀ (fuel : Nat) (rem : List Nat), rem.length ≤ fuel →
      ∃ ord, kahnAux E fuel rem = some ord := by
  intro fuel
  induction fuel with
  | zero =>
    intro rem hlen
    cases rem with
    | nil => exact ⟨[], rfl⟩
    | cons x xs => simp at hlen
  | succ fuel ih =>
    intro rem hlen
    cases rem with
    | nil => exact ⟨[], rfl⟩
    | cons x xs =>
      cases hfind : (x :: xs).find? (noIncoming E (x :: xs)) with
      | none =>
        exfalso
        have hstep : ∀ v ∈ x :: xs, ∃ u ∈ x :: xs, hasEdge E u v := by
          intro v hv
          have h1 : ¬(noIncoming E (x :: xs) v = true) :=
            List.find?_eq_none.mp hfind v hv
          unfold noIncoming at h1
          rw [Bool.not_eq_true, Bool.not_eq_false'] at h1
          rcases List.any_eq_true.mp h1 with ⟨w, hwE, hw⟩
          rw [Bool.and_eq_true] at hw
          obtain ⟨hend, hcont⟩ := hw
          refine ⟨w.start_comp, ?_, ⟨w, hwE, rfl, by simpa using hend⟩⟩
          simpa using hcont
        obtain ⟨v, hv⟩ := cycle_of_all_incoming (List.cons_ne_nil x xs) hstep
        exact hacyc v hv
      | some v =>
        have hv : v ∈ x :: xs := List.mem_of_find?_eq_some hfind
        have hlen' : ((x :: xs).erase v).length ≤ fuel := by
          rw [List.length_erase_of_mem hv]
          simp only [List.length_cons] at hlen ⊢
          omega
        obtain ⟨ord, hord⟩ := ih _ hlen'
        refine ⟨v :: ord, ?_⟩
        have hmatch : kahnAux E (fuel + 1) (x :: xs) =
            match (x :: xs).find? (noIncoming E (x :: xs)) with
            | none => none
            | some v => (kahnAux E fuel ((x :: xs).erase v)).map (fun o => v :: o) := rfl
        rw [hmatch, hfind]
        show (kahnAux E fuel ((x :: xs).erase v)).map (fun o => v :: o) = some (v :: ord)
        rw [hord, Option.map_some']

/-- A full propagation pass never aborts on a well-formed, clock-acyclic
graph. -/
theorem update_signals_ok {ctx : CircuitContext} {g g2 : CircuitGraph}
    (htun : add_tunnel_connections ctx (removeVirtual g) = some g2)
    (hWF : GraphWF g2)
    (hacyc : ∀ v, ¬ EPath (filteredEdges g2) v v) :
    ∃ g', update_signals ctx g = some g' := by
  obtain ⟨ord, hord⟩ :=
    kahnAux_complete (filteredEdges g2) hacyc g2.ids.length g2.ids (Nat.le_refl _)
  have hperm := kahnAux_perm hord
  have hstep : ∀ h cx, cx ∈ ord → (GraphWF h ∧ h.ids = g2.ids) →
      ∃ h', processNode h cx = some h' ∧ (GraphWF h' ∧ h'.ids = g2.ids) := by
    intro h cx hcx hP
    obtain ⟨hWFh, hidsh⟩ := hP
    have hmem : cx ∈ h.ids := by
      rw [hidsh]
      exact hperm.subset hcx
    obtain ⟨h', hp, hWF', hids', _, _⟩ := processNode_ok hWFh hmem
    exact ⟨h', hp, hWF', by rw [hids', hidsh]⟩
  obtain ⟨g', hrun, _⟩ :=
    foldlM_option_inv processNode (fun h => GraphWF h ∧ h.ids = g2.ids) ord g2
      ⟨hWF, rfl⟩ hstep
  refine ⟨g', ?_⟩
  unfold update_signals
  simp only [Option.bind_eq_bind]
  rw [htun, Option.some_bind]
  have hkahn : kahn (filteredEdges g2) g2.ids = some ord := hord
  rw [hkahn, Option.some_bind]
  exact hrun

theorem EPath.end_mem {E : List Wire} {a b : Nat} (h : EPath E a b) :
    b ∈ E.map Wire.end_comp := by
  induction h with
  | single he =>
    obtain ⟨w, hw, _, he'⟩ := he
    exact List.mem_map.mpr ⟨w, hw, he'⟩
  | cons _ _ ih => exact ih

/-- An input feeding an output through one explicit wire whose cached value
is one bit wide while the pins are two bits wide. -/
def C1g : CircuitGraph :=
  { nodes := [(0, Comp.inputC (Input.new 2)), (1, Comp.outputC (Output.new 2))]
    edges := [{ start_comp := 0, start_pin := 0, end_comp := 1, end_pin := 0,
                data_bits := 2, value := some [false], is_virtual := false }] }

def C1ctx : CircuitContext := { tunnels := [] }

/-- claim C1 counterexample: on `C1g` the virtual wires are already (trivially)
regenerated, every directed cycle of the filtered view is broken (there are
none), and the topological sort succeeds — yet the propagation pass aborts,
because the stale one-bit cache on the two-bit wire makes `Wire::set_signal`
panic. The claim's cycle condition therefore does not suffice for a panic-free
pass. -/
theorem C1_scheduler_counterexample :
    add_tunnel_connections C1ctx (removeVirtual C1g) = some C1g ∧
    (∀ v, ¬ EPath (filteredEdges C1g) v v) ∧
    (kahn (filteredEdges C1g) C1g.ids).isSome = true ∧
    update_signals C1ctx C1g = none := by
  refine ⟨rfl, ?_, rfl, rfl⟩
  intro v hv
  have h1 := hv.start_mem
  have h2 := hv.end_mem
  have e1 : (filteredEdges C1g).map Wire.start_comp = [0] := rfl
  have e2 : (filteredEdges C1g).map Wire.end_comp = [1] := rfl
  rw [e1] at h1
  rw [e2] at h2
  have hv1 : v = 0 := by simpa using h1
  have hv2 : v = 1 := by simpa using h2
  rw [hv1] at hv2
  cases hv2

/-- claim C1 (amended): for a circuit graph whose regenerated form `g2` is
width-coherent (`GraphWF`) and in which every directed cycle contains an edge
into a clocked component — equivalently, the clock-filtered view has no
directed cycle — the topological sort succeeds and the whole propagation pass
runs to completion without aborting. -/
theorem C1_scheduler_amended {ctx : CircuitContext} {g g2 : CircuitGraph}
    (htun : add_tunnel_connections ctx (removeVirtual g) = some g2)
    (hWF : GraphWF g2)
    (hcyc : ∀ v, ¬ EPath (filteredEdges g2) v v) :
    (∃ ord, kahn (filteredEdges g2) g2.ids = some ord) ∧
    (∃ g', update_signals ctx g = some g') := by
  constructor
  · exact kahnAux_complete _ hcyc _ _ (Nat.le_refl _)
  · exact update_signals_ok htun hWF hcyc

/-- A healthy one-bit input-to-output graph used to witness the amended C1. -/
def C1wg : CircuitGraph :=
  { nodes := [(0, Comp.inputC (Input.new 1)), (1, Comp.outputC (Output.new 1))]
    edges := [Wire.new 0 0 1 0 1 false] }

theorem C1wg_WF : GraphWF C1wg := by
  refine ⟨by decide, ?_, ?_⟩
  · intro p hp
    rcases List.mem_cons.mp hp with h | hp
    · subst h
      intro s hs
      cases hs
      rfl
    · rcases List.mem_cons.mp hp with h | hp
      · subst h
        intro s hs
        cases hs
      · cases hp
  · intro w hw
    rcases List.mem_cons.mp hw with h | hw
    · subst h
      refine ⟨⟨Comp.inputC (Input.new 1), rfl, rfl⟩,
        ⟨Comp.outputC (Output.new 1), 1, rfl, rfl⟩, ?_⟩
      intro s hs
      cases hs
    · cases hw

theorem C1wg_acyc : ∀ v, ¬ EPath (filteredEdges C1wg) v v := by
  intro v hv
  have h1 := hv.start_mem
  have h2 := hv.end_mem
  have e1 : (filteredEdges C1wg).map Wire.start_comp = [0] := rfl
  have e2 : (filteredEdges C1wg).map Wire.end_comp = [1] := rfl
  rw [e1] at h1
  rw [e2] at h2
  have hv1 : v = 0 := by simpa using h1
  have hv2 : v = 1 := by simpa using h2
  rw [hv1] at hv2
  cases hv2

theorem C1_scheduler_amended_witness :
    (∀ v, ¬ EPath (filteredEdges C1wg) v v) ∧
    (∃ ord, kahn (filteredEdges C1wg) C1wg.ids = some ord) ∧
    (∃ g', update_signals C1ctx C1wg = some g') := by
  refine ⟨C1wg_acyc, ?_⟩
  exact C1_scheduler_amended rfl C1wg_WF C1wg_acyc

/-- A three-bit input wired to a three-bit output; the pin widths agree on the
wire, but the wire's cache still holds a one-bit value. -/
def C10g : CircuitGraph :=
  { nodes := [(0, Comp.inputC (Input.new 3)), (1, Comp.outputC (Output.new 3))]
    edges := [{ start_comp := 0, start_pin := 0, end_comp := 1, end_pin := 0,
                data_bits := 3, value := some [true], is_virtual := false }] }

/-- claim C10 counterexample: on `C10g` the scheduler's pin-width comparison
passes (source and destination pins are both three bits wide), yet the
propagation pass still aborts: the comparison does not protect the in-place
copy into the wire's own cache, which holds a stale one-bit value. -/
theorem C10_width_guard_counterexample :
    (∃ src dst, C10g.getComp 0 = some src ∧ C10g.getComp 1 = some dst ∧
      src.get_pin_width (PinIndex.Output 0) = some 3 ∧
      dst.get_pin_width (PinIndex.Input 0) = some 3) ∧
    update_signals C1ctx C10g = none := by
  exact ⟨⟨Comp.inputC (Input.new 3), Comp.outputC (Output.new 3), rfl, rfl, rfl, rfl⟩, rfl⟩

/-- claim C10 (amended): writing a present value over a stored present value
of a different length aborts (`copy_from_bitslice` panics), both for pin
slots and for wire caches; and a transmit step during propagation is
panic-free on graphs whose pin values and wire caches respect the declared
widths (`GraphWF`) — the pin-width comparison alone does not suffice, the
cache-width invariant is also needed. -/
theorem C10_set_panic_amended :
    (∀ (p : Pin) (old new : Signal), p.signal = some old → old.length ≠ new.length →
      p.set (some new) = none) ∧
    (∀ (w : Wire) (old new : Signal), w.value = some old → old.length ≠ new.length →
      w.set_signal (some new) = none) ∧
    (∀ (g : CircuitGraph) (cx i : Nat) (w : Wire), GraphWF g →
      g.edges[i]? = some w → w.start_comp = cx →
      ∃ g', transmitAt g cx i = some g') := by
  refine ⟨Pin.set_mismatch, Wire.set_signal_mismatch, ?_⟩
  intro g cx i w hWF hw hs
  obtain ⟨g', hg', _⟩ := transmitAt_ok hWF hw hs
  exact ⟨g', hg'⟩

/-- A healthy two-bit input-to-output graph for the C10 witness. -/
def C10wg : CircuitGraph :=
  { nodes := [(0, Comp.inputC (Input.new 2)), (1, Comp.outputC (Output.new 2))]
    edges := [Wire.new 0 0 1 0 2 false] }

theorem C10wg_WF : GraphWF C10wg := by
  refine ⟨by decide, ?_, ?_⟩
  · intro p hp
    rcases List.mem_cons.mp hp with h | hp
    · subst h
      intro s hs
      cases hs
      rfl
    · rcases List.mem_cons.mp hp with h | hp
      · subst h
        intro s hs
        cases hs
      · cases hp
  · intro w hw
    rcases List.mem_cons.mp hw with h | hw
    · subst h
      refine ⟨⟨Comp.inputC (Input.new 2), rfl, rfl⟩,
        ⟨Comp.outputC (Output.new 2), 2, rfl, rfl⟩, ?_⟩
      intro s hs
      cases hs
    · cases hw

theorem C10_set_panic_amended_witness :
    ((⟨1, some [true]⟩ : Pin).signal = some [true] ∧
      (⟨1, some [true]⟩ : Pin).set (some [false, false]) = none) ∧
    (({ start_comp := 0, start_pin := 0, end_comp := 1, end_pin := 0, data_bits := 1,
        value := some [true], is_virtual := false } : Wire).set_signal
          (some [false, false]) = none) ∧
    (∃ g', transmitAt C10wg 0 0 = some g') := by
  refine ⟨⟨rfl, ?_⟩, ?_, ?_⟩
  · exact C10_set_panic_amended.1 _ [true] [false, false] rfl (by decide)
  · exact C10_set_panic_amended.2.1 _ [true] [false, false] rfl (by decide)
  · exact C10_set_panic_amended.2.2 C10wg 0 0 _ C10wg_WF rfl rfl

/-- claim C6: `try_add_wire` rejects — returning `false` with the graph
untouched — a same-component connection, a width mismatch, pin roles that are
not exactly one output and one input, and an occupied destination input pin
(in either argument orientation). -/
theorem C6_try_add_wire_rejects
    (ctx : CircuitContext) (g : CircuitGraph) (cx_a cx_b : Nat) (px_a px_b : PinIndex)
    (ca cb : Comp) (wa wb : Nat)
    (hca : g.getComp cx_a = some ca) (hcb : g.getComp cx_b = some cb)
    (hwa : ca.get_pin_width px_a = some wa) (hwb : cb.get_pin_width px_b = some wb)
    (hrej : cx_a = cx_b ∨ wa ≠ wb ∨
      (∃ i j, px_a = PinIndex.Input i ∧ px_b = PinIndex.Input j) ∨
      (∃ i j, px_a = PinIndex.Output i ∧ px_b = PinIndex.Output j) ∨
      (∃ i j, px_a = PinIndex.Output i ∧ px_b = PinIndex.Input j ∧
        inPinOccupied g cx_b j = true) ∨
      (∃ i j, px_a = PinIndex.Input i ∧ px_b = PinIndex.Output j ∧
        inPinOccupied g cx_a i = true)) :
    try_add_wire ctx g cx_a px_a cx_b px_b = some (false, g) := by
  unfold try_add_wire
  by_cases hab : cx_a = cx_b
  · rw [if_pos hab]
  · rw [if_neg hab]
    simp only [Option.bind_eq_bind]
    rw [hca, Option.some_bind, hcb, Option.some_bind, hwa, Option.some_bind, hwb,
      Option.some_bind]
    by_cases hw : wa = wb
    · rw [if_neg (fun hh => hh hw)]
      rcases hrej with h | h | h | h | h | h
      · exact absurd h hab
      · exact absurd hw h
      · obtain ⟨i, j, hpa, hpb⟩ := h
        subst hpa
        subst hpb
        rfl
      · obtain ⟨i, j, hpa, hpb⟩ := h
        subst hpa
        subst hpb
        rfl
      · obtain ⟨i, j, hpa, hpb, hocc⟩ := h
        subst hpa
        subst hpb
        show tryAddWireResolved ctx g cx_a i cx_b j wa = some (false, g)
        unfold tryAddWireResolved
        rw [if_pos hocc]
      · obtain ⟨i, j, hpa, hpb, hocc⟩ := h
        subst hpa
        subst hpb
        show tryAddWireResolved ctx g cx_b j cx_a i wa = some (false, g)
        unfold tryAddWireResolved
        rw [if_pos hocc]
    · rw [if_pos hw]

/-- A driven output plus a second candidate driver, to witness the
fan-in rejection. -/
def C6g : CircuitGraph :=
  { nodes := [(0, Comp.inputC (Input.new 1)), (1, Comp.outputC (Output.new 1)),
              (2, Comp.inputC (Input.new 1))]
    edges := [Wire.new 0 0 1 0 1 false] }

theorem C6_try_add_wire_rejects_witness :
    inPinOccupied C6g 1 0 = true ∧
    try_add_wire C1ctx C6g 2 (PinIndex.Output 0) 1 (PinIndex.Input 0) =
      some (false, C6g) := by
  refine ⟨rfl, ?_⟩
  exact C6_try_add_wire_rejects C1ctx C6g 2 1 (PinIndex.Output 0) (PinIndex.Input 0)
    (Comp.inputC (Input.new 1)) (Comp.outputC (Output.new 1)) 1 1 rfl rfl rfl rfl
    (Or.inr (Or.inr (Or.inr (Or.inr (Or.inl ⟨0, 0, rfl, rfl, rfl⟩)))))

/-! ### Frame and fixpoint micro-lemmas for the pass invariant -/

theorem Comp.do_logic_of_clocked {c : Comp} (h : c.is_clocked = true) :
    c.do_logic = some c := by
  cases c <;> first | rfl | cases h

theorem Gate.do_logic_shape {g g' : Gate} (h : g.do_logic = some g') :
    g'.kind = g.kind ∧ g'.data_bits = g.data_bits ∧ g'.inputs = g.inputs := by
  cases hk : g.kind with
  | Not =>
    rw [Gate.do_logic_not g hk] at h
    cases hp : g.inputs[0]? with
    | none => rw [hp] at h; cases h
    | some p =>
      rw [hp, Option.map_some', Option.some_inj] at h
      rw [← h]
      exact ⟨hk, rfl, rfl⟩
  | Or =>
    rw [Gate.do_logic_or g hk, Option.some_inj] at h
    rw [← h]
    exact ⟨hk, rfl, rfl⟩
  | And =>
    rw [Gate.do_logic_and g hk, Option.some_inj] at h
    rw [← h]
    exact ⟨hk, rfl, rfl⟩

theorem Mux.do_logic_shape_m {m m' : Mux} (h : m.do_logic = some m') :
    m'.selector = m.selector ∧ m'.inputs = m.inputs := by
  cases hs : m.selector.signal with
  | none =>
    rw [Mux.do_logic_sel_none m hs, Option.some_inj] at h
    rw [← h]
    exact ⟨rfl, rfl⟩
  | some s =>
    rw [Mux.do_logic_sel_some m s hs] at h
    cases hload : load 64 s with
    | none => rw [hload] at h; cases h
    | some sel =>
      rw [hload, Option.some_bind] at h
      cases hp : m.inputs[sel]? with
      | none => rw [hp] at h; cases h
      | some p =>
        rw [hp, Option.some_bind] at h
        cases hset : m.output.set p.get with
        | none => rw [hset] at h; cases h
        | some o =>
          rw [hset, Option.some_bind, Option.some_inj] at h
          rw [← h]
          exact ⟨rfl, rfl⟩

theorem Demux.do_logic_shape_d {d d' : Demux} (h : d.do_logic = some d') :
    d'.selector = d.selector ∧ d'.input = d.input := by
  cases hs : d.selector.signal with
  | none =>
    rw [Demux.do_logic_none d hs, Option.some_inj] at h
    rw [← h]
    exact ⟨rfl, rfl⟩
  | some s =>
    rw [Demux.do_logic_some d s hs] at h
    cases hload : load 64 s with
    | none => rw [hload] at h; cases h
    | some sel =>
      rw [hload, Option.some_bind] at h
      cases hp : (d.outputs.map Pin.fillFalse)[sel]? with
      | none => rw [hp] at h; cases h
      | some p =>
        rw [hp, Option.some_bind] at h
        cases hset : p.set d.input.get with
        | none => rw [hset] at h; cases h
        | some p' =>
          rw [hset, Option.some_bind, Option.some_inj] at h
          rw [← h]
          exact ⟨rfl, rfl⟩

theorem Splitter.do_logic_shape_s {sp sp' : Splitter} (h : sp.do_logic = some sp') :
    sp'.input = sp.input := by
  cases hin : sp.input.signal with
  | none =>
    rw [Splitter.do_logic_absent sp hin, Option.some_inj] at h
    rw [← h]
  | some input =>
    rw [Splitter.do_logic_some_s sp input hin] at h
    cases hgo : splitGoPins sp.mapping input
        (sp.outputs.map fun p => { p with signal := some [] }) with
    | none => rw [hgo] at h; cases h
    | some outs' =>
      rw [hgo, Option.some_bind, Option.some_inj] at h
      rw [← h]

/-- `do_logic` never changes the value stored at any input pin slot. -/
theorem Comp.do_logic_frame_in {c c' : Comp} (h : c.do_logic = some c') :
    ∀ j, c'.get_pin_value (PinIndex.Input j) = c.get_pin_value (PinIndex.Input j) := by
  intro j
  cases c with
  | gate g =>
    rcases Option.map_eq_some'.mp h with ⟨g', hg, hc⟩
    subst hc
    obtain ⟨_, _, hins⟩ := Gate.do_logic_shape hg
    show getPinAt g'.inputs j = getPinAt g.inputs j
    rw [hins]
  | mux m =>
    rcases Option.map_eq_some'.mp h with ⟨m', hm, hc⟩
    subst hc
    obtain ⟨hsel, hins⟩ := Mux.do_logic_shape_m hm
    cases j with
    | zero =>
      show some m'.selector.get = some m.selector.get
      rw [hsel]
    | succ j =>
      show getPinAt m'.inputs j = getPinAt m.inputs j
      rw [hins]
  | demux d =>
    rcases Option.map_eq_some'.mp h with ⟨d', hd, hc⟩
    subst hc
    obtain ⟨hsel, hin⟩ := Demux.do_logic_shape_d hd
    rcases j with _ | _ | j
    · show some d'.selector.get = some d.selector.get
      rw [hsel]
    · show some d'.input.get = some d.input.get
      rw [hin]
    · rfl
  | register r => cases h; rfl
  | inputC i => cases h; rfl
  | outputC o => cases h; rfl
  | splitter sp =>
    rcases Option.map_eq_some'.mp h with ⟨sp', hsp, hc⟩
    subst hc
    have hin := Splitter.do_logic_shape_s hsp
    cases j with
    | zero =>
      show some sp'.input.get = some sp.input.get
      rw [hin]
    | succ j => rfl
  | tunnel t => cases h; rfl

/-- Writing one input pin slot leaves every other input pin slot unchanged. -/
theorem Comp.set_input_frame_in {c c' : Comp} {j : Nat} {v : Option Signal}
    (h : c.set_pin_value (PinIndex.Input j) v = some c') :
    ∀ k, k ≠ j → c'.get_pin_value (PinIndex.Input k) =
      c.get_pin_value (PinIndex.Input k) := by
  intro k hk
  cases c with
  | gate g =>
    rcases Option.map_eq_some'.mp h with ⟨ps', hset, hc⟩
    subst hc
    show getPinAt ps' k = getPinAt g.inputs k
    exact setPinAt_get_ne hset (fun he => hk he.symm)
  | mux m =>
    cases j with
    | zero =>
      rcases Option.map_eq_some'.mp h with ⟨p, _, hc⟩
      subst hc
      cases k with
      | zero => exact absurd rfl hk
      | succ k => rfl
    | succ j =>
      rcases Option.map_eq_some'.mp h with ⟨ps', hset, hc⟩
      subst hc
      cases k with
      | zero => rfl
      | succ k =>
        show getPinAt ps' k = getPinAt m.inputs k
        exact setPinAt_get_ne hset (fun he => hk (by omega))
  | demux d =>
    rcases j with _ | _ | j
    · rcases Option.map_eq_some'.mp h with ⟨p, _, hc⟩
      subst hc
      rcases k with _ | _ | k
      · exact absurd rfl hk
      · rfl
      · rfl
    · rcases Option.map_eq_some'.mp h with ⟨p, _, hc⟩
      subst hc
      rcases k with _ | _ | k
      · rfl
      · exact absurd rfl hk
      · rfl
    · cases h
  | register r =>
    rcases j with _ | _ | j
    · rcases Option.map_eq_some'.mp h with ⟨p, _, hc⟩
      subst hc
      rcases k with _ | _ | k
      · exact absurd rfl hk
      · rfl
      · rfl
    · rcases Option.map_eq_some'.mp h with ⟨p, _, hc⟩
      subst hc
      rcases k with _ | _ | k
      · rfl
      · exact absurd rfl hk
      · rfl
    · cases h
  | inputC i => cases h
  | outputC o =>
    cases j with
    | zero =>
      rcases Option.map_eq_some'.mp h with ⟨p, _, hc⟩
      subst hc
      cases k with
      | zero => exact absurd rfl hk
      | succ k => rfl
    | succ j => cases h
  | splitter sp =>
    cases j with
    | zero =>
      rcases Option.map_eq_some'.mp h with ⟨p, _, hc⟩
      subst hc
      cases k with
      | zero => exact absurd rfl hk
      | succ k => rfl
    | succ j => cases h
  | tunnel t =>
    cases j with
    | zero =>
      rcases Option.map_eq_some'.mp h with ⟨p, _, hc⟩
      subst hc
      cases k with
      | zero => exact absurd rfl hk
      | succ k => rfl
    | succ j => cases h

/-- On a clocked component (a register), writing an input pin leaves every
output pin slot unchanged. -/
theorem Comp.set_input_frame_out {c c' : Comp} {j : Nat} {v : Option Signal}
    (h : c.set_pin_value (PinIndex.Input j) v = some c') (hclk : c.is_clocked = true) :
    ∀ k, c'.get_pin_value (PinIndex.Output k) =
      c.get_pin_value (PinIndex.Output k) := by
  intro k
  cases c with
  | register r =>
    rcases j with _ | _ | j
    · rcases Option.map_eq_some'.mp h with ⟨p, _, hc⟩
      subst hc
      cases k with
      | zero => rfl
      | succ k => rfl
    · rcases Option.map_eq_some'.mp h with ⟨p, _, hc⟩
      subst hc
      cases k with
      | zero => rfl
      | succ k => rfl
    · cases h
  | gate g => cases hclk
  | mux m => cases hclk
  | demux d => cases hclk
  | inputC i => cases hclk
  | outputC o => cases hclk
  | splitter sp => cases hclk
  | tunnel t => cases hclk

/-- Rewriting a pin slot with the value it already holds is the identity. -/
theorem Comp.set_pin_value_stable {c : Comp} {px : PinIndex} {v : Option Signal}
    (h : c.get_pin_value px = some v) : c.set_pin_value px v = some c := by
  cases c <;> rcases px with i | i
  case gate.Input g =>
    obtain ⟨p, hp, hsig⟩ := getPinAt_eq_some h
    show (setPinAt g.inputs i v).map _ = _
    rw [← hsig, setPinAt_self hp]
    rfl
  case gate.Output g =>
    rcases i with _ | i
    · cases h
      show (g.output.set g.output.get).map _ = _
      rw [show g.output.get = g.output.signal from rfl, Pin.set_self]
      rfl
    · cases h
  case mux.Input m =>
    rcases i with _ | i
    · cases h
      show (m.selector.set m.selector.get).map _ = _
      rw [show m.selector.get = m.selector.signal from rfl, Pin.set_self]
      rfl
    · obtain ⟨p, hp, hsig⟩ := getPinAt_eq_some h
      show (setPinAt m.inputs i v).map _ = _
      rw [← hsig, setPinAt_self hp]
      rfl
  case mux.Output m =>
    rcases i with _ | i
    · cases h
      show (m.output.set m.output.get).map _ = _
      rw [show m.output.get = m.output.signal from rfl, Pin.set_self]
      rfl
    · cases h
  case demux.Input d =>
    rcases i with _ | _ | i
    · cases h
      show (d.selector.set d.selector.get).map _ = _
      rw [show d.selector.get = d.selector.signal from rfl, Pin.set_self]
      rfl
    · cases h
      show (d.input.set d.input.get).map _ = _
      rw [show d.input.get = d.input.signal from rfl, Pin.set_self]
      rfl
    · cases h
  case demux.Output d =>
    obtain ⟨p, hp, hsig⟩ := getPinAt_eq_some h
    show (setPinAt d.outputs i v).map _ = _
    rw [← hsig, setPinAt_self hp]
    rfl
  case register.Input r =>
    rcases i with _ | _ | i
    · cases h
      show (r.write_enable.set r.write_enable.get).map _ = _
      rw [show r.write_enable.get = r.write_enable.signal from rfl, Pin.set_self]
      rfl
    · cases h
      show (r.input.set r.input.get).map _ = _
      rw [show r.input.get = r.input.signal from rfl, Pin.set_self]
      rfl
    · cases h
  case register.Output r =>
    rcases i with _ | i
    · cases h
      show (r.output.set r.output.get).map _ = _
      rw [show r.output.get = r.output.signal from rfl, Pin.set_self]
      rfl
    · cases h
  case inputC.Input ic => cases h
  case inputC.Output ic =>
    rcases i with _ | i
    · cases h
      show (ic.value.set ic.value.get).map _ = _
      rw [show ic.value.get = ic.value.signal from rfl, Pin.set_self]
      rfl
    · cases h
  case outputC.Input oc =>
    rcases i with _ | i
    · cases h
      show (oc.value.set oc.value.get).map _ = _
      rw [show oc.value.get = oc.value.signal from rfl, Pin.set_self]
      rfl
    · cases h
  case outputC.Output oc => cases h
  case splitter.Input sp =>
    rcases i with _ | i
    · cases h
      show (sp.input.set sp.input.get).map _ = _
      rw [show sp.input.get = sp.input.signal from rfl, Pin.set_self]
      rfl
    · cases h
  case splitter.Output sp =>
    obtain ⟨p, hp, hsig⟩ := getPinAt_eq_some h
    show (setPinAt sp.outputs i v).map _ = _
    rw [← hsig, setPinAt_self hp]
    rfl
  case tunnel.Input t =>
    rcases i with _ | i
    · cases h
      show (t.value.set t.value.get).map _ = _
      rw [show t.value.get = t.value.signal from rfl, Pin.set_self]
      rfl
    · cases h
  case tunnel.Output t =>
    rcases i with _ | i
    · cases h
      show (t.value.set t.value.get).map _ = _
      rw [show t.value.get = t.value.signal from rfl, Pin.set_self]
      rfl
    · cases h

theorem Wire.set_signal_stable (w : Wire) : w.set_signal w.value = some w := by
  cases w with
  | mk sc sp ec ep db v iv =>
    cases v with
    | none => rfl
    | some old => simp [Wire.set_signal]

theorem replace_map_id {cx : Nat} {c : Comp} :
    ∀ {l : List (Nat × Comp)}, (∀ p ∈ l, p.1 ≠ cx) →
      l.map (fun p => if p.1 == cx then (p.1, c) else p) = l := by
  intro l
  induction l with
  | nil => intro _; rfl
  | cons a t ih =>
    intro hl
    rw [List.map_cons]
    have ha : ¬(a.1 == cx) = true := by
      simpa using hl a (List.mem_cons_self a t)
    rw [if_neg ha, ih (fun p hp => hl p (List.mem_cons_of_mem a hp))]

theorem replace_map_self_of_nodup {cx : Nat} {c : Comp} :
    ∀ {l : List (Nat × Comp)} {pr : Nat × Comp},
      (l.map Prod.fst).Nodup →
      l.find? (fun p => p.1 == cx) = some pr → pr.2 = c →
      l.map (fun p => if p.1 == cx then (p.1, c) else p) = l := by
  intro l
  induction l with
  | nil => intro pr _ hfind _; cases hfind
  | cons a t ih =>
    intro pr hnd hfind hsnd
    rw [List.map_cons] at hnd
    rw [List.map_cons]
    by_cases ha : (a.1 == cx) = true
    · have ha1 : a.1 = cx := by simpa using ha
      rw [find?_cons_true t ha, Option.some_inj] at hfind
      rw [if_pos ha]
      have hac : (a.1, c) = a := by
        cases a with
        | mk a1 a2 =>
          rw [← hfind] at hsnd
          have h2 : a2 = c := hsnd
          rw [h2]
      rw [hac]
      have hnotin : ∀ p ∈ t, p.1 ≠ cx := by
        intro p hp hpcx
        have hmem : a.1 ∈ t.map Prod.fst := by
          rw [ha1, ← hpcx]
          exact List.mem_map.mpr ⟨p, hp, rfl⟩
        exact (List.nodup_cons.mp hnd).1 hmem
      rw [replace_map_id hnotin]
    · rw [if_neg ha]
      rw [find?_cons_false t ha] at hfind
      rw [ih (List.nodup_cons.mp hnd).2 hfind hsnd]

/-- Putting back the component a node already holds leaves the graph
unchanged (node ids are distinct). -/
theorem setComp_stable {g : CircuitGraph} (hnd : g.ids.Nodup) {cx : Nat} {c : Comp}
    (h : g.getComp cx = some c) : g.setComp cx c = g := by
  unfold CircuitGraph.getComp at h
  rcases Option.map_eq_some'.mp h with ⟨pr, hfind, hsnd⟩
  unfold CircuitGraph.setComp
  unfold CircuitGraph.ids at hnd
  rw [replace_map_self_of_nodup hnd hfind hsnd]

theorem foldlM_option_const {α β : Type} (f : β → α → Option β) (s : β) :
    ∀ (l : List α), (∀ a ∈ l, f s a = some s) → l.foldlM f s = some s := by
  intro l
  induction l with
  | nil => intro _; rfl
  | cons a t ih =>
    intro hl
    rw [List.foldlM_cons, hl a (List.mem_cons_self a t)]
    show t.foldlM f s = some s
    exact ih (fun b hb => hl b (List.mem_cons_of_mem a hb))

theorem getComp_none_of_not_mem {g : CircuitGraph} {cx : Nat} (h : cx ∉ g.ids) :
    g.getComp cx = none := by
  cases hc : g.getComp cx with
  | none => rfl
  | some c =>
    exfalso
    apply h
    exact List.mem_map.mpr ⟨(cx, c), getComp_eq_some hc, rfl⟩

theorem find?_congr_pred {α : Type} {p q : α → Bool} (hpq : ∀ a, p a = q a) :
    ∀ (l : List α), l.find? p = l.find? q := by
  intro l
  induction l with
  | nil => rfl
  | cons a t ih =>
    by_cases ha : p a = true
    · rw [List.find?_cons_of_pos t ha, List.find?_cons_of_pos t (by rw [← hpq]; exact ha)]
    · rw [List.find?_cons_of_neg t ha, List.find?_cons_of_neg t (by rw [← hpq]; exact ha)]
      exact ih

theorem edgeAt_of_shape {es es' : List Wire}
    (h : es'.map edgeShape = es.map edgeShape) {i : Nat} {w : Wire}
    (hw : es'[i]? = some w) :
    ∃ w2, es[i]? = some w2 ∧ edgeShape w = edgeShape w2 := by
  have hs := shapeAt_congr h i
  rw [hw, Option.map_some'] at hs
  rcases Option.map_eq_some'.mp hs.symm with ⟨w2, hw2, hsh⟩
  exact ⟨w2, hw2, hsh.symm⟩

/-- The after-state of one transmit step along wire slot `i`: if the widths
agree, the wire cache and the destination pin both hold the source output
value; on a mismatch both are absent. -/
def TransmitDone (h : CircuitGraph) (i : Nat) : Prop :=
  ∀ w, h.edges[i]? = some w →
    ∃ src dst dw, h.getComp w.start_comp = some src ∧ h.getComp w.end_comp = some dst ∧
      dst.get_pin_width (PinIndex.Input w.end_pin) = some dw ∧
      ((w.data_bits = dw ∧ ∃ sig, src.get_pin_value (PinIndex.Output w.start_pin) = some sig ∧
          w.value = sig ∧ dst.get_pin_value (PinIndex.Input w.end_pin) = some sig) ∨
        (¬w.data_bits = dw ∧ w.value = none ∧
          dst.get_pin_value (PinIndex.Input w.end_pin) = some none))

theorem transmitAt_spec {g : CircuitGraph} {cx i : Nat} {w : Wire}
    (hWF : GraphWF g) (hw : g.edges[i]? = some w) (hstart : w.start_comp = cx) :
    ∃ g' src dst dst' dw w', transmitAt g cx i = some g' ∧
      GraphWF g' ∧ g'.ids = g.ids ∧
      g'.edges.map edgeShape = g.edges.map edgeShape ∧
      (∀ cy c, g.getComp cy = some c → ∃ c', g'.getComp cy = some c' ∧
        (∀ qx, c'.get_pin_width qx = c.get_pin_width qx) ∧
        c'.is_clocked = c.is_clocked) ∧
      (∀ j, j ≠ i → g'.edges[j]? = g.edges[j]?) ∧
      (∀ cy, cy ≠ w.end_comp → g'.getComp cy = g.getComp cy) ∧
      g.getComp cx = some src ∧
      g.getComp w.end_comp = some dst ∧ g'.getComp w.end_comp = some dst' ∧
      dst.get_pin_width (PinIndex.Input w.end_pin) = some dw ∧
      (∀ k, k ≠ w.end_pin → dst'.get_pin_value (PinIndex.Input k) =
        dst.get_pin_value (PinIndex.Input k)) ∧
      (dst.is_clocked = true → ∀ k, dst'.get_pin_value (PinIndex.Output k) =
        dst.get_pin_value (PinIndex.Output k)) ∧
      g'.edges[i]? = some w' ∧ edgeShape w' = edgeShape w ∧
      ((w.data_bits = dw ∧ ∃ sig, src.get_pin_value (PinIndex.Output w.start_pin) = some sig ∧
          w'.value = sig ∧ dst'.get_pin_value (PinIndex.Input w.end_pin) = some sig) ∨
        (¬w.data_bits = dw ∧ w'.value = none ∧
          dst'.get_pin_value (PinIndex.Input w.end_pin) = some none)) := by
  obtain ⟨hnd, hnOK, heOK⟩ := hWF
  obtain ⟨⟨src, hsrc, hsw⟩, ⟨dst, dw, hdst, hdw⟩, hcache⟩ := heOK w (List.getElem?_mem hw)
  have hsrcWOK : Comp.WidthOK src := hnOK _ (getComp_eq_some hsrc)
  have hdstWOK : Comp.WidthOK dst := hnOK _ (getComp_eq_some hdst)
  have hilen : i < g.edges.length := getElem?_lt hw
  subst hstart
  unfold transmitAt
  simp only [Option.bind_eq_bind]
  rw [hw, Option.some_bind, hsrc, Option.some_bind, hdst, Option.some_bind, hsw,
    Option.some_bind, hdw, Option.some_bind]
  by_cases heq : w.data_bits = dw
  · rw [if_pos heq]
    obtain ⟨sig, hsig⟩ := Comp.get_pin_value_isSome hsw
    have hsiglen : ∀ s, sig = some s → s.length = dw := fun s hs => by
      rw [← heq]
      exact Comp.get_pin_value_length hsrcWOK hsw (by rw [hsig, hs])
    obtain ⟨dst', hdset, hdWOK, hread⟩ := Comp.set_pin_value_ok hdstWOK hdw hsiglen
    have hwset : ∃ w', w.set_signal sig = some w' ∧ edgeShape w' = edgeShape w ∧
        w'.value = sig ∧ (∀ s, w'.value = some s → s.length = w'.data_bits) := by
      cases sig with
      | none => exact ⟨{ w with value := none }, rfl, rfl, rfl, fun s hs => by cases hs⟩
      | some sg =>
        refine ⟨{ w with value := some sg }, ?_, rfl, rfl, ?_⟩
        · exact Wire.set_signal_ok w (some sg) (fun old new hold hnew => by
            cases hnew
            rw [hcache old hold, heq, hsiglen sg rfl])
        · intro s hs
          cases hs
          show sg.length = w.data_bits
          rw [heq]
          exact hsiglen sg rfl
    obtain ⟨w', hwset', hsh, hval', hc'⟩ := hwset
    rw [hsig, Option.some_bind, hdset, Option.some_bind, hwset', Option.some_bind]
    obtain ⟨hWF', hids, hshape, hmaps⟩ :=
      setComp_set_props ⟨hnd, hnOK, heOK⟩ hw hdst hdset hdWOK hsh hc' rfl
    refine ⟨_, src, dst, dst', dw, w', rfl, hWF', hids, hshape, hmaps, ?_, ?_, rfl,
      rfl, ?_, hdw, Comp.set_input_frame_in hdset,
      Comp.set_input_frame_out hdset, ?_, hsh, ?_⟩
    · intro j hj
      exact List.getElem?_set_ne (fun he => hj he.symm)
    · intro cy hcy
      exact getComp_setComp_ne (fun he => hcy he.symm)
    · exact getComp_setComp_self hdst
    · exact List.getElem?_set_self hilen
    · exact Or.inl ⟨heq, sig, hsig, hval', hread⟩
  · rw [if_neg heq]
    have hwset : w.set_signal none = some { w with value := none } := rfl
    obtain ⟨dst', hdset, hdWOK, hread⟩ :=
      Comp.set_pin_value_ok (v := none) hdstWOK hdw (fun s hs => by cases hs)
    rw [hwset, Option.some_bind, hdset, Option.some_bind]
    have hsh0 : edgeShape ({ w with value := none } : Wire) = edgeShape w := rfl
    have hcache0 : ∀ s, ({ w with value := none } : Wire).value = some s →
        s.length = ({ w with value := none } : Wire).data_bits := fun s hs => by cases hs
    obtain ⟨hWF', hids, hshape, hmaps⟩ :=
      setComp_set_props ⟨hnd, hnOK, heOK⟩ hw hdst hdset hdWOK hsh0 hcache0 rfl
    refine ⟨_, src, dst, dst', dw, { w with value := none }, rfl, hWF', hids, hshape,
      hmaps, ?_, ?_, rfl, rfl, ?_, hdw, Comp.set_input_frame_in hdset,
      Comp.set_input_frame_out hdset, ?_, hsh0, ?_⟩
    · intro j hj
      exact List.getElem?_set_ne (fun he => hj he.symm)
    · intro cy hcy
      exact getComp_setComp_ne (fun he => hcy he.symm)
    · exact getComp_setComp_self hdst
    · exact List.getElem?_set_self hilen
    · exact Or.inr ⟨heq, rfl, hread⟩

/-- A finished transmit slot stays finished across an unrelated transmit
step, as long as the newly written component is clocked whenever the old
slot reads it, and the newly written pin differs from the old slot's pin. -/
theorem TransmitDone_step {h g' : CircuitGraph} {i j : Nat} {w : Wire} {dst dst' : Comp}
    (hframe_e : ∀ k, k ≠ i → g'.edges[k]? = h.edges[k]?)
    (hframe_c : ∀ cy, cy ≠ w.end_comp → g'.getComp cy = h.getComp cy)
    (hdsth : h.getComp w.end_comp = some dst) (hdst' : g'.getComp w.end_comp = some dst')
    (hfin : ∀ k, k ≠ w.end_pin → dst'.get_pin_value (PinIndex.Input k) =
      dst.get_pin_value (PinIndex.Input k))
    (hfout : dst.is_clocked = true → ∀ k, dst'.get_pin_value (PinIndex.Output k) =
      dst.get_pin_value (PinIndex.Output k))
    (hwidths : ∀ qx, dst'.get_pin_width qx = dst.get_pin_width qx)
    (hij : j ≠ i)
    (hTD : TransmitDone h j)
    (hside : ∀ wj, h.edges[j]? = some wj →
      (wj.start_comp = w.end_comp → dst.is_clocked = true) ∧
      (wj.end_comp = w.end_comp → wj.end_pin ≠ w.end_pin)) :
    TransmitDone g' j := by
  intro wj hwj
  rw [hframe_e j hij] at hwj
  obtain ⟨srcj, dstj, dwj, hsrcj, hdstj, hdwj, hbr⟩ := hTD wj hwj
  obtain ⟨hside1, hside2⟩ := hside wj hwj
  have hsrc' : ∃ srcj', g'.getComp wj.start_comp = some srcj' ∧
      (∀ k, srcj'.get_pin_value (PinIndex.Output k) =
        srcj.get_pin_value (PinIndex.Output k)) := by
    by_cases hcs : wj.start_comp = w.end_comp
    · rw [hcs] at hsrcj
      rw [hdsth] at hsrcj
      cases hsrcj
      refine ⟨dst', ?_, hfout (hside1 hcs)⟩
      rw [hcs]
      exact hdst'
    · refine ⟨srcj, ?_, fun k => rfl⟩
      rw [hframe_c _ hcs]
      exact hsrcj
  have hdstside : ∃ dstj', g'.getComp wj.end_comp = some dstj' ∧
      dstj'.get_pin_value (PinIndex.Input wj.end_pin) =
        dstj.get_pin_value (PinIndex.Input wj.end_pin) ∧
      (∀ qx, dstj'.get_pin_width qx = dstj.get_pin_width qx) := by
    by_cases hcd : wj.end_comp = w.end_comp
    · rw [hcd] at hdstj
      rw [hdsth] at hdstj
      cases hdstj
      refine ⟨dst', ?_, hfin _ (hside2 hcd), hwidths⟩
      rw [hcd]
      exact hdst'
    · refine ⟨dstj, ?_, rfl, fun qx => rfl⟩
      rw [hframe_c _ hcd]
      exact hdstj
  obtain ⟨srcj', hsj', hsvals⟩ := hsrc'
  obtain ⟨dstj', hdj', hdval, hdw'⟩ := hdstside
  refine ⟨srcj', dstj', dwj, hsj', hdj', by rw [hdw']; exact hdwj, ?_⟩
  rcases hbr with ⟨heq, sig, hsv, hwv, hdv⟩ | ⟨hne, hwv, hdv⟩
  · refine Or.inl ⟨heq, sig, ?_, hwv, ?_⟩
    · rw [hsvals]
      exact hsv
    · rw [hdval]
      exact hdv
  · refine Or.inr ⟨hne, hwv, ?_⟩
    rw [hdval]
    exact hdv

/-- When the scheduler is at `cx` with `done` already emitted, no filtered
edge out of `cx` can point back into `done` or at `cx` itself. -/
theorem no_edge_into_prefix {g2 : CircuitGraph} {ord done todo : List Nat} {cx : Nat}
    (hord : ord = done ++ cx :: todo)
    (hsort : ∀ l1 v l2, ord = l1 ++ v :: l2 → ∀ w ∈ filteredEdges g2,
      w.end_comp = v → w.start_comp ∉ v :: l2)
    {w2 : Wire} (hw2 : w2 ∈ g2.edges) (hstart : w2.start_comp = cx)
    (hnclk : g2.isClockedAt w2.end_comp = false) :
    w2.end_comp ∉ done ∧ w2.end_comp ≠ cx := by
  have hmemE : w2 ∈ filteredEdges g2 := by
    unfold filteredEdges
    rw [List.mem_filter]
    refine ⟨hw2, ?_⟩
    rw [hnclk]
    rfl
  constructor
  · intro hin
    obtain ⟨d1, d2, hsplit⟩ := List.append_of_mem hin
    have hsplit2 : ord = d1 ++ w2.end_comp :: (d2 ++ cx :: todo) := by
      rw [hord, hsplit]
      simp [List.append_assoc]
    have hnot := hsort _ _ _ hsplit2 w2 hmemE rfl
    apply hnot
    rw [hstart]
    simp
  · intro heqcx
    have hsplit2 : ord = done ++ w2.end_comp :: todo := by
      rw [hord, heqcx]
    have hnot := hsort _ _ _ hsplit2 w2 hmemE rfl
    apply hnot
    rw [hstart, ← heqcx]
    exact List.mem_cons_self _ _

/-- Clockedness of a node in the working graph matches the original graph. -/
theorem isClockedAt_of_maps {g2 h : CircuitGraph} {cy : Nat}
    (hmaps : ∀ cz c, g2.getComp cz = some c → ∃ c', h.getComp cz = some c' ∧
      (∀ qx, c'.get_pin_width qx = c.get_pin_width qx) ∧ c'.is_clocked = c.is_clocked)
    (hids : h.ids = g2.ids) :
    h.isClockedAt cy = g2.isClockedAt cy := by
  unfold CircuitGraph.isClockedAt
  cases hg2 : g2.getComp cy with
  | none =>
    have hnm : cy ∉ g2.ids := by
      intro hm
      obtain ⟨c, hc⟩ := getComp_isSome_of_mem hm
      rw [hc] at hg2
      cases hg2
    have hh : h.getComp cy = none := by
      apply getComp_none_of_not_mem
      rw [hids]
      exact hnm
    rw [hh]
  | some c =>
    obtain ⟨c', hc', _, hclk⟩ := hmaps cy c hg2
    rw [hc']
    show c'.is_clocked = c.is_clocked
    exact hclk

/-- Invariant carried through the transmit loop of one `processNode` call:
transmitting `cx`'s outgoing wires preserves the graph invariants, keeps every
already-visited component a `do_logic` fixpoint, and keeps every finished
transmit slot finished. -/
theorem transmit_fold_inv {g2 : CircuitGraph} {ord done todo : List Nat} {cx : Nat}
    (hord : ord = done ++ cx :: todo)
    (hndord : ord.Nodup)
    (hsort : ∀ l1 v l2, ord = l1 ++ v :: l2 → ∀ w ∈ filteredEdges g2,
      w.end_comp = v → w.start_comp ∉ v :: l2)
    (hUF : ∀ (i j : Nat) (wi wj : Wire), g2.edges[i]? = some wi →
      g2.edges[j]? = some wj →
      wi.end_comp = wj.end_comp → wi.end_pin = wj.end_pin → i = j) :
    ∀ (idxs : List Nat) (done2 : List Nat) (h : CircuitGraph),
      idxs.Nodup →
      (∀ i ∈ idxs, ∃ w2, g2.edges[i]? = some w2 ∧ w2.start_comp = cx) →
      (∀ i ∈ done2, ∃ w2, g2.edges[i]? = some w2 ∧ w2.start_comp = cx) →
      (∀ i ∈ done2, i ∉ idxs) →
      GraphWF h → h.ids = g2.ids → h.edges.map edgeShape = g2.edges.map edgeShape →
      (∀ cy c, g2.getComp cy = some c → ∃ c', h.getComp cy = some c' ∧
        (∀ qx, c'.get_pin_width qx = c.get_pin_width qx) ∧
        c'.is_clocked = c.is_clocked) →
      (∀ cz, (cz ∈ done ∨ cz = cx) → ∀ c, h.getComp cz = some c → c.do_logic = some c) →
      (∀ j w, h.edges[j]? = some w → w.start_comp ∈ done → TransmitDone h j) →
      (∀ j ∈ done2, TransmitDone h j) →
      ∃ h', idxs.foldlM (fun hh i => transmitAt hh cx i) h = some h' ∧
        GraphWF h' ∧ h'.ids = g2.ids ∧ h'.edges.map edgeShape = g2.edges.map edgeShape ∧
        (∀ cy c, g2.getComp cy = some c → ∃ c', h'.getComp cy = some c' ∧
          (∀ qx, c'.get_pin_width qx = c.get_pin_width qx) ∧
          c'.is_clocked = c.is_clocked) ∧
        (∀ cz, (cz ∈ done ∨ cz = cx) → ∀ c, h'.getComp cz = some c → c.do_logic = some c) ∧
        (∀ j w, h'.edges[j]? = some w → w.start_comp ∈ done → TransmitDone h' j) ∧
        (∀ j, j ∈ done2 ∨ j ∈ idxs → TransmitDone h' j) := by
  have hcxnotdone : cx ∉ done := by
    rw [hord] at hndord
    have hdisj := (List.nodup_append.mp hndord).2.2
    intro hin
    exact hdisj hin (List.mem_cons_self cx todo)
  intro idxs
  induction idxs with
  | nil =>
    intro done2 h _ _ _ _ hWF hids hshape hmaps hfix hde hdi
    refine ⟨h, rfl, hWF, hids, hshape, hmaps, hfix, hde, ?_⟩
    intro j hj
    rcases hj with hj | hj
    · exact hdi j hj
    · exact absurd hj (List.not_mem_nil j)
  | cons i rest ih =>
    intro done2 h hnd hidx hdone2 hdisj hWF hids hshape hmaps hfix hde hdi
    obtain ⟨w2, hw2, hw2s⟩ := hidx i (List.mem_cons_self i rest)
    have hsh := shapeAt_congr hshape i
    rw [hw2, Option.map_some'] at hsh
    rcases Option.map_eq_some'.mp hsh with ⟨w, hwh, hwsh⟩
    obtain ⟨hws, hwsp, hwe, hwep, hwdb, _⟩ := edgeShape_fields hwsh
    have hwstart : w.start_comp = cx := by rw [hws, hw2s]
    obtain ⟨g', src, dst, dst', dw, w', hrun, hWF', hids', hshape', hmaps', hfe, hfc,
      hsrc, hdsth, hdst', hdw, hfin, hfout, hwi', hwsh', hbr⟩ :=
      transmitAt_spec hWF hwh hwstart
    obtain ⟨hws', hwsp', hwe', hwep', hwdb', _⟩ := edgeShape_fields hwsh'
    -- clockedness of the written target, seen from g2
    have hnoteq : dst.is_clocked = false → (w.end_comp ∉ done ∧ w.end_comp ≠ cx) := by
      intro hnclk
      have hclkg2 : g2.isClockedAt w2.end_comp = false := by
        unfold CircuitGraph.isClockedAt
        cases hg2 : g2.getComp w2.end_comp with
        | none => rfl
        | some c =>
          obtain ⟨c', hc', _, hclk⟩ := hmaps _ _ hg2
          rw [← hwe, hdsth] at hc'
          cases hc'
          show c.is_clocked = false
          rw [← hclk]
          exact hnclk
      have hres := no_edge_into_prefix hord hsort (List.getElem?_mem hw2) hw2s hclkg2
      rw [hwe]
      exact hres
    have hclk_done : w.end_comp ∈ done ∨ w.end_comp = cx → dst.is_clocked = true := by
      intro hin
      cases hc : dst.is_clocked with
      | true => rfl
      | false =>
        obtain ⟨h1, h2⟩ := hnoteq hc
        rcases hin with hin | hin
        · exact absurd hin h1
        · exact absurd hin h2
    have hdstclk' : dst'.is_clocked = dst.is_clocked := by
      obtain ⟨c'', hc'', _, hclk''⟩ := hmaps' _ _ hdsth
      rw [hdst'] at hc''
      cases hc''
      exact hclk''
    have hdstw' : ∀ qx, dst'.get_pin_width qx = dst.get_pin_width qx := by
      obtain ⟨c'', hc'', hwid'', _⟩ := hmaps' _ _ hdsth
      rw [hdst'] at hc''
      cases hc''
      exact hwid''
    -- the side conditions used by every TransmitDone transfer
    have hsides : ∀ j, j ≠ i → (∀ wjs, g2.edges[j]? = some wjs →
        wjs.start_comp ∈ done ∨ wjs.start_comp = cx) →
        ∀ wj, h.edges[j]? = some wj →
          (wj.start_comp = w.end_comp → dst.is_clocked = true) ∧
          (wj.end_comp = w.end_comp → wj.end_pin ≠ w.end_pin) := by
      intro j hji hjstat wj hwj
      obtain ⟨wj2, hwj2, hwjsh⟩ := edgeAt_of_shape hshape hwj
      obtain ⟨hjs, hjsp, hje, hjep, hjdb, _⟩ := edgeShape_fields hwjsh
      constructor
      · intro hse
        apply hclk_done
        have := hjstat wj2 hwj2
        rw [← hjs, hse] at this
        exact this
      · intro hee hpe
        apply hji
        apply hUF j i wj2 w2 hwj2 hw2
        · rw [← hje, hee, hwe]
        · rw [← hjep, hpe, hwep]
    -- invariant pieces for g'
    have hids'' : g'.ids = g2.ids := by rw [hids', hids]
    have hshape'' : g'.edges.map edgeShape = g2.edges.map edgeShape := by
      rw [hshape', hshape]
    have hmaps'' : ∀ cy c, g2.getComp cy = some c → ∃ c', g'.getComp cy = some c' ∧
        (∀ qx, c'.get_pin_width qx = c.get_pin_width qx) ∧
        c'.is_clocked = c.is_clocked := by
      intro cy c h0
      obtain ⟨c1, h1, h2, h3⟩ := hmaps cy c h0
      obtain ⟨c2, h4, h5, h6⟩ := hmaps' cy c1 h1
      exact ⟨c2, h4, fun qx => by rw [h5, h2], by rw [h6, h3]⟩
    have hfix' : ∀ cz, (cz ∈ done ∨ cz = cx) → ∀ c, g'.getComp cz = some c →
        c.do_logic = some c := by
      intro cz hcz c hc
      by_cases hcze : cz = w.end_comp
      · subst hcze
        rw [hdst'] at hc
        cases hc
        apply Comp.do_logic_of_clocked
        rw [hdstclk']
        exact hclk_done (by
          rcases hcz with hcz | hcz
          · exact Or.inl hcz
          · exact Or.inr hcz)
      · rw [hfc _ hcze] at hc
        exact hfix cz hcz c hc
    have hde' : ∀ j w0, g'.edges[j]? = some w0 → w0.start_comp ∈ done →
        TransmitDone g' j := by
      intro j wj hwj hjs
      by_cases hji : j = i
      · subst hji
        rw [hwi'] at hwj
        cases hwj
        exfalso
        apply hcxnotdone
        rw [hws', hwstart] at hjs
        exact hjs
      · have hwjh : h.edges[j]? = some wj := by
          rw [← hfe j hji]
          exact hwj
        have hjstat : ∀ wjs, g2.edges[j]? = some wjs →
            wjs.start_comp ∈ done ∨ wjs.start_comp = cx := by
          intro wjs hwjs
          obtain ⟨wj2, hwj2, hwjsh⟩ := edgeAt_of_shape hshape hwjh
          rw [hwj2] at hwjs
          cases hwjs
          left
          rw [← (edgeShape_fields hwjsh).1]
          exact hjs
        exact TransmitDone_step hfe hfc hdsth hdst' hfin hfout hdstw' hji
          (hde j wj hwjh hjs) (hsides j hji hjstat)
    have hdi' : ∀ j ∈ done2, TransmitDone g' j := by
      intro j hj
      have hji : j ≠ i := fun he => hdisj j hj (he ▸ List.mem_cons_self i rest)
      have hjstat : ∀ wjs, g2.edges[j]? = some wjs →
          wjs.start_comp ∈ done ∨ wjs.start_comp = cx := by
        intro wjs hwjs
        obtain ⟨wj2, hwj2, hwj2s⟩ := hdone2 j hj
        rw [hwj2] at hwjs
        cases hwjs
        right
        exact hwj2s
      refine TransmitDone_step hfe hfc hdsth hdst' hfin hfout hdstw' hji (hdi j hj) ?_
      exact hsides j hji hjstat
    -- the freshly transmitted slot
    have hnewTD : TransmitDone g' i := by
      intro ww hww
      rw [hwi'] at hww
      cases hww
      have hsrcout : ∃ srcc, g'.getComp w'.start_comp = some srcc ∧
          ∀ k, srcc.get_pin_value (PinIndex.Output k) =
            src.get_pin_value (PinIndex.Output k) := by
        by_cases hcse : cx = w.end_comp
        · have hsd : src = dst := by
            rw [hcse] at hsrc
            rw [hdsth] at hsrc
            cases hsrc
            rfl
          refine ⟨dst', ?_, ?_⟩
          · rw [hws', hwstart, hcse]
            exact hdst'
          · intro k
            rw [hsd]
            exact hfout (hclk_done (Or.inr hcse.symm)) k
        · refine ⟨src, ?_, fun k => rfl⟩
          rw [hws', hwstart, hfc cx hcse]
          exact hsrc
      obtain ⟨srcc, hsrcc, hsrcvals⟩ := hsrcout
      refine ⟨srcc, dst', dw, hsrcc, ?_, ?_, ?_⟩
      · rw [hwe']
        exact hdst'
      · rw [hwep', hdstw']
        exact hdw
      · rcases hbr with ⟨heq, sig, hsv, hwv, hdv⟩ | ⟨hne, hwv, hdv⟩
        · refine Or.inl ⟨by rw [hwdb']; exact heq, sig, ?_, hwv, ?_⟩
          · rw [hwsp', hsrcvals]
            exact hsv
          · rw [hwep']
            exact hdv
        · refine Or.inr ⟨by rw [hwdb']; exact hne, hwv, ?_⟩
          rw [hwep']
          exact hdv
    -- recurse
    obtain ⟨h', hfold, hWFf, hidsf, hshapef, hmapsf, hfixf, hdef, hdif⟩ :=
      ih (done2 ++ [i]) g' (List.nodup_cons.mp hnd).2
        (fun a ha => hidx a (List.mem_cons_of_mem i ha))
        (fun a ha => by
          rcases List.mem_append.mp ha with ha | ha
          · exact hdone2 a ha
          · rw [List.mem_singleton.mp ha]
            exact ⟨w2, hw2, hw2s⟩)
        (fun a ha har => by
          rcases List.mem_append.mp ha with ha | ha
          · exact hdisj a ha (List.mem_cons_of_mem i har)
          · rw [List.mem_singleton.mp ha] at har
            exact (List.nodup_cons.mp hnd).1 har)
        hWF' hids'' hshape'' hmaps'' hfix' hde'
        (fun j hj => by
          rcases List.mem_append.mp hj with hj | hj
          · exact hdi' j hj
          · rw [List.mem_singleton.mp hj]
            exact hnewTD)
    refine ⟨h', ?_, hWFf, hidsf, hshapef, hmapsf, hfixf, hdef, ?_⟩
    · rw [List.foldlM_cons, hrun]
      show rest.foldlM _ g' = some h'
      exact hfold
    · intro j hj
      apply hdif
      rcases hj with hj | hj
      · exact Or.inl (List.mem_append.mpr (Or.inl hj))
      · rcases List.mem_cons.mp hj with hj | hj
        · exact Or.inl (List.mem_append.mpr (Or.inr (by rw [hj]; exact List.mem_singleton.mpr rfl)))
        · exact Or.inr hj

/-- Replacing a component with one holding the same input-pin values and the
same widths keeps finished transmit slots finished, as long as the slot's
source is a different node. -/
theorem TransmitDone_setComp {h : CircuitGraph} {cx : Nat} {c c' : Comp} {j : Nat}
    (hc : h.getComp cx = some c)
    (hin : ∀ k, c'.get_pin_value (PinIndex.Input k) = c.get_pin_value (PinIndex.Input k))
    (hwid : ∀ qx, c'.get_pin_width qx = c.get_pin_width qx)
    (hTD : TransmitDone h j)
    (hstart : ∀ wj, h.edges[j]? = some wj → wj.start_comp ≠ cx) :
    TransmitDone (h.setComp cx c') j := by
  intro wj hwj
  have hwjh : h.edges[j]? = some wj := hwj
  obtain ⟨srcj, dstj, dwj, hsrcj, hdstj, hdwj, hbr⟩ := hTD wj hwjh
  have hsrc' : (h.setComp cx c').getComp wj.start_comp = some srcj := by
    rw [getComp_setComp_ne (fun he => hstart wj hwjh he.symm)]
    exact hsrcj
  by_cases hcd : wj.end_comp = cx
  · rw [hcd] at hdstj
    rw [hc] at hdstj
    cases hdstj
    refine ⟨srcj, c', dwj, hsrc', ?_, ?_, ?_⟩
    · rw [hcd]
      exact getComp_setComp_self hc
    · rw [hwid]
      exact hdwj
    · rcases hbr with ⟨heq, sig, hsv, hwv, hdv⟩ | ⟨hne, hwv, hdv⟩
      · refine Or.inl ⟨heq, sig, hsv, hwv, ?_⟩
        rw [hin]
        exact hdv
      · refine Or.inr ⟨hne, hwv, ?_⟩
        rw [hin]
        exact hdv
  · refine ⟨srcj, dstj, dwj, hsrc', ?_, hdwj, hbr⟩
    rw [getComp_setComp_ne (fun he => hcd he.symm)]
    exact hdstj

/-- The outer pass invariant: folding `processNode` over the remaining order
preserves the graph invariants and leaves every visited component a
`do_logic` fixpoint with all its outgoing transmit slots finished. -/
theorem pass_fold_inv {g2 : CircuitGraph} {ord : List Nat}
    (hndord : ord.Nodup)
    (hperm : ord.Perm g2.ids)
    (hsort : ∀ l1 v l2, ord = l1 ++ v :: l2 → ∀ w ∈ filteredEdges g2,
      w.end_comp = v → w.start_comp ∉ v :: l2)
    (hUF : ∀ (i j : Nat) (wi wj : Wire), g2.edges[i]? = some wi →
      g2.edges[j]? = some wj →
      wi.end_comp = wj.end_comp → wi.end_pin = wj.end_pin → i = j) :
    ∀ (todo done : List Nat) (h : CircuitGraph),
      ord = done ++ todo →
      GraphWF h → h.ids = g2.ids → h.edges.map edgeShape = g2.edges.map edgeShape →
      (∀ cy c, g2.getComp cy = some c → ∃ c', h.getComp cy = some c' ∧
        (∀ qx, c'.get_pin_width qx = c.get_pin_width qx) ∧
        c'.is_clocked = c.is_clocked) →
      (∀ cz ∈ done, ∀ c, h.getComp cz = some c → c.do_logic = some c) →
      (∀ j w, h.edges[j]? = some w → w.start_comp ∈ done → TransmitDone h j) →
      ∃ h', todo.foldlM processNode h = some h' ∧
        GraphWF h' ∧ h'.ids = g2.ids ∧ h'.edges.map edgeShape = g2.edges.map edgeShape ∧
        (∀ cy c, g2.getComp cy = some c → ∃ c', h'.getComp cy = some c' ∧
          (∀ qx, c'.get_pin_width qx = c.get_pin_width qx) ∧
          c'.is_clocked = c.is_clocked) ∧
        (∀ cz ∈ done ++ todo, ∀ c, h'.getComp cz = some c → c.do_logic = some c) ∧
        (∀ j w, h'.edges[j]? = some w → w.start_comp ∈ done ++ todo →
          TransmitDone h' j) := by
  intro todo
  induction todo with
  | nil =>
    intro done h _ hWF hids hshape hmaps hfix hde
    refine ⟨h, rfl, hWF, hids, hshape, hmaps, ?_, ?_⟩
    · rw [List.append_nil]
      exact hfix
    · rw [List.append_nil]
      exact hde
  | cons cx todo' ih =>
    intro done h hord hWF hids hshape hmaps hfix hde
    have hcxord : cx ∈ ord := by
      rw [hord]
      exact List.mem_append.mpr (Or.inr (List.mem_cons_self cx todo'))
    have hcxids : cx ∈ h.ids := by
      rw [hids]
      exact hperm.subset hcxord
    obtain ⟨c, hc⟩ := getComp_isSome_of_mem hcxids
    have hcWOK : Comp.WidthOK c := hWF.2.1 _ (getComp_eq_some hc)
    obtain ⟨c_post, hdl, hcWOK', hwidths⟩ := Comp.do_logic_ok_c hcWOK
    have hclk := Comp.do_logic_clocked hdl
    have hinvals := Comp.do_logic_frame_in hdl
    have hcxnotdone : cx ∉ done := by
      rw [hord] at hndord
      have hd := (List.nodup_append.mp hndord).2.2
      intro hin
      exact hd hin (List.mem_cons_self cx todo')
    -- the state after running the combinational logic of cx
    have hWF0 : GraphWF (h.setComp cx c_post) := setComp_WF hWF hc hcWOK' hwidths hclk
    have hmaps0 := setComp_maps hc hwidths hclk
    have hids0 : (h.setComp cx c_post).ids = g2.ids := by
      rw [setComp_ids]
      exact hids
    have hshape0 : (h.setComp cx c_post).edges.map edgeShape =
        g2.edges.map edgeShape := by
      rw [setComp_edges]
      exact hshape
    have hmaps0' : ∀ cy c0, g2.getComp cy = some c0 →
        ∃ c0', (h.setComp cx c_post).getComp cy = some c0' ∧
          (∀ qx, c0'.get_pin_width qx = c0.get_pin_width qx) ∧
          c0'.is_clocked = c0.is_clocked := by
      intro cy c0 h0
      obtain ⟨c1, h1, h2, h3⟩ := hmaps cy c0 h0
      obtain ⟨c2, h4, h5, h6⟩ := hmaps0 cy c1 h1
      exact ⟨c2, h4, fun qx => by rw [h5, h2], by rw [h6, h3]⟩
    have hfix0 : ∀ cz, (cz ∈ done ∨ cz = cx) → ∀ c0,
        (h.setComp cx c_post).getComp cz = some c0 → c0.do_logic = some c0 := by
      intro cz hcz c0 hc0
      rcases hcz with hcz | hcz
      · rw [getComp_setComp_ne (fun he => hcxnotdone (by rw [he]; exact hcz))] at hc0
        exact hfix cz hcz c0 hc0
      · subst hcz
        rw [getComp_setComp_self hc] at hc0
        cases hc0
        exact Comp.do_logic_idem_c hdl
    have hde0 : ∀ j w, (h.setComp cx c_post).edges[j]? = some w →
        w.start_comp ∈ done → TransmitDone (h.setComp cx c_post) j := by
      intro j w hw hjs
      rw [setComp_edges] at hw
      refine TransmitDone_setComp hc hinvals hwidths (hde j w hw hjs) ?_
      intro wj hwj hst
      rw [hw] at hwj
      cases hwj
      rw [hst] at hjs
      exact hcxnotdone hjs
    -- run the transmit loop of cx
    have hidxprop : ∀ i ∈ outEdgeIdx (h.setComp cx c_post) cx,
        ∃ w2, g2.edges[i]? = some w2 ∧ w2.start_comp = cx := by
      intro i hi
      obtain ⟨w0, hw0, hs0⟩ := outEdgeIdx_mem hi
      rw [setComp_edges] at hw0
      obtain ⟨w2, hw2, hwsh⟩ := edgeAt_of_shape hshape hw0
      refine ⟨w2, hw2, ?_⟩
      rw [← (edgeShape_fields hwsh).1, hs0]
    obtain ⟨h1, hfold1, hWF1, hids1, hshape1, hmaps1, hfix1, hde1, hdi1⟩ :=
      transmit_fold_inv hord hndord hsort hUF
        (outEdgeIdx (h.setComp cx c_post) cx) [] (h.setComp cx c_post)
        (List.Nodup.filter _ (List.nodup_range _))
        hidxprop
        (fun a ha => absurd ha (List.not_mem_nil a))
        (fun a ha => absurd ha (List.not_mem_nil a))
        hWF0 hids0 hshape0 hmaps0' hfix0 hde0
        (fun j hj => absurd hj (List.not_mem_nil j))
    -- after cx is fully processed
    have hshape01 : h1.edges.map edgeShape = (h.setComp cx c_post).edges.map edgeShape := by
      rw [hshape1, ← hshape0]
    have hde1' : ∀ j w, h1.edges[j]? = some w → w.start_comp ∈ done ++ [cx] →
        TransmitDone h1 j := by
      intro j w hw hjs
      rcases List.mem_append.mp hjs with hjs | hjs
      · exact hde1 j w hw hjs
      · have hscx : w.start_comp = cx := List.mem_singleton.mp hjs
        obtain ⟨w0, hw0, hwsh0⟩ := edgeAt_of_shape hshape01 hw
        have hw0s : w0.start_comp = cx := by
          rw [← (edgeShape_fields hwsh0).1]
          exact hscx
        have hj_in : j ∈ outEdgeIdx (h.setComp cx c_post) cx := by
          unfold outEdgeIdx
          rw [List.mem_filter]
          constructor
          · rw [List.mem_range]
            exact getElem?_lt hw0
          · rw [hw0]
            show (some w0.start_comp == some cx) = true
            simp [hw0s]
        exact hdi1 j (Or.inr hj_in)
    obtain ⟨h', hfold', hWF', hids', hshape', hmaps', hfix', hde'⟩ :=
      ih (done ++ [cx]) h1 (by rw [hord]; simp) hWF1 hids1 hshape1 hmaps1
        (fun cz hcz c0 hc0 => hfix1 cz (by
          rcases List.mem_append.mp hcz with hcz | hcz
          · exact Or.inl hcz
          · exact Or.inr (List.mem_singleton.mp hcz)) c0 hc0)
        hde1'
    refine ⟨h', ?_, hWF', hids', hshape', hmaps', ?_, ?_⟩
    · rw [List.foldlM_cons]
      have hproc : processNode h cx = some h1 := by
        unfold processNode
        simp only [Option.bind_eq_bind]
        rw [hc, Option.some_bind, hdl, Option.some_bind]
        exact hfold1
      rw [hproc]
      show todo'.foldlM processNode h1 = some h'
      exact hfold'
    · intro cz hcz c0 hc0
      refine hfix' cz ?_ c0 hc0
      rcases List.mem_append.mp hcz with hcz | hcz
      · exact List.mem_append.mpr (Or.inl (List.mem_append.mpr (Or.inl hcz)))
      · rcases List.mem_cons.mp hcz with hcz | hcz
        · refine List.mem_append.mpr (Or.inl (List.mem_append.mpr (Or.inr ?_)))
          rw [hcz]
          exact List.mem_singleton.mpr rfl
        · exact List.mem_append.mpr (Or.inr hcz)
    · intro j w hw hjs
      refine hde' j w hw ?_
      rcases List.mem_append.mp hjs with hjs | hjs
      · exact List.mem_append.mpr (Or.inl (List.mem_append.mpr (Or.inl hjs)))
      · rcases List.mem_cons.mp hjs with hjs | hjs
        · refine List.mem_append.mpr (Or.inl (List.mem_append.mpr (Or.inr ?_)))
          rw [hjs]
          exact List.mem_singleton.mpr rfl
        · exact List.mem_append.mpr (Or.inr hjs)

/-- End-of-pass facts: after a successful propagation fold over the
topological order of a well-formed, single-fan-in graph, every component is a
`do_logic` fixpoint and every wire slot is a finished transmit. -/
theorem pass_final {g2 g1 : CircuitGraph} {ord : List Nat}
    (hWF : GraphWF g2)
    (hUF : ∀ (i j : Nat) (wi wj : Wire), g2.edges[i]? = some wi →
      g2.edges[j]? = some wj →
      wi.end_comp = wj.end_comp → wi.end_pin = wj.end_pin → i = j)
    (hkahn : kahn (filteredEdges g2) g2.ids = some ord)
    (hfold : ord.foldlM processNode g2 = some g1) :
    GraphWF g1 ∧ g1.ids = g2.ids ∧ g1.edges.map edgeShape = g2.edges.map edgeShape ∧
    (∀ cy c, g2.getComp cy = some c → ∃ c', g1.getComp cy = some c' ∧
      (∀ qx, c'.get_pin_width qx = c.get_pin_width qx) ∧
      c'.is_clocked = c.is_clocked) ∧
    (∀ cz ∈ g2.ids, ∀ c, g1.getComp cz = some c → c.do_logic = some c) ∧
    (∀ j w, g1.edges[j]? = some w → TransmitDone g1 j) := by
  have hperm : ord.Perm g2.ids := kahnAux_perm hkahn
  have hndord : ord.Nodup := hperm.nodup_iff.mpr hWF.1
  have hsort := fun l1 v l2 hsp => kahnAux_sorted hkahn l1 v l2 hsp
  obtain ⟨h', hfold', hWF', hids', hshape', hmaps', hfix', hde'⟩ :=
    pass_fold_inv hndord hperm hsort hUF ord [] g2 rfl hWF rfl rfl
      (fun cy c h0 => ⟨c, h0, fun qx => rfl, rfl⟩)
      (fun cz hcz => absurd hcz (List.not_mem_nil cz))
      (fun j w _ hjs => absurd hjs (List.not_mem_nil _))
  rw [hfold] at hfold'
  cases hfold'
  refine ⟨hWF', hids', hshape', hmaps', ?_, ?_⟩
  · intro cz hcz c hc
    refine hfix' cz ?_ c hc
    rw [List.nil_append]
    exact hperm.mem_iff.mpr hcz
  · intro j w hw
    refine hde' j w hw ?_
    rw [List.nil_append]
    apply hperm.mem_iff.mpr
    obtain ⟨w2, hw2, hwsh⟩ := edgeAt_of_shape hshape' hw
    obtain ⟨⟨src2, hsrc2, _⟩, _, _⟩ := hWF.2.2 w2 (List.getElem?_mem hw2)
    rw [(edgeShape_fields hwsh).1]
    exact List.mem_map.mpr ⟨(w2.start_comp, src2), getComp_eq_some hsrc2, rfl⟩

/-- A node all of whose outgoing transmits are already finished, and whose
component is a `do_logic` fixpoint, is left exactly in place by
`processNode`. -/
theorem processNode_stable {g1 : CircuitGraph} {cx : Nat}
    (hWF : GraphWF g1) (hmem : cx ∈ g1.ids)
    (hfix : ∀ c, g1.getComp cx = some c → c.do_logic = some c)
    (hTD : ∀ j w, g1.edges[j]? = some w → w.start_comp = cx → TransmitDone g1 j) :
    processNode g1 cx = some g1 := by
  obtain ⟨c, hc⟩ := getComp_isSome_of_mem hmem
  have hdl := hfix c hc
  unfold processNode
  simp only [Option.bind_eq_bind]
  rw [hc, Option.some_bind, hdl, Option.some_bind, setComp_stable hWF.1 hc]
  apply foldlM_option_const
  intro i hi
  obtain ⟨w, hw, hs⟩ := outEdgeIdx_mem hi
  obtain ⟨src, dst, dw, hsrc, hdst, hdw, hbr⟩ := hTD i w hw hs w hw
  obtain ⟨⟨src2, hsrc2, hsw2⟩, _, _⟩ := hWF.2.2 w (List.getElem?_mem hw)
  have hsrceq : src2 = src := by
    rw [hsrc] at hsrc2
    exact (Option.some_inj.mp hsrc2).symm
  rw [hsrceq] at hsw2
  unfold transmitAt
  simp only [Option.bind_eq_bind]
  rw [hw, Option.some_bind]
  rw [hs] at hsrc
  rw [hsrc, Option.some_bind, hdst, Option.some_bind, hsw2, Option.some_bind, hdw,
    Option.some_bind]
  rcases hbr with ⟨heq, sig, hsv, hwv, hdv⟩ | ⟨hne, hwv, hdv⟩
  · have hws : w.set_signal sig = some w := by
      rw [← hwv]
      exact Wire.set_signal_stable w
    rw [if_pos heq, hsv, Option.some_bind, Comp.set_pin_value_stable hdv,
      Option.some_bind, hws, Option.some_bind, setComp_stable hWF.1 hdst,
      set_of_getElem? _ i _ hw]
  · have hws : w.set_signal none = some w := by
      rw [← hwv]
      exact Wire.set_signal_stable w
    rw [if_neg hne, hws, Option.some_bind, Comp.set_pin_value_stable hdv,
      Option.some_bind, setComp_stable hWF.1 hdst, set_of_getElem? _ i _ hw]

theorem add_tunnel_connections_nil {ctx : CircuitContext} (hctx : ctx.tunnels = [])
    (g : CircuitGraph) : add_tunnel_connections ctx g = some g := by
  unfold add_tunnel_connections
  rw [hctx]
  rfl

theorem removeVirtual_id {g : CircuitGraph} (h : ∀ w ∈ g.edges, w.is_virtual = false) :
    removeVirtual g = g := by
  unfold removeVirtual
  have he : g.edges.filter (fun w => !w.is_virtual) = g.edges := by
    apply List.filter_eq_self.mpr
    intro w hw
    rw [h w hw]
    rfl
  rw [he]

/-- The endpoint pair of a wire: all the ordering algorithm ever reads. -/
def edgePair (w : Wire) : Nat × Nat := (w.start_comp, w.end_comp)

theorem any_pair_congr : ∀ {E1 E2 : List Wire},
    E1.map edgePair = E2.map edgePair → ∀ (f : Nat × Nat → Bool),
      (E1.any fun w => f (edgePair w)) = (E2.any fun w => f (edgePair w)) := by
  intro E1
  induction E1 with
  | nil =>
    intro E2 h f
    rw [List.map_nil] at h
    rw [List.map_eq_nil.mp h.symm]
  | cons w t ih =>
    intro E2 h f
    cases E2 with
    | nil => cases h
    | cons w2 t2 =>
      rw [List.map_cons, List.map_cons] at h
      have h1 : edgePair w = edgePair w2 := (List.cons.inj h).1
      have h2 : t.map edgePair = t2.map edgePair := (List.cons.inj h).2
      rw [List.any_cons, List.any_cons, h1, ih h2 f]

theorem noIncoming_congr {E1 E2 : List Wire}
    (h : E1.map edgePair = E2.map edgePair) (rem : List Nat) (v : Nat) :
    noIncoming E1 rem v = noIncoming E2 rem v := by
  unfold noIncoming
  have := any_pair_congr h (fun p => p.2 == v && rem.contains p.1)
  rw [show (E1.any fun w => w.end_comp == v && rem.contains w.start_comp) =
      (E1.any fun w => (fun p => p.2 == v && rem.contains p.1) (edgePair w)) from rfl]
  rw [show (E2.any fun w => w.end_comp == v && rem.contains w.start_comp) =
      (E2.any fun w => (fun p => p.2 == v && rem.contains p.1) (edgePair w)) from rfl]
  rw [this]

theorem kahnAux_congr {E1 E2 : List Wire}
    (h : E1.map edgePair = E2.map edgePair) :
    ∀ (fuel : Nat) (rem : List Nat), kahnAux E1 fuel rem = kahnAux E2 fuel rem := by
  intro fuel
  induction fuel with
  | zero =>
    intro rem
    cases rem with
    | nil => rfl
    | cons x xs => rfl
  | succ fuel ih =>
    intro rem
    cases rem with
    | nil => rfl
    | cons x xs =>
      have hm1 : kahnAux E1 (fuel + 1) (x :: xs) =
          match (x :: xs).find? (noIncoming E1 (x :: xs)) with
          | none => none
          | some v => (kahnAux E1 fuel ((x :: xs).erase v)).map (fun o => v :: o) := rfl
      have hm2 : kahnAux E2 (fuel + 1) (x :: xs) =
          match (x :: xs).find? (noIncoming E2 (x :: xs)) with
          | none => none
          | some v => (kahnAux E2 fuel ((x :: xs).erase v)).map (fun o => v :: o) := rfl
      rw [hm1, hm2, find?_congr_pred (fun a => noIncoming_congr h (x :: xs) a)]
      cases (x :: xs).find? (noIncoming E2 (x :: xs)) with
      | none => rfl
      | some v =>
        show (kahnAux E1 fuel _).map _ = (kahnAux E2 fuel _).map _
        rw [ih]

theorem filter_pair_congr : ∀ {E1 E2 : List Wire},
    E1.map edgeShape = E2.map edgeShape → ∀ (q : Nat → Bool),
      (E1.filter (fun w => !q w.end_comp)).map edgePair =
        (E2.filter (fun w => !q w.end_comp)).map edgePair := by
  intro E1
  induction E1 with
  | nil =>
    intro E2 h q
    rw [List.map_nil] at h
    rw [List.map_eq_nil.mp h.symm]
  | cons w t ih =>
    intro E2 h q
    cases E2 with
    | nil => cases h
    | cons w2 t2 =>
      rw [List.map_cons, List.map_cons] at h
      have h1 : edgeShape w = edgeShape w2 := (List.cons.inj h).1
      have h2 : t.map edgeShape = t2.map edgeShape := (List.cons.inj h).2
      obtain ⟨hs, hsp, he, hep, hdb, hv⟩ := edgeShape_fields h1
      rw [List.filter_cons, List.filter_cons, he]
      cases hq : !q w2.end_comp with
      | false =>
        simp only [Bool.false_eq_true, if_false]
        exact ih h2 q
      | true =>
        simp only [if_true]
        rw [List.map_cons, List.map_cons, ih h2 q]
        have hp : edgePair w = edgePair w2 := by
          unfold edgePair
          rw [hs, he]
        rw [hp]

theorem filteredEdges_pair_congr {ga gb : CircuitGraph}
    (hshape : ga.edges.map edgeShape = gb.edges.map edgeShape)
    (hclk : ∀ cy, ga.isClockedAt cy = gb.isClockedAt cy) :
    (filteredEdges ga).map edgePair = (filteredEdges gb).map edgePair := by
  unfold filteredEdges
  have h1 : ga.edges.filter (fun w => !ga.isClockedAt w.end_comp) =
      ga.edges.filter (fun w => !gb.isClockedAt w.end_comp) := by
    apply List.filter_congr
    intro w _
    rw [hclk]
  rw [h1]
  exact filter_pair_congr hshape gb.isClockedAt

theorem Wire.set_signal_shape {w w' : Wire} {v : Option Signal}
    (h : w.set_signal v = some w') : edgeShape w' = edgeShape w := by
  rw [Wire.set_signal_eq_some h]
  rfl

/-- Pure frame inversion for a successful transmit: the wire shapes are
unchanged and only the target component is touched. -/
theorem transmitAt_frame {g g' : CircuitGraph} {cx i : Nat}
    (hp : transmitAt g cx i = some g') :
    g'.edges.map edgeShape = g.edges.map edgeShape ∧ g'.ids = g.ids ∧
    ∃ w, g.edges[i]? = some w ∧
      ∀ cy, cy ≠ w.end_comp → g'.getComp cy = g.getComp cy := by
  unfold transmitAt at hp
  simp only [Option.bind_eq_bind] at hp
  cases hw : g.edges[i]? with
  | none => rw [hw] at hp; cases hp
  | some w =>
    rw [hw, Option.some_bind] at hp
    cases hsrc : g.getComp cx with
    | none => rw [hsrc] at hp; cases hp
    | some src =>
      rw [hsrc, Option.some_bind] at hp
      cases hdst : g.getComp w.end_comp with
      | none => rw [hdst] at hp; cases hp
      | some dst =>
        rw [hdst, Option.some_bind] at hp
        cases hsw : src.get_pin_width (PinIndex.Output w.start_pin) with
        | none => rw [hsw] at hp; cases hp
        | some sw =>
          rw [hsw, Option.some_bind] at hp
          cases hdw : dst.get_pin_width (PinIndex.Input w.end_pin) with
          | none => rw [hdw] at hp; cases hp
          | some dw =>
            rw [hdw, Option.some_bind] at hp
            by_cases heq : sw = dw
            · rw [if_pos heq] at hp
              cases hsig : src.get_pin_value (PinIndex.Output w.start_pin) with
              | none => rw [hsig] at hp; cases hp
              | some sig =>
                rw [hsig, Option.some_bind] at hp
                cases hdset : dst.set_pin_value (PinIndex.Input w.end_pin) sig with
                | none => rw [hdset] at hp; cases hp
                | some dst' =>
                  rw [hdset, Option.some_bind] at hp
                  cases hwset : w.set_signal sig with
                  | none => rw [hwset] at hp; cases hp
                  | some w' =>
                    rw [hwset, Option.some_bind] at hp
                    cases hp
                    refine ⟨?_, ?_, w, rfl, ?_⟩
                    · show (g.edges.set i w').map edgeShape = _
                      rw [List.map_set, Wire.set_signal_shape hwset]
                      exact set_of_getElem? _ i _ (by rw [List.getElem?_map, hw]; rfl)
                    · show (g.setComp w.end_comp dst').ids = g.ids
                      exact setComp_ids g _ dst'
                    · intro cy hcy
                      show (g.setComp w.end_comp dst').getComp cy = _
                      exact getComp_setComp_ne (fun he => hcy he.symm)
            · rw [if_neg heq] at hp
              cases hwset : w.set_signal none with
              | none => rw [hwset] at hp; cases hp
              | some w' =>
                rw [hwset, Option.some_bind] at hp
                cases hdset : dst.set_pin_value (PinIndex.Input w.end_pin) none with
                | none => rw [hdset] at hp; cases hp
                | some dst' =>
                  rw [hdset, Option.some_bind] at hp
                  cases hp
                  refine ⟨?_, ?_, w, rfl, ?_⟩
                  · show (g.edges.set i w').map edgeShape = _
                    rw [List.map_set, Wire.set_signal_shape hwset]
                    exact set_of_getElem? _ i _ (by rw [List.getElem?_map, hw]; rfl)
                  · show (g.setComp w.end_comp dst').ids = g.ids
                    exact setComp_ids g _ dst'
                  · intro cy hcy
                    show (g.setComp w.end_comp dst').getComp cy = _
                    exact getComp_setComp_ne (fun he => hcy he.symm)

/-- A node with no incoming wires whose component is a `do_logic` fixpoint is
untouched by any `processNode` call. -/
theorem processNode_frame {h h' : CircuitGraph} {cx r : Nat} {c0 : Comp}
    (hnd : h.ids.Nodup)
    (hp : processNode h cx = some h')
    (hr : h.getComp r = some c0) (hfixr : c0.do_logic = some c0)
    (hnoin : ∀ (i : Nat) (w : Wire), h.edges[i]? = some w → w.end_comp ≠ r) :
    h'.getComp r = some c0 ∧ h'.edges.map edgeShape = h.edges.map edgeShape ∧
      h'.ids = h.ids := by
  unfold processNode at hp
  simp only [Option.bind_eq_bind] at hp
  cases hc : h.getComp cx with
  | none => rw [hc] at hp; cases hp
  | some c =>
    rw [hc, Option.some_bind] at hp
    cases hdl : c.do_logic with
    | none => rw [hdl] at hp; cases hp
    | some c' =>
      rw [hdl, Option.some_bind] at hp
      have hr0 : (h.setComp cx c').getComp r = some c0 := by
        by_cases hcr : cx = r
        · subst hcr
          rw [hc] at hr
          cases hr
          rw [hfixr] at hdl
          cases hdl
          exact getComp_setComp_self hc
        · rw [getComp_setComp_ne hcr]
          exact hr
      have haux : ∀ (idxs : List Nat) (hh : CircuitGraph),
          hh.getComp r = some c0 →
          hh.edges.map edgeShape = h.edges.map edgeShape →
          hh.ids = h.ids →
          idxs.foldlM (fun x j => transmitAt x cx j) hh = some h' →
          h'.getComp r = some c0 ∧
            h'.edges.map edgeShape = h.edges.map edgeShape ∧ h'.ids = h.ids := by
        intro idxs
        induction idxs with
        | nil =>
          intro hh hhr hhsh hhids hfold
          cases hfold
          exact ⟨hhr, hhsh, hhids⟩
        | cons i rest ihx =>
          intro hh hhr hhsh hhids hfold
          rw [List.foldlM_cons] at hfold
          cases hstep : transmitAt hh cx i with
          | none =>
            rw [hstep] at hfold
            cases hfold
          | some hh1 =>
            rw [hstep] at hfold
            have hfold2 : rest.foldlM (fun x j => transmitAt x cx j) hh1 = some h' := hfold
            obtain ⟨hsh1, hids1, w, hw, hframe⟩ := transmitAt_frame hstep
            obtain ⟨w2, hw2, hwsh⟩ := edgeAt_of_shape hhsh hw
            have hner : w.end_comp ≠ r := by
              rw [(edgeShape_fields hwsh).2.2.1]
              exact hnoin i w2 hw2
            refine ihx hh1 ?_ ?_ ?_ hfold2
            · rw [hframe r (fun he => hner he.symm)]
              exact hhr
            · rw [hsh1, hhsh]
            · rw [hids1, hhids]
      exact haux _ _ hr0 (by rw [setComp_edges]) (by rw [setComp_ids]) hp

/-- A node with no incoming wires whose component is a `do_logic` fixpoint
keeps its component through a whole propagation fold. -/
theorem pass_untouched {ord : List Nat} :
    ∀ {g2 g1 : CircuitGraph} {r : Nat} {c0 : Comp},
      g2.ids.Nodup →
      ord.foldlM processNode g2 = some g1 →
      g2.getComp r = some c0 → c0.do_logic = some c0 →
      (∀ w ∈ g2.edges, w.end_comp ≠ r) →
      g1.getComp r = some c0 := by
  induction ord with
  | nil =>
    intro g2 g1 r c0 _ hfold hr _ _
    cases hfold
    exact hr
  | cons cx rest ih =>
    intro g2 g1 r c0 hnd hfold hr hfixr hnoin
    rw [List.foldlM_cons] at hfold
    cases hstep : processNode g2 cx with
    | none =>
      rw [hstep] at hfold
      cases hfold
    | some h1 =>
      rw [hstep] at hfold
      have hfold2 : rest.foldlM processNode h1 = some g1 := hfold
      obtain ⟨hr1, hsh1, hids1⟩ := processNode_frame hnd hstep hr hfixr
        (fun i w hw => hnoin w (List.getElem?_mem hw))
      refine ih ?_ hfold2 hr1 hfixr ?_
      · rw [hids1]
        exact hnd
      · intro w hw
        obtain ⟨i, hwi⟩ := List.mem_iff_getElem?.mp hw
        obtain ⟨w2, hw2, hwsh⟩ := edgeAt_of_shape hsh1 hwi
        rw [(edgeShape_fields hwsh).2.2.1]
        exact hnoin w2 (List.getElem?_mem hw2)

/-- Three drivers feeding one output pin: a one-bit pin holding a stale
two-bit value, a two-bit input (width mismatch), and a one-bit input. -/
def C8g : CircuitGraph :=
  { nodes := [(0, Comp.inputC { data_bits := 1, value := ⟨1, some [true, true]⟩ }),
              (1, Comp.inputC (Input.new 2)),
              (2, Comp.inputC { data_bits := 1, value := ⟨1, some [false]⟩ }),
              (3, Comp.outputC (Output.new 1))]
    edges := [Wire.new 0 0 3 0 1 false, Wire.new 1 0 3 0 2 false,
              Wire.new 2 0 3 0 1 false] }

/-- claim C8 counterexample: one propagation pass over `C8g` succeeds, but
running a second pass immediately afterwards aborts instead of reproducing
the state: the destination pin was last written by the one-bit driver, so the
first driver's stale two-bit value no longer fits the in-place copy. -/
theorem C8_second_pass_counterexample :
    ∃ g1, update_signals C1ctx C8g = some g1 ∧ update_signals C1ctx g1 = none :=
  ⟨_, rfl, rfl⟩

/-- A two-bit tunnel sender holding a value, with a one-bit receiver under
the same label. -/
def C2sender : Comp :=
  Comp.tunnel { kind := TunnelKind.Sender, label := "A", live_label := "A",
                data_bits := 2, value := ⟨2, some [true, false]⟩ }

def C2recv : Comp :=
  Comp.tunnel { kind := TunnelKind.Receiver, label := "A", live_label := "A",
                data_bits := 1, value := ⟨1, none⟩ }

def C2ctxA : CircuitContext :=
  { tunnels := [("A", { senders := [0], receivers := [1] })] }

def C2g : CircuitGraph := { nodes := [(0, C2sender), (1, C2recv)], edges := [] }

/-- claim C2 counterexample: a valid net (exactly one sender) whose receiver
has a different width. After the pass the sender's output is present but the
receiver reads absent — not the sender's value, as the claim demands. -/
theorem C2_tunnel_counterexample :
    TunnelMembers.is_valid { senders := [0], receivers := [1] } = true ∧
    ∃ g', update_signals C2ctxA C2g = some g' ∧
      g'.getComp 0 = some C2sender ∧
      (∃ t, g'.getComp 1 = some (Comp.tunnel t) ∧ t.value.signal = none) :=
  ⟨rfl, _, rfl, rfl, ⟨_, rfl, rfl⟩⟩

/-- claim C2 (amended): after a propagation pass over the regenerated,
width-coherent, single-fan-in graph `g2`: (a) along every wire from a
sender's `Output(0)` to a receiver's `Input(0)` — in particular every
regenerated virtual wire of a valid net — the receiver reads exactly the
sender's current output when the widths agree, and reads absent on a width
mismatch; (b) a receiver with no incoming wires (as left behind by an
invalid net, its pin forced absent during regeneration) keeps its forced
state through the pass. -/
theorem C2_tunnel_amended {ctx : CircuitContext} {g g2 : CircuitGraph} {ord : List Nat}
    (htun : add_tunnel_connections ctx (removeVirtual g) = some g2)
    (hWF : GraphWF g2)
    (hUF : ∀ (i j : Nat) (wi wj : Wire), g2.edges[i]? = some wi →
      g2.edges[j]? = some wj → wi.end_comp = wj.end_comp → wi.end_pin = wj.end_pin →
      i = j)
    (hkahn : kahn (filteredEdges g2) g2.ids = some ord) :
    ∃ g1, update_signals ctx g = some g1 ∧
      (∀ (i : Nat) (w : Wire) (s r : Nat), g2.edges[i]? = some w →
        w.start_comp = s → w.start_pin = 0 → w.end_comp = r → w.end_pin = 0 →
        ∃ cs cr dw, g1.getComp s = some cs ∧ g1.getComp r = some cr ∧
          cr.get_pin_width (PinIndex.Input 0) = some dw ∧
          ((w.data_bits = dw ∧ ∃ sig, cs.get_pin_value (PinIndex.Output 0) = some sig ∧
              cr.get_pin_value (PinIndex.Input 0) = some sig) ∨
            (¬w.data_bits = dw ∧ cr.get_pin_value (PinIndex.Input 0) = some none))) ∧
      (∀ (r : Nat) (t0 : Tunnel), g2.getComp r = some (Comp.tunnel t0) →
        (∀ w ∈ g2.edges, w.end_comp ≠ r) →
        g1.getComp r = some (Comp.tunnel t0)) := by
  have hperm := kahnAux_perm hkahn
  have hstep : ∀ h cx, cx ∈ ord → (GraphWF h ∧ h.ids = g2.ids) →
      ∃ h', processNode h cx = some h' ∧ (GraphWF h' ∧ h'.ids = g2.ids) := by
    intro h cx hcx hP
    obtain ⟨hWFh, hidsh⟩ := hP
    have hmem : cx ∈ h.ids := by
      rw [hidsh]
      exact hperm.subset hcx
    obtain ⟨h', hp, hWF', hids', _, _⟩ := processNode_ok hWFh hmem
    exact ⟨h', hp, hWF', by rw [hids', hidsh]⟩
  obtain ⟨g1, hfold, _⟩ :=
    foldlM_option_inv processNode (fun h => GraphWF h ∧ h.ids = g2.ids) ord g2
      ⟨hWF, rfl⟩ hstep
  obtain ⟨hWF1, hids1, hshape1, hmaps1, hfix1, hde1⟩ := pass_final hWF hUF hkahn hfold
  refine ⟨g1, ?_, ?_, ?_⟩
  · unfold update_signals
    simp only [Option.bind_eq_bind]
    rw [htun, Option.some_bind, hkahn, Option.some_bind]
    exact hfold
  · intro i w s r hw hs hsp he hep
    have hsh := shapeAt_congr hshape1 i
    rw [hw, Option.map_some'] at hsh
    rcases Option.map_eq_some'.mp hsh with ⟨w1, hw1, hwsh⟩
    obtain ⟨h1s, h1sp, h1e, h1ep, h1db, _⟩ := edgeShape_fields hwsh
    obtain ⟨src, dst, dw, hsrc, hdst, hdw, hbr⟩ := hde1 i w1 hw1 w1 hw1
    refine ⟨src, dst, dw, ?_, ?_, ?_, ?_⟩
    · rw [← hs, ← h1s]
      exact hsrc
    · rw [← he, ← h1e]
      exact hdst
    · rw [← hep, ← h1ep]
      exact hdw
    · rcases hbr with ⟨heq, sig, hsv, _, hdv⟩ | ⟨hne, _, hdv⟩
      · refine Or.inl ⟨by rw [← h1db]; exact heq, sig, ?_, ?_⟩
        · rw [← hsp, ← h1sp]
          exact hsv
        · rw [← hep, ← h1ep]
          exact hdv
      · refine Or.inr ⟨by rw [← h1db]; exact hne, ?_⟩
        rw [← hep, ← h1ep]
        exact hdv
  · intro r t0 hr hnoin
    exact pass_untouched hWF.1 hfold hr rfl hnoin

/-- The C2 witness net: a two-bit sender holding `[true, false]` and a
two-bit receiver, plus its regenerated graph with the virtual wire. -/
def C2wrecv : Comp :=
  Comp.tunnel { kind := TunnelKind.Receiver, label := "A", live_label := "A",
                data_bits := 2, value := ⟨2, none⟩ }

def C2wg : CircuitGraph := { nodes := [(0, C2sender), (1, C2wrecv)], edges := [] }

def C2wg2 : CircuitGraph :=
  { nodes := [(0, C2sender), (1, C2wrecv)], edges := [Wire.new 0 0 1 0 2 true] }

theorem C2wg2_WF : GraphWF C2wg2 := by
  refine ⟨by decide, ?_, ?_⟩
  · intro p hp
    rcases List.mem_cons.mp hp with h | hp
    · subst h
      intro s hs
      cases hs
      rfl
    · rcases List.mem_cons.mp hp with h | hp
      · subst h
        intro s hs
        cases hs
      · cases hp
  · intro w hw
    rcases List.mem_cons.mp hw with h | hw
    · subst h
      refine ⟨⟨C2sender, rfl, rfl⟩, ⟨C2wrecv, 2, rfl, rfl⟩, ?_⟩
      intro s hs
      cases hs
    · cases hw

theorem C2_tunnel_amended_witness :
    ∃ g1, update_signals C2ctxA C2wg = some g1 ∧
      (∀ (i : Nat) (w : Wire) (s r : Nat), C2wg2.edges[i]? = some w →
        w.start_comp = s → w.start_pin = 0 → w.end_comp = r → w.end_pin = 0 →
        ∃ cs cr dw, g1.getComp s = some cs ∧ g1.getComp r = some cr ∧
          cr.get_pin_width (PinIndex.Input 0) = some dw ∧
          ((w.data_bits = dw ∧ ∃ sig, cs.get_pin_value (PinIndex.Output 0) = some sig ∧
              cr.get_pin_value (PinIndex.Input 0) = some sig) ∨
            (¬w.data_bits = dw ∧ cr.get_pin_value (PinIndex.Input 0) = some none))) ∧
      (∀ (r : Nat) (t0 : Tunnel), C2wg2.getComp r = some (Comp.tunnel t0) →
        (∀ w ∈ C2wg2.edges, w.end_comp ≠ r) →
        g1.getComp r = some (Comp.tunnel t0)) := by
  have hUFw : ∀ (i j : Nat) (wi wj : Wire), C2wg2.edges[i]? = some wi →
      C2wg2.edges[j]? = some wj → wi.end_comp = wj.end_comp → wi.end_pin = wj.end_pin →
      i = j := by
    intro i j wi wj hi hj _ _
    have h1 : i < 1 := getElem?_lt hi
    have h2 : j < 1 := getElem?_lt hj
    omega
  exact C2_tunnel_amended rfl C2wg2_WF hUFw rfl

/-! ### A second propagation pass with tunnel regeneration -/

theorem getComp_of_nodes_at {l : List (Nat × Comp)} :
    ∀ {k i : Nat} {c : Comp}, (l.map Prod.fst).Nodup → l[k]? = some (i, c) →
      (l.find? (fun p => p.1 == i)).map Prod.snd = some c := by
  induction l with
  | nil => intro k i c _ hk; cases hk
  | cons a t ih =>
    intro k i c hnd hk
    rw [List.map_cons, List.nodup_cons] at hnd
    cases k with
    | zero =>
      rw [List.getElem?_cons_zero] at hk
      have ha : a = (i, c) := Option.some_inj.mp hk
      subst ha
      rw [find?_cons_true t (by simp)]
      rfl
    | succ k =>
      rw [List.getElem?_cons_succ] at hk
      have hk' : t[k]? = some (i, c) := hk
      have hmem : i ∈ t.map Prod.fst :=
        List.mem_map.mpr ⟨(i, c), List.getElem?_mem hk', rfl⟩
      have hne : ¬(a.1 == i) = true := by
        intro he
        exact hnd.1 ((beq_iff_eq.mp he) ▸ hmem)
      rw [find?_cons_false t hne]
      exact ih hnd.2 hk'

/-- Two graphs with the same id sequence, distinct ids, and the same
component at every id have the same node list. -/
theorem nodes_eq_of_getComp {g h : CircuitGraph}
    (hnd : g.ids.Nodup) (hids : h.ids = g.ids)
    (hcomp : ∀ cy c, g.getComp cy = some c → h.getComp cy = some c) :
    h.nodes = g.nodes := by
  have hndl : (g.nodes.map Prod.fst).Nodup := hnd
  have hidsl : h.nodes.map Prod.fst = g.nodes.map Prod.fst := hids
  have hlen : h.nodes.length = g.nodes.length := by
    have := congrArg List.length hidsl
    simpa using this
  apply List.ext_getElem?
  intro k
  cases hgk : g.nodes[k]? with
  | none =>
    have hk1 : g.nodes.length ≤ k := by
      by_contra hlt
      rw [List.getElem?_eq_getElem (by omega)] at hgk
      cases hgk
    exact List.getElem?_eq_none (by omega)
  | some pr =>
    obtain ⟨i, c⟩ := pr
    have hc : g.getComp i = some c := getComp_of_nodes_at hndl hgk
    have hch : h.getComp i = some c := hcomp i c hc
    have hidk : (g.nodes.map Prod.fst)[k]? = some i := by
      rw [List.getElem?_map, hgk]
      rfl
    have hidk2 : (h.nodes.map Prod.fst)[k]? = some i := by
      rw [hidsl]
      exact hidk
    rw [List.getElem?_map] at hidk2
    rcases Option.map_eq_some'.mp hidk2 with ⟨pr2, hk2, hfst⟩
    obtain ⟨i2, c2⟩ := pr2
    have hi2 : i2 = i := hfst
    subst hi2
    have hndh : (h.nodes.map Prod.fst).Nodup := by
      rw [hidsl]
      exact hndl
    have hch2 : h.getComp i2 = some c2 := getComp_of_nodes_at hndh hk2
    rw [hch] at hch2
    have hc2 : c2 = c := (Option.some_inj.mp hch2).symm
    subst hc2
    exact hk2

theorem circuit_eq_of_parts {h g : CircuitGraph} (hn : h.nodes = g.nodes)
    (he : h.edges = g.edges) : h = g := by
  cases h with
  | mk n e =>
    cases g with
    | mk n2 e2 =>
      have hn' : n = n2 := hn
      have he' : e = e2 := he
      rw [hn', he']

theorem Wire.set_signal_of_none {w : Wire} (h : w.value = none) (v : Option Signal) :
    w.set_signal v = some { w with value := v } := by
  cases v with
  | none => rfl
  | some s =>
    have h1 : w.set_signal (some s) = match w.value with
      | some old =>
        if old.length = s.length then some { w with value := some s } else none
      | none => some { w with value := some s } := rfl
    rw [h1, h]

/-- Reading back a pin just written at `Output 0`. -/
theorem Comp.set_out0_get {c c' : Comp} {v : Option Signal}
    (h : c.set_pin_value (PinIndex.Output 0) v = some c') :
    c'.get_pin_value (PinIndex.Output 0) = some v := by
  cases c with
  | gate g =>
    rcases Option.map_eq_some'.mp h with ⟨o, hset, hc⟩
    subst hc
    show some _ = some v
    rw [Pin.get, (Pin.set_eq_some hset).2]
  | mux m =>
    rcases Option.map_eq_some'.mp h with ⟨o, hset, hc⟩
    subst hc
    show some _ = some v
    rw [Pin.get, (Pin.set_eq_some hset).2]
  | demux d =>
    rcases Option.map_eq_some'.mp h with ⟨ps, hset, hc⟩
    subst hc
    exact setPinAt_get_self hset
  | register r =>
    rcases Option.map_eq_some'.mp h with ⟨o, hset, hc⟩
    subst hc
    show some _ = some v
    rw [Pin.get, (Pin.set_eq_some hset).2]
  | inputC i =>
    rcases Option.map_eq_some'.mp h with ⟨o, hset, hc⟩
    subst hc
    show some _ = some v
    rw [Pin.get, (Pin.set_eq_some hset).2]
  | outputC o => cases h
  | splitter sp =>
    rcases Option.map_eq_some'.mp h with ⟨ps, hset, hc⟩
    subst hc
    exact setPinAt_get_self hset
  | tunnel t =>
    rcases Option.map_eq_some'.mp h with ⟨o, hset, hc⟩
    subst hc
    show some _ = some v
    rw [Pin.get, (Pin.set_eq_some hset).2]

/-- A pin that reports a width at `Output 0` can always be written absent. -/
theorem Comp.set_out0_none_ok {c : Comp} {wd : Nat}
    (h : c.get_pin_width (PinIndex.Output 0) = some wd) :
    ∃ c', c.set_pin_value (PinIndex.Output 0) none = some c' := by
  cases c with
  | gate g => exact ⟨_, rfl⟩
  | mux m => exact ⟨_, rfl⟩
  | demux d =>
    rcases Option.map_eq_some'.mp h with ⟨p, hp, _⟩
    refine ⟨Comp.demux { d with outputs := d.outputs.set 0 { p with signal := none } }, ?_⟩
    show (setPinAt d.outputs 0 none).map _ = _
    rw [setPinAt_ok hp (fun s s' _ hs' => by cases hs')]
    rfl
  | register r => exact ⟨_, rfl⟩
  | inputC i => exact ⟨_, rfl⟩
  | outputC o => cases h
  | splitter sp =>
    rcases Option.map_eq_some'.mp h with ⟨p, hp, _⟩
    refine ⟨Comp.splitter { sp with outputs := sp.outputs.set 0 { p with signal := none } },
      ?_⟩
    show (setPinAt sp.outputs 0 none).map _ = _
    rw [setPinAt_ok hp (fun s s' _ hs' => by cases hs')]
    rfl
  | tunnel t => exact ⟨_, rfl⟩

/-- A successful write at `Output 0` means the pin exists. -/
theorem Comp.set_out0_some_width {c c' : Comp} {v : Option Signal}
    (h : c.set_pin_value (PinIndex.Output 0) v = some c') :
    ∃ wd, c.get_pin_width (PinIndex.Output 0) = some wd := by
  cases c with
  | gate g => exact ⟨_, rfl⟩
  | mux m => exact ⟨_, rfl⟩
  | demux d =>
    rcases Option.map_eq_some'.mp h with ⟨ps, hset, _⟩
    obtain ⟨p, p', hp, _, _⟩ := setPinAt_eq_some hset
    refine ⟨p.bits, ?_⟩
    show (d.outputs[0]?).map Pin.bits = _
    rw [hp]
    rfl
  | register r => exact ⟨_, rfl⟩
  | inputC i => exact ⟨_, rfl⟩
  | outputC o => cases h
  | splitter sp =>
    rcases Option.map_eq_some'.mp h with ⟨ps, hset, _⟩
    obtain ⟨p, p', hp, _, _⟩ := setPinAt_eq_some hset
    refine ⟨p.bits, ?_⟩
    show (sp.outputs[0]?).map Pin.bits = _
    rw [hp]
    rfl
  | tunnel t => exact ⟨_, rfl⟩

/-- `set_pin_value` keeps a tunnel a tunnel. -/
theorem Comp.set_pin_value_tunnel_t {t : Tunnel} {px : PinIndex} {v : Option Signal}
    {c' : Comp} (h : (Comp.tunnel t).set_pin_value px v = some c') :
    ∃ t', c' = Comp.tunnel t' := by
  rcases px with i | i <;> rcases i with _ | i
  · rcases Option.map_eq_some'.mp h with ⟨p, _, hc⟩
    exact ⟨_, hc.symm⟩
  · cases h
  · rcases Option.map_eq_some'.mp h with ⟨p, _, hc⟩
    exact ⟨_, hc.symm⟩
  · cases h

theorem mem_outEdgeIdx {g : CircuitGraph} {i cx : Nat} {w : Wire}
    (hw : g.edges[i]? = some w) (hs : w.start_comp = cx) : i ∈ outEdgeIdx g cx := by
  unfold outEdgeIdx
  rw [List.mem_filter]
  refine ⟨List.mem_range.mpr (getElem?_lt hw), ?_⟩
  rw [hw]
  show (some w.start_comp == some cx) = true
  rw [hs]
  simp

theorem filter_eq_take_of_split {α : Type} (p : α → Bool) :
    ∀ (l : List α) (n : Nat),
      (∀ (j : Nat) (a : α), l[j]? = some a → (p a = true ↔ j < n)) →
      l.filter p = l.take n := by
  intro l
  induction l with
  | nil => intro n _; simp
  | cons a t ih =>
    intro n h
    have h0 := h 0 a (by rw [List.getElem?_cons_zero])
    cases n with
    | zero =>
      have hpa : p a = false := by
        cases hpa : p a
        · rfl
        · exact absurd (h0.mp hpa) (by omega)
      rw [List.take_zero, List.filter_cons, hpa]
      simp only [Bool.false_eq_true, if_false]
      rw [List.filter_eq_nil]
      intro b hb
      obtain ⟨j, hj⟩ := List.mem_iff_getElem?.mp hb
      intro hpb
      have hj2 : (a :: t)[j + 1]? = some b := by
        rw [List.getElem?_cons_succ]
        exact hj
      exact absurd ((h (j + 1) b hj2).mp hpb) (by omega)
    | succ n =>
      have hpa : p a = true := h0.mpr (by omega)
      rw [List.filter_cons, hpa, if_pos rfl, List.take_succ_cons]
      congr 1
      apply ih
      intro j b hb
      have hb2 : (a :: t)[j + 1]? = some b := by
        rw [List.getElem?_cons_succ]
        exact hb
      exact (h (j + 1) b hb2).trans Nat.succ_lt_succ_iff

/-- Slot invariant of the second pass: each wire slot already holds the
(final) first-pass wire, or its cache was reset by regeneration and its
source node is still pending. -/
def SlotOK (g1 h : CircuitGraph) (P : Nat → Nat → Prop) (j : Nat) : Prop :=
  ∀ w, g1.edges[j]? = some w →
    h.edges[j]? = some w ∨
      (P j w.start_comp ∧
        ∃ w', h.edges[j]? = some w' ∧ edgeShape w' = edgeShape w ∧ w'.value = none)

/-- Component invariant of the second pass: each component already equals its
first-pass final state, or it was re-forced absent at `Output 0` by tunnel
regeneration and will be repaired by the transmit along its sole incoming
wire, whose source is still pending. -/
def CompOK (g1 : CircuitGraph) (h : CircuitGraph) (P : Nat → Nat → Prop)
    (cy : Nat) : Prop :=
  ∀ c, g1.getComp cy = some c →
    h.getComp cy = some c ∨
      ∃ c' j w, h.getComp cy = some c' ∧
        c.set_pin_value (PinIndex.Output 0) none = some c' ∧
        (∀ qx, c'.get_pin_width qx = c.get_pin_width qx) ∧
        g1.isClockedAt cy = false ∧
        g1.edges[j]? = some w ∧ w.end_comp = cy ∧ P j w.start_comp ∧
        (∀ (k : Nat) (w2 : Wire), g1.edges[k]? = some w2 → w2.end_comp = cy → k = j) ∧
        (∀ v, c.get_pin_value (PinIndex.Input w.end_pin) = some v →
          c'.set_pin_value (PinIndex.Input w.end_pin) v = some c)

def ReplayInv (g1 h : CircuitGraph) (P : Nat → Nat → Prop) : Prop :=
  h.ids = g1.ids ∧ h.edges.length = g1.edges.length ∧
    (∀ j, SlotOK g1 h P j) ∧ (∀ cy, CompOK g1 h P cy)

/-- One transmit step of the second pass lands the touched wire slot and the
touched component exactly on their first-pass final values. -/
theorem transmit_replay {g1 h : CircuitGraph} {P : Nat → Nat → Prop} {cx i : Nat}
    {w : Wire}
    (hWF1 : GraphWF g1)
    (hde1 : ∀ (j : Nat) (w0 : Wire), g1.edges[j]? = some w0 → TransmitDone g1 j)
    (hinv : ReplayInv g1 h P)
    (hw : g1.edges[i]? = some w) (hstart : w.start_comp = cx)
    (hcx : ∀ c, g1.getComp cx = some c → h.getComp cx = some c) :
    ∃ h' dstg, transmitAt h cx i = some h' ∧
      g1.getComp w.end_comp = some dstg ∧
      h'.ids = h.ids ∧ h'.edges.length = h.edges.length ∧
      h'.edges[i]? = some w ∧ (∀ j, j ≠ i → h'.edges[j]? = h.edges[j]?) ∧
      h'.getComp w.end_comp = some dstg ∧
      (∀ cy, cy ≠ w.end_comp → h'.getComp cy = h.getComp cy) := by
  obtain ⟨hids, hlen, hslots, hcomps⟩ := hinv
  obtain ⟨src, dst, dw, hsrcg, hdstg, hdwg, hbr⟩ := hde1 i w hw w hw
  obtain ⟨⟨src0, hsrc0, hsw0⟩, _, _⟩ := hWF1.2.2 w (List.getElem?_mem hw)
  have hsw : src.get_pin_width (PinIndex.Output w.start_pin) = some w.data_bits := by
    rw [hsrcg] at hsrc0
    cases hsrc0
    exact hsw0
  obtain ⟨w'', hwh, hsh, hwcase⟩ :
      ∃ w'', h.edges[i]? = some w'' ∧ edgeShape w'' = edgeShape w ∧
        (w'' = w ∨ w''.value = none) := by
    rcases hslots i w hw with hl | ⟨_, w', hw', hsh', hval'⟩
    · exact ⟨w, hl, rfl, Or.inl rfl⟩
    · exact ⟨w', hw', hsh', Or.inr hval'⟩
  obtain ⟨hsc, hsp, hec, hepn, hdb, hvirt⟩ := edgeShape_fields hsh
  have hsrch : h.getComp cx = some src := hcx src (by rw [← hstart]; exact hsrcg)
  obtain ⟨dsid, hdsth, hdwidth, hdset⟩ :
      ∃ dsid, h.getComp w.end_comp = some dsid ∧
        (∀ qx, dsid.get_pin_width qx = dst.get_pin_width qx) ∧
        (∀ v, dst.get_pin_value (PinIndex.Input w.end_pin) = some v →
          dsid.set_pin_value (PinIndex.Input w.end_pin) v = some dst) := by
    rcases hcomps w.end_comp dst hdstg with hl |
      ⟨c', j, wj, hgh, hforce, hwid, hclkf, hwj, hwjend, hPj, hsole, hrest⟩
    · exact ⟨dst, hl, fun qx => rfl, fun v hv => Comp.set_pin_value_stable hv⟩
    · have hij : i = j := hsole i w hw rfl
      subst hij
      rw [hw] at hwj
      have hwjw : wj = w := Option.some_inj.mp hwj.symm
      subst hwjw
      exact ⟨c', hgh, hwid, hrest⟩
  have hdwq : dsid.get_pin_width (PinIndex.Input w.end_pin) = some dw := by
    rw [hdwidth]
    exact hdwg
  unfold transmitAt
  simp only [Option.bind_eq_bind]
  rw [hwh, Option.some_bind, hsrch, Option.some_bind, hec, hdsth, Option.some_bind,
    hsp, hsw, Option.some_bind, hepn, hdwq, Option.some_bind]
  rcases hbr with ⟨heq, sig, hsig, hwv, hdv⟩ | ⟨hne, hwv, hdv⟩
  · have hwset : w''.set_signal sig = some w := by
      rcases hwcase with rfl | hvn
      · rw [← hwv]
        exact Wire.set_signal_stable w''
      · rw [Wire.set_signal_of_none hvn sig]
        refine congrArg some ?_
        refine Wire.ext hsc hsp hec hepn hdb ?_ hvirt
        exact hwv.symm
    rw [if_pos heq, hsig, Option.some_bind, hdset sig hdv, Option.some_bind,
      hwset, Option.some_bind]
    refine ⟨_, dst, rfl, hdstg, ?_, ?_, ?_, ?_, ?_, ?_⟩
    · show (h.setComp w.end_comp dst).ids = h.ids
      exact setComp_ids h _ dst
    · show (h.edges.set i w).length = h.edges.length
      simp
    · show (h.edges.set i w)[i]? = some w
      exact List.getElem?_set_self (getElem?_lt hwh)
    · intro j hj
      show (h.edges.set i w)[j]? = h.edges[j]?
      exact List.getElem?_set_ne (fun he => hj he.symm)
    · show (h.setComp w.end_comp dst).getComp w.end_comp = some dst
      exact getComp_setComp_self hdsth
    · intro cy hcy
      show (h.setComp w.end_comp dst).getComp cy = h.getComp cy
      exact getComp_setComp_ne (fun he => hcy he.symm)
  · have hwset : w''.set_signal none = some w := by
      have h1 : w''.set_signal none = some { w'' with value := none } := rfl
      rw [h1]
      refine congrArg some ?_
      refine Wire.ext hsc hsp hec hepn hdb ?_ hvirt
      exact hwv.symm
    rw [if_neg hne, hwset, Option.some_bind, hdset none hdv, Option.some_bind]
    refine ⟨_, dst, rfl, hdstg, ?_, ?_, ?_, ?_, ?_, ?_⟩
    · show (h.setComp w.end_comp dst).ids = h.ids
      exact setComp_ids h _ dst
    · show (h.edges.set i w).length = h.edges.length
      simp
    · show (h.edges.set i w)[i]? = some w
      exact List.getElem?_set_self (getElem?_lt hwh)
    · intro j hj
      show (h.edges.set i w)[j]? = h.edges[j]?
      exact List.getElem?_set_ne (fun he => hj he.symm)
    · show (h.setComp w.end_comp dst).getComp w.end_comp = some dst
      exact getComp_setComp_self hdsth
    · intro cy hcy
      show (h.setComp w.end_comp dst).getComp cy = h.getComp cy
      exact getComp_setComp_ne (fun he => hcy he.symm)

/-- Replaying the transmit loop of one node: every outgoing slot of `cx`
lands on its final value and the invariant advances. -/
theorem transmit_replay_fold {g1 : CircuitGraph} {cx : Nat} {rest : List Nat}
    (hWF1 : GraphWF g1)
    (hde1 : ∀ (j : Nat) (w0 : Wire), g1.edges[j]? = some w0 → TransmitDone g1 j) :
    ∀ (idxs : List Nat) (h : CircuitGraph),
      ReplayInv g1 h (fun j s => s ∈ rest ∨ (s = cx ∧ j ∈ idxs)) →
      (∀ i ∈ idxs, ∃ w, g1.edges[i]? = some w ∧ w.start_comp = cx) →
      (∀ c, g1.getComp cx = some c → h.getComp cx = some c) →
      ∃ h', idxs.foldlM (fun x j => transmitAt x cx j) h = some h' ∧
        ReplayInv g1 h' (fun _ s => s ∈ rest) ∧
        (∀ c, g1.getComp cx = some c → h'.getComp cx = some c) := by
  intro idxs
  induction idxs with
  | nil =>
    intro h hinv _ hcx
    refine ⟨h, rfl, ?_, hcx⟩
    obtain ⟨hids, hlen, hslots, hcomps⟩ := hinv
    refine ⟨hids, hlen, ?_, ?_⟩
    · intro j w hw
      rcases hslots j w hw with hl | ⟨hP, hrest'⟩
      · exact Or.inl hl
      · rcases hP with hP | ⟨_, hmem⟩
        · exact Or.inr ⟨hP, hrest'⟩
        · exact absurd hmem (List.not_mem_nil _)
    · intro cy c hc
      rcases hcomps cy c hc with hl |
        ⟨c', j, wj, h1, h2, h3, h4, h5, h6, hP, h8, h9⟩
      · exact Or.inl hl
      · rcases hP with hP | ⟨_, hmem⟩
        · exact Or.inr ⟨c', j, wj, h1, h2, h3, h4, h5, h6, hP, h8, h9⟩
        · exact absurd hmem (List.not_mem_nil _)
  | cons i is ih =>
    intro h hinv hidx hcx
    obtain ⟨w, hw, hstart⟩ := hidx i (List.mem_cons_self i is)
    obtain ⟨h1, dstg, hstep, hdstg, hids', hlen', hsloti, hslotne, hdst1, hcomfr⟩ :=
      transmit_replay hWF1 hde1 hinv hw hstart hcx
    obtain ⟨hids, hlen, hslots, hcomps⟩ := hinv
    have hinv1 : ReplayInv g1 h1 (fun j s => s ∈ rest ∨ (s = cx ∧ j ∈ is)) := by
      refine ⟨by rw [hids']; exact hids, by rw [hlen']; exact hlen, ?_, ?_⟩
      · intro j w0 hw0
        by_cases hji : j = i
        · subst hji
          rw [hw] at hw0
          have hw0w : w0 = w := Option.some_inj.mp hw0.symm
          subst hw0w
          exact Or.inl hsloti
        · rcases hslots j w0 hw0 with hl | ⟨hP, w', hw', hsh', hval'⟩
          · exact Or.inl (by rw [hslotne j hji]; exact hl)
          · refine Or.inr ⟨?_, w', by rw [hslotne j hji]; exact hw', hsh', hval'⟩
            rcases hP with hP | ⟨hscx, hmem⟩
            · exact Or.inl hP
            · refine Or.inr ⟨hscx, ?_⟩
              rcases List.mem_cons.mp hmem with he | hm
              · exact absurd he hji
              · exact hm
      · intro cy c hc
        by_cases hcye : cy = w.end_comp
        · subst hcye
          rw [hdstg] at hc
          have hcd : c = dstg := Option.some_inj.mp hc.symm
          subst hcd
          exact Or.inl hdst1
        · rcases hcomps cy c hc with hl |
            ⟨c', j, wj, h1c, h2c, h3c, h4c, h5c, h6c, hP, h8c, h9c⟩
          · exact Or.inl (by rw [hcomfr cy hcye]; exact hl)
          · refine Or.inr ⟨c', j, wj, by rw [hcomfr cy hcye]; exact h1c, h2c, h3c,
              h4c, h5c, h6c, ?_, h8c, h9c⟩
            rcases hP with hP | ⟨hscx, hmem⟩
            · exact Or.inl hP
            · refine Or.inr ⟨hscx, ?_⟩
              have hji : j ≠ i := by
                intro hji
                subst hji
                rw [hw] at h5c
                have hwj : wj = w := Option.some_inj.mp h5c.symm
                apply hcye
                rw [← h6c, hwj]
              rcases List.mem_cons.mp hmem with he | hm
              · exact absurd he hji
              · exact hm
    have hcx1 : ∀ c, g1.getComp cx = some c → h1.getComp cx = some c := by
      intro c hc
      by_cases hcye : cx = w.end_comp
      · rw [hcye] at hc
        rw [hdstg] at hc
        have hcd : c = dstg := Option.some_inj.mp hc.symm
        subst hcd
        rw [hcye]
        exact hdst1
      · rw [hcomfr cx hcye]
        exact hcx c hc
    obtain ⟨h', hfold, hinvf, hcxf⟩ :=
      ih h1 hinv1 (fun i2 hi2 => hidx i2 (List.mem_cons_of_mem i hi2)) hcx1
    refine ⟨h', ?_, hinvf, hcxf⟩
    rw [List.foldlM_cons, hstep]
    exact hfold

/-- Replaying one whole `processNode` call of the second pass. -/
theorem processNode_replay {g1 g2 : CircuitGraph} {ord done rest : List Nat} {cx : Nat}
    (hWF1 : GraphWF g1)
    (hde1 : ∀ (j : Nat) (w0 : Wire), g1.edges[j]? = some w0 → TransmitDone g1 j)
    (hfix1 : ∀ (cz : Nat) (c : Comp), g1.getComp cz = some c → c.do_logic = some c)
    (hclk21 : ∀ cy, g1.isClockedAt cy = g2.isClockedAt cy)
    (hshape21 : g1.edges.map edgeShape = g2.edges.map edgeShape)
    (hsort : ∀ l1 v l2, ord = l1 ++ v :: l2 → ∀ w ∈ filteredEdges g2,
      w.end_comp = v → w.start_comp ∉ v :: l2)
    (hord : ord = done ++ cx :: rest)
    (hmem : cx ∈ g1.ids)
    {h : CircuitGraph}
    (hinv : ReplayInv g1 h (fun _ s => s ∈ cx :: rest)) :
    ∃ h', processNode h cx = some h' ∧ ReplayInv g1 h' (fun _ s => s ∈ rest) := by
  obtain ⟨hids, hlen, hslots, hcomps⟩ := hinv
  obtain ⟨c, hc⟩ := getComp_isSome_of_mem hmem
  have hclean : h.getComp cx = some c := by
    rcases hcomps cx c hc with hl |
      ⟨c', j, wj, _, _, _, hclkf, hwj, hwjend, hPj, _, _⟩
    · exact hl
    · exfalso
      obtain ⟨w2, hw2, hwsh⟩ := edgeAt_of_shape hshape21 hwj
      obtain ⟨hs2, _, he2, _, _, _⟩ := edgeShape_fields hwsh
      have hmemF : w2 ∈ filteredEdges g2 := by
        unfold filteredEdges
        rw [List.mem_filter]
        refine ⟨List.getElem?_mem hw2, ?_⟩
        have hend2 : w2.end_comp = cx := by rw [← he2]; exact hwjend
        rw [hend2, ← hclk21 cx, hclkf]
        rfl
      have hnot := hsort done cx rest hord w2 hmemF (by rw [← he2]; exact hwjend)
      apply hnot
      rw [← hs2]
      exact hPj
  have hdl : c.do_logic = some c := hfix1 cx c hc
  have hndh : h.ids.Nodup := by rw [hids]; exact hWF1.1
  have hidx : ∀ i ∈ outEdgeIdx h cx, ∃ w, g1.edges[i]? = some w ∧ w.start_comp = cx := by
    intro i hi
    obtain ⟨wh, hwh, hsh⟩ := outEdgeIdx_mem hi
    have hi_lt : i < g1.edges.length := by rw [← hlen]; exact getElem?_lt hwh
    obtain ⟨w0, hw0⟩ : ∃ w0, g1.edges[i]? = some w0 := by
      cases hg : g1.edges[i]? with
      | none =>
        exfalso
        rw [List.getElem?_eq_getElem hi_lt] at hg
        cases hg
      | some w0 => exact ⟨w0, rfl⟩
    refine ⟨w0, hw0, ?_⟩
    rcases hslots i w0 hw0 with hl | ⟨_, w', hw', hsh', _⟩
    · rw [hl] at hwh
      have : w0 = wh := Option.some_inj.mp hwh
      rw [this]
      exact hsh
    · rw [hw'] at hwh
      have hww : w' = wh := Option.some_inj.mp hwh
      obtain ⟨hs', _, _, _, _, _⟩ := edgeShape_fields hsh'
      rw [← hs', hww]
      exact hsh
  have hinvP : ReplayInv g1 h (fun j s => s ∈ rest ∨ (s = cx ∧ j ∈ outEdgeIdx h cx)) := by
    refine ⟨hids, hlen, ?_, ?_⟩
    · intro j w0 hw0
      rcases hslots j w0 hw0 with hl | ⟨hP, w', hw', hsh', hval'⟩
      · exact Or.inl hl
      · refine Or.inr ⟨?_, w', hw', hsh', hval'⟩
        rcases List.mem_cons.mp hP with hscx | hm
        · refine Or.inr ⟨hscx, ?_⟩
          obtain ⟨hs', _, _, _, _, _⟩ := edgeShape_fields hsh'
          exact mem_outEdgeIdx hw' (by rw [hs', hscx])
        · exact Or.inl hm
    · intro cy c0 hc0
      rcases hcomps cy c0 hc0 with hl |
        ⟨c', j, wj, h1c, h2c, h3c, h4c, h5c, h6c, hP, h8c, h9c⟩
      · exact Or.inl hl
      · refine Or.inr ⟨c', j, wj, h1c, h2c, h3c, h4c, h5c, h6c, ?_, h8c, h9c⟩
        rcases List.mem_cons.mp hP with hscx | hm
        · refine Or.inr ⟨hscx, ?_⟩
          rcases hslots j wj h5c with hl2 | ⟨_, w', hw', hsh', _⟩
          · exact mem_outEdgeIdx hl2 (by rw [hscx])
          · obtain ⟨hs', _, _, _, _, _⟩ := edgeShape_fields hsh'
            exact mem_outEdgeIdx hw' (by rw [hs', hscx])
        · exact Or.inl hm
  obtain ⟨h', hfold, hinv', _⟩ :=
    transmit_replay_fold hWF1 hde1 (outEdgeIdx h cx) h hinvP hidx
      (fun c0 hc0 => by
        rw [hc] at hc0
        have : c0 = c := Option.some_inj.mp hc0.symm
        rw [this]
        exact hclean)
  refine ⟨h', ?_, hinv'⟩
  unfold processNode
  simp only [Option.bind_eq_bind]
  rw [hclean, Option.some_bind, hdl, Option.some_bind, setComp_stable hndh hclean]
  exact hfold

/-- Replaying the whole second-pass fold: it terminates exactly on the
first-pass result. -/
theorem pass_replay {g1 g2 : CircuitGraph} {ord : List Nat}
    (hWF1 : GraphWF g1)
    (hde1 : ∀ (j : Nat) (w0 : Wire), g1.edges[j]? = some w0 → TransmitDone g1 j)
    (hfix1 : ∀ (cz : Nat) (c : Comp), g1.getComp cz = some c → c.do_logic = some c)
    (hclk21 : ∀ cy, g1.isClockedAt cy = g2.isClockedAt cy)
    (hshape21 : g1.edges.map edgeShape = g2.edges.map edgeShape)
    (hsort : ∀ l1 v l2, ord = l1 ++ v :: l2 → ∀ w ∈ filteredEdges g2,
      w.end_comp = v → w.start_comp ∉ v :: l2) :
    ∀ (done todo : List Nat) (h : CircuitGraph),
      ord = done ++ todo →
      (∀ v ∈ todo, v ∈ g1.ids) →
      ReplayInv g1 h (fun _ s => s ∈ todo) →
      todo.foldlM processNode h = some g1 := by
  intro done todo
  induction todo generalizing done with
  | nil =>
    intro h _ _ hinv
    obtain ⟨hids, hlen, hslots, hcomps⟩ := hinv
    have hedges : h.edges = g1.edges := by
      apply List.ext_getElem?
      intro j
      cases hg : g1.edges[j]? with
      | none =>
        have hj : g1.edges.length ≤ j := by
          by_contra hlt
          rw [List.getElem?_eq_getElem (by omega)] at hg
          cases hg
        exact List.getElem?_eq_none (by omega)
      | some w0 =>
        rcases hslots j w0 hg with hl | ⟨hP, _⟩
        · exact hl
        · exact absurd hP (List.not_mem_nil _)
    have hnodes : h.nodes = g1.nodes := by
      apply nodes_eq_of_getComp hWF1.1 hids
      intro cy c0 hc0
      rcases hcomps cy c0 hc0 with hl | ⟨_, _, wj, _, _, _, _, _, _, hP, _, _⟩
      · exact hl
      · exact absurd hP (List.not_mem_nil _)
    rw [circuit_eq_of_parts hnodes hedges]
    rfl
  | cons cx rest ih =>
    intro h hord hmemall hinv
    obtain ⟨h', hstep, hinv'⟩ :=
      processNode_replay hWF1 hde1 hfix1 hclk21 hshape21 hsort hord
        (hmemall cx (List.mem_cons_self cx rest)) hinv
    have hfold := ih (done ++ [cx]) h' (by rw [hord]; simp)
      (fun v hv => hmemall v (List.mem_cons_of_mem cx hv)) hinv'
    rw [List.foldlM_cons, hstep]
    exact hfold

/-- Case split of one `addTunnelFor` iteration. -/
theorem addTunnelFor_dissect {G G' : CircuitGraph} {t : TunnelMembers}
    (h : addTunnelFor G t = some G') :
    (t.is_valid = true ∧ ∃ s c db, t.senders.head? = some s ∧ G.getComp s = some c ∧
      c.get_pin_width (PinIndex.Output 0) = some db ∧
      G' = { G with edges :=
        G.edges ++ t.receivers.map (fun ec => Wire.new s 0 ec 0 db true) }) ∨
    (t.is_valid = false ∧
      t.receivers.foldlM (fun h ec => do
        let c ← h.getComp ec
        let c' ← c.set_pin_value (PinIndex.Output 0) none
        some (h.setComp ec c')) G = some G') := by
  unfold addTunnelFor at h
  cases hv : t.is_valid with
  | true =>
    rw [hv, if_pos rfl] at h
    simp only [Option.bind_eq_bind] at h
    cases hhd : t.senders.head? with
    | none => rw [hhd] at h; cases h
    | some s =>
      rw [hhd, Option.some_bind] at h
      cases hgc : G.getComp s with
      | none => rw [hgc] at h; cases h
      | some c =>
        rw [hgc, Option.some_bind] at h
        cases hwd : c.get_pin_width (PinIndex.Output 0) with
        | none => rw [hwd] at h; cases h
        | some db =>
          rw [hwd, Option.some_bind] at h
          exact Or.inl ⟨rfl, s, c, db, rfl, hgc, hwd, (Option.some_inj.mp h).symm⟩
  | false =>
    rw [hv, if_neg (by simp)] at h
    exact Or.inr ⟨rfl, h⟩

theorem forceStep_dissect {G G' : CircuitGraph} {ec : Nat}
    (h : (do
        let c ← G.getComp ec
        let c' ← c.set_pin_value (PinIndex.Output 0) none
        some (G.setComp ec c') : Option CircuitGraph) = some G') :
    ∃ c c', G.getComp ec = some c ∧ c.set_pin_value (PinIndex.Output 0) none = some c' ∧
      G' = G.setComp ec c' := by
  simp only [Option.bind_eq_bind] at h
  cases hc : G.getComp ec with
  | none => rw [hc] at h; cases h
  | some c =>
    rw [hc, Option.some_bind] at h
    cases hset : c.set_pin_value (PinIndex.Output 0) none with
    | none => rw [hset] at h; cases h
    | some c' =>
      rw [hset, Option.some_bind] at h
      exact ⟨c, c', rfl, hset, (Option.some_inj.mp h).symm⟩

/-- Forcing the receivers of an invalid net: id and edge lists are untouched
and every component keeps its pin widths and clockedness. -/
theorem force_fold_maps : ∀ (rs : List Nat) (G G' : CircuitGraph),
    rs.foldlM (fun h ec => do
      let c ← h.getComp ec
      let c' ← c.set_pin_value (PinIndex.Output 0) none
      some (h.setComp ec c')) G = some G' →
    G'.ids = G.ids ∧ G'.edges = G.edges ∧
    (∀ cy c, G.getComp cy = some c → ∃ c', G'.getComp cy = some c' ∧
      (∀ qx, c'.get_pin_width qx = c.get_pin_width qx) ∧
      c'.is_clocked = c.is_clocked) := by
  intro rs
  induction rs with
  | nil =>
    intro G G' h
    cases h
    exact ⟨rfl, rfl, fun cy c hc => ⟨c, hc, fun qx => rfl, rfl⟩⟩
  | cons ec rs ih =>
    intro G G' h
    rw [List.foldlM_cons] at h
    cases hstep : (do
        let c ← G.getComp ec
        let c' ← c.set_pin_value (PinIndex.Output 0) none
        some (G.setComp ec c') : Option CircuitGraph) with
    | none => rw [hstep] at h; cases h
    | some G1 =>
      rw [hstep] at h
      have h2 : rs.foldlM (fun h ec => do
          let c ← h.getComp ec
          let c' ← c.set_pin_value (PinIndex.Output 0) none
          some (h.setComp ec c')) G1 = some G' := h
      obtain ⟨c, c', hc, hset, hG1⟩ := forceStep_dissect hstep
      subst hG1
      obtain ⟨hids, hedges, hmaps⟩ := ih _ _ h2
      refine ⟨by rw [hids, setComp_ids], by rw [hedges, setComp_edges], ?_⟩
      intro cy c0 h0
      obtain ⟨c1, h1, hw1, hk1⟩ := setComp_maps hc (Comp.set_pin_value_width hset)
        (Comp.set_pin_value_clocked hset) cy c0 h0
      obtain ⟨c2, h2', hw2, hk2⟩ := hmaps cy c1 h1
      exact ⟨c2, h2', fun qx => by rw [hw2, hw1], by rw [hk2, hk1]⟩

/-- After forcing, every listed receiver reads absent at `Output 0`. -/
theorem force_fold_none : ∀ (rs : List Nat) (G G' : CircuitGraph),
    rs.foldlM (fun h ec => do
      let c ← h.getComp ec
      let c' ← c.set_pin_value (PinIndex.Output 0) none
      some (h.setComp ec c')) G = some G' →
    ∀ r, (r ∈ rs ∨ (∃ c, G.getComp r = some c ∧
        c.get_pin_value (PinIndex.Output 0) = some none)) →
      ∃ c', G'.getComp r = some c' ∧
        c'.get_pin_value (PinIndex.Output 0) = some none := by
  intro rs
  induction rs with
  | nil =>
    intro G G' h r hr
    cases h
    rcases hr with hr | hr
    · exact absurd hr (List.not_mem_nil _)
    · exact hr
  | cons ec rs ih =>
    intro G G' h r hr
    rw [List.foldlM_cons] at h
    cases hstep : (do
        let c ← G.getComp ec
        let c' ← c.set_pin_value (PinIndex.Output 0) none
        some (G.setComp ec c') : Option CircuitGraph) with
    | none => rw [hstep] at h; cases h
    | some G1 =>
      rw [hstep] at h
      have h2 : rs.foldlM (fun h ec => do
          let c ← h.getComp ec
          let c' ← c.set_pin_value (PinIndex.Output 0) none
          some (h.setComp ec c')) G1 = some G' := h
      obtain ⟨c, c', hc, hset, hG1⟩ := forceStep_dissect hstep
      subst hG1
      apply ih _ _ h2
      by_cases hrec : r = ec
      · subst hrec
        exact Or.inr ⟨c', getComp_setComp_self hc, Comp.set_out0_get hset⟩
      · rcases hr with hr | ⟨c0, hc0, hget0⟩
        · rcases List.mem_cons.mp hr with he | hm
          · exact absurd he hrec
          · exact Or.inl hm
        · refine Or.inr ⟨c0, ?_, hget0⟩
          rw [getComp_setComp_ne (fun he => hrec he.symm)]
          exact hc0

/-- Tunnel regeneration preserves every component's pin widths and
clockedness, and all node ids. -/
theorem atc_maps : ∀ (ts : List (String × TunnelMembers)) (G G2 : CircuitGraph),
    ts.foldlM (fun h p => addTunnelFor h p.2) G = some G2 →
    G2.ids = G.ids ∧
    (∀ cy c, G.getComp cy = some c → ∃ c', G2.getComp cy = some c' ∧
      (∀ qx, c'.get_pin_width qx = c.get_pin_width qx) ∧
      c'.is_clocked = c.is_clocked) := by
  intro ts
  induction ts with
  | nil =>
    intro G G2 h
    cases h
    exact ⟨rfl, fun cy c hc => ⟨c, hc, fun qx => rfl, rfl⟩⟩
  | cons p ts ih =>
    intro G G2 h
    rw [List.foldlM_cons] at h
    cases hstep : addTunnelFor G p.2 with
    | none => rw [hstep] at h; cases h
    | some G1 =>
      rw [hstep] at h
      have h2 : ts.foldlM (fun h p => addTunnelFor h p.2) G1 = some G2 := h
      have hstep1 : G1.ids = G.ids ∧
          (∀ cy c, G.getComp cy = some c → ∃ c', G1.getComp cy = some c' ∧
            (∀ qx, c'.get_pin_width qx = c.get_pin_width qx) ∧
            c'.is_clocked = c.is_clocked) := by
        rcases addTunnelFor_dissect hstep with ⟨_, s, c, db, _, _, _, hG1⟩ | ⟨_, hforce⟩
        · subst hG1
          exact ⟨rfl, fun cy c0 hc0 => ⟨c0, hc0, fun qx => rfl, rfl⟩⟩
        · obtain ⟨hi, _, hm⟩ := force_fold_maps _ _ _ hforce
          exact ⟨hi, hm⟩
      obtain ⟨hids1, hmaps1⟩ := hstep1
      obtain ⟨hids2, hmaps2⟩ := ih _ _ h2
      refine ⟨by rw [hids2, hids1], ?_⟩
      intro cy c hc
      obtain ⟨c1, h1, hw1, hk1⟩ := hmaps1 cy c hc
      obtain ⟨c2, h2', hw2, hk2⟩ := hmaps2 cy c1 h1
      exact ⟨c2, h2', fun qx => by rw [hw2, hw1], by rw [hk2, hk1]⟩

/-- Regeneration never revives a pin that reads absent at `Output 0`. -/
theorem atc_none_mono : ∀ (ts : List (String × TunnelMembers)) (G G2 : CircuitGraph),
    ts.foldlM (fun h p => addTunnelFor h p.2) G = some G2 →
    ∀ r c, G.getComp r = some c → c.get_pin_value (PinIndex.Output 0) = some none →
      ∃ c', G2.getComp r = some c' ∧
        c'.get_pin_value (PinIndex.Output 0) = some none := by
  intro ts
  induction ts with
  | nil =>
    intro G G2 h r c hc hg
    cases h
    exact ⟨c, hc, hg⟩
  | cons p ts ih =>
    intro G G2 h r c hc hg
    rw [List.foldlM_cons] at h
    cases hstep : addTunnelFor G p.2 with
    | none => rw [hstep] at h; cases h
    | some G1 =>
      rw [hstep] at h
      have h2 : ts.foldlM (fun h p => addTunnelFor h p.2) G1 = some G2 := h
      rcases addTunnelFor_dissect hstep with ⟨_, s, c1, db, _, _, _, hG1⟩ | ⟨_, hforce⟩
      · subst hG1
        exact ih _ _ h2 r c hc hg
      · obtain ⟨c1, h1, hg1⟩ := force_fold_none _ _ _ hforce r (Or.inr ⟨c, hc, hg⟩)
        exact ih _ _ h2 r c1 h1 hg1

/-- After regeneration, every receiver of an invalid net reads absent. -/
theorem atc_forced_none : ∀ (ts : List (String × TunnelMembers)) (G G2 : CircuitGraph),
    ts.foldlM (fun h p => addTunnelFor h p.2) G = some G2 →
    ∀ lt, lt ∈ ts → lt.2.is_valid = false → ∀ r, r ∈ lt.2.receivers →
      ∃ c, G2.getComp r = some c ∧
        c.get_pin_value (PinIndex.Output 0) = some none := by
  intro ts
  induction ts with
  | nil =>
    intro G G2 _ lt hlt
    exact absurd hlt (List.not_mem_nil _)
  | cons p ts ih =>
    intro G G2 h lt hlt hval r hr
    rw [List.foldlM_cons] at h
    cases hstep : addTunnelFor G p.2 with
    | none => rw [hstep] at h; cases h
    | some G1 =>
      rw [hstep] at h
      have h2 : ts.foldlM (fun h p => addTunnelFor h p.2) G1 = some G2 := h
      rcases List.mem_cons.mp hlt with he | hm
      · subst he
        rcases addTunnelFor_dissect hstep with ⟨hv, _⟩ | ⟨_, hforce⟩
        · rw [hval] at hv
          cases hv
        · obtain ⟨c1, h1, hg1⟩ := force_fold_none _ _ _ hforce r (Or.inl hr)
          exact atc_none_mono _ _ _ h2 r c1 h1 hg1
      · exact ih _ _ h2 lt hm hval r hr

/-- Forcing replays on the second pass: the same receivers are forced and
every other component is untouched. -/
theorem force_fold_pair : ∀ (rs : List Nat) (G H G' : CircuitGraph),
    rs.foldlM (fun h ec => do
      let c ← h.getComp ec
      let c' ← c.set_pin_value (PinIndex.Output 0) none
      some (h.setComp ec c')) G = some G' →
    (∀ cy c, G.getComp cy = some c → ∃ c', H.getComp cy = some c' ∧
      (∀ qx, c'.get_pin_width qx = c.get_pin_width qx)) →
    ∃ H', rs.foldlM (fun h ec => do
      let c ← h.getComp ec
      let c' ← c.set_pin_value (PinIndex.Output 0) none
      some (h.setComp ec c')) H = some H' ∧
      H'.ids = H.ids ∧ H'.edges = H.edges ∧
      (∀ cy c, G'.getComp cy = some c → ∃ c', H'.getComp cy = some c' ∧
        (∀ qx, c'.get_pin_width qx = c.get_pin_width qx)) ∧
      (∀ cy c, H.getComp cy = some c → ∃ c', H'.getComp cy = some c' ∧
        (c' = c ∨ (c.set_pin_value (PinIndex.Output 0) none = some c' ∧ cy ∈ rs)) ∧
        (∀ qx, c'.get_pin_width qx = c.get_pin_width qx) ∧
        c'.is_clocked = c.is_clocked) := by
  intro rs
  induction rs with
  | nil =>
    intro G H G' h hmap
    cases h
    exact ⟨H, rfl, rfl, rfl, hmap,
      fun cy c hc => ⟨c, hc, Or.inl rfl, fun qx => rfl, rfl⟩⟩
  | cons ec rs ih =>
    intro G H G' h hmap
    rw [List.foldlM_cons] at h
    cases hstep : (do
        let c ← G.getComp ec
        let c' ← c.set_pin_value (PinIndex.Output 0) none
        some (G.setComp ec c') : Option CircuitGraph) with
    | none => rw [hstep] at h; cases h
    | some G1 =>
      rw [hstep] at h
      have h2 : rs.foldlM (fun h ec => do
          let c ← h.getComp ec
          let c' ← c.set_pin_value (PinIndex.Output 0) none
          some (h.setComp ec c')) G1 = some G' := h
      obtain ⟨cg, cg', hcg, hsetg, hG1⟩ := forceStep_dissect hstep
      subst hG1
      obtain ⟨ch, hch, hwch⟩ := hmap ec cg hcg
      obtain ⟨wd, hwd⟩ := Comp.set_out0_some_width hsetg
      have hwdh : ch.get_pin_width (PinIndex.Output 0) = some wd := by
        rw [hwch]
        exact hwd
      obtain ⟨ch', hseth⟩ := Comp.set_out0_none_ok hwdh
      have hmap1 : ∀ cy c, (G.setComp ec cg').getComp cy = some c →
          ∃ c', (H.setComp ec ch').getComp cy = some c' ∧
            (∀ qx, c'.get_pin_width qx = c.get_pin_width qx) := by
        intro cy c hc
        by_cases hcy : cy = ec
        · subst hcy
          rw [getComp_setComp_self hcg] at hc
          have hcc : c = cg' := Option.some_inj.mp hc.symm
          subst hcc
          refine ⟨ch', getComp_setComp_self hch, ?_⟩
          intro qx
          rw [Comp.set_pin_value_width hseth, hwch,
            ← Comp.set_pin_value_width hsetg]
        · rw [getComp_setComp_ne (fun he => hcy he.symm)] at hc
          obtain ⟨c', h', hw'⟩ := hmap cy c hc
          refine ⟨c', ?_, hw'⟩
          rw [getComp_setComp_ne (fun he => hcy he.symm)]
          exact h'
      obtain ⟨H', hHfold, hids', hedges', hmapf, htrackf⟩ := ih _ _ _ h2 hmap1
      refine ⟨H', ?_, by rw [hids', setComp_ids], by rw [hedges', setComp_edges],
        hmapf, ?_⟩
      · rw [List.foldlM_cons]
        have hstepH : (do
            let c ← H.getComp ec
            let c' ← c.set_pin_value (PinIndex.Output 0) none
            some (H.setComp ec c') : Option CircuitGraph) = some (H.setComp ec ch') := by
          simp only [Option.bind_eq_bind]
          rw [hch, Option.some_bind, hseth, Option.some_bind]
        rw [hstepH]
        exact hHfold
      · intro cy c hc
        by_cases hcy : cy = ec
        · subst hcy
          rw [hch] at hc
          have hcc : c = ch := Option.some_inj.mp hc.symm
          subst hcc
          obtain ⟨c2, h2', hdisj, hw2, hk2⟩ := htrackf cy ch' (getComp_setComp_self hch)
          refine ⟨c2, h2', ?_, ?_, ?_⟩
          · rcases hdisj with rfl | ⟨hset2, _⟩
            · exact Or.inr ⟨hseth, List.mem_cons_self _ _⟩
            · have hstable : ch'.set_pin_value (PinIndex.Output 0) none = some ch' :=
                Comp.set_pin_value_stable (Comp.set_out0_get hseth)
              rw [hstable] at hset2
              have hc2 : c2 = ch' := Option.some_inj.mp hset2.symm
              subst hc2
              exact Or.inr ⟨hseth, List.mem_cons_self _ _⟩
          · intro qx
            rw [hw2, Comp.set_pin_value_width hseth]
          · rw [hk2, Comp.set_pin_value_clocked hseth]
        · have hc1 : (H.setComp ec ch').getComp cy = some c := by
            rw [getComp_setComp_ne (fun he => hcy he.symm)]
            exact hc
          obtain ⟨c2, h2', hdisj, hw2, hk2⟩ := htrackf cy c hc1
          refine ⟨c2, h2', ?_, hw2, hk2⟩
          rcases hdisj with rfl | ⟨hset2, hmem⟩
          · exact Or.inl rfl
          · exact Or.inr ⟨hset2, List.mem_cons_of_mem _ hmem⟩

/-- The whole tunnel regeneration replays on the second pass: it succeeds,
appends the same virtual wires, and only re-forces the invalid receivers. -/
theorem atc_pair : ∀ (ts : List (String × TunnelMembers)) (G H G2 : CircuitGraph),
    ts.foldlM (fun h p => addTunnelFor h p.2) G = some G2 →
    (∀ cy c, G.getComp cy = some c → ∃ c', H.getComp cy = some c' ∧
      (∀ qx, c'.get_pin_width qx = c.get_pin_width qx)) →
    ∃ H2, ts.foldlM (fun h p => addTunnelFor h p.2) H = some H2 ∧
      H2.ids = H.ids ∧
      (∃ V, G2.edges = G.edges ++ V ∧ H2.edges = H.edges ++ V ∧
        ∀ w ∈ V, w.is_virtual = true ∧ w.value = none) ∧
      (∀ cy c, H.getComp cy = some c → ∃ c', H2.getComp cy = some c' ∧
        (c' = c ∨ (c.set_pin_value (PinIndex.Output 0) none = some c' ∧
          ∃ lt, lt ∈ ts ∧ lt.2.is_valid = false ∧ cy ∈ lt.2.receivers)) ∧
        (∀ qx, c'.get_pin_width qx = c.get_pin_width qx) ∧
        c'.is_clocked = c.is_clocked) := by
  intro ts
  induction ts with
  | nil =>
    intro G H G2 h hmap
    cases h
    exact ⟨H, rfl, rfl, ⟨[], by simp, by simp, by simp⟩,
      fun cy c hc => ⟨c, hc, Or.inl rfl, fun qx => rfl, rfl⟩⟩
  | cons p ts ih =>
    intro G H G2 h hmap
    rw [List.foldlM_cons] at h
    cases hstep : addTunnelFor G p.2 with
    | none => rw [hstep] at h; cases h
    | some G1 =>
      rw [hstep] at h
      have h2 : ts.foldlM (fun h p => addTunnelFor h p.2) G1 = some G2 := h
      rcases addTunnelFor_dissect hstep with
        ⟨hv, s, c, db, hhd, hgc, hwd, hG1⟩ | ⟨hv, hforce⟩
      · subst hG1
        obtain ⟨ch, hch, hwch⟩ := hmap s c hgc
        have hwdh : ch.get_pin_width (PinIndex.Output 0) = some db := by
          rw [hwch]
          exact hwd
        have hstepH : addTunnelFor H p.2 = some { H with edges := H.edges ++ p.2.receivers.map (fun ec => Wire.new s 0 ec 0 db true) } := by
          unfold addTunnelFor
          rw [hv, if_pos rfl]
          simp only [Option.bind_eq_bind]
          rw [hhd, Option.some_bind, hch, Option.some_bind, hwdh, Option.some_bind]
        obtain ⟨H2, hHfold, hids2, ⟨V, hVG, hVH, hVprops⟩, htrack⟩ :=
          ih ({ G with edges := G.edges ++ p.2.receivers.map (fun ec => Wire.new s 0 ec 0 db true) }) ({ H with edges := H.edges ++ p.2.receivers.map (fun ec => Wire.new s 0 ec 0 db true) }) G2 h2 (fun cy c0 hc0 => hmap cy c0 hc0)
        refine ⟨H2, ?_, hids2, ?_, ?_⟩
        · rw [List.foldlM_cons, hstepH]
          exact hHfold
        · refine ⟨p.2.receivers.map (fun ec => Wire.new s 0 ec 0 db true) ++ V,
            ?_, ?_, ?_⟩
          · rw [← List.append_assoc]
            exact hVG
          · rw [← List.append_assoc]
            exact hVH
          · intro w hw
            rcases List.mem_append.mp hw with hm | hm
            · obtain ⟨ec, _, hwe⟩ := List.mem_map.mp hm
              subst hwe
              exact ⟨rfl, rfl⟩
            · exact hVprops w hm
        · intro cy c0 hc0
          obtain ⟨c2, h2', hdisj, hw2, hk2⟩ := htrack cy c0 hc0
          refine ⟨c2, h2', ?_, hw2, hk2⟩
          rcases hdisj with rfl | ⟨hset2, lt, hlt, hvl, hrecv⟩
          · exact Or.inl rfl
          · exact Or.inr ⟨hset2, lt, List.mem_cons_of_mem p hlt, hvl, hrecv⟩
      · obtain ⟨H1', hHfold1, hids1, hedges1, hmapf1, htrack1⟩ :=
          force_fold_pair _ _ _ _ hforce hmap
        obtain ⟨_, hGedges, _⟩ := force_fold_maps _ _ _ hforce
        obtain ⟨H2, hHfold, hids2, ⟨V, hVG, hVH, hVprops⟩, htrack⟩ :=
          ih G1 H1' G2 h2 hmapf1
        refine ⟨H2, ?_, by rw [hids2, hids1], ⟨V, ?_, ?_, hVprops⟩, ?_⟩
        · rw [List.foldlM_cons]
          have hstepH : addTunnelFor H p.2 = some H1' := by
            unfold addTunnelFor
            rw [hv, if_neg (by simp)]
            exact hHfold1
          rw [hstepH]
          exact hHfold
        · rw [hVG, hGedges]
        · rw [hVH, hedges1]
        · intro cy c0 hc0
          obtain ⟨c1, h1, hd1, hw1, hk1⟩ := htrack1 cy c0 hc0
          obtain ⟨c2, h2', hd2, hw2, hk2⟩ := htrack cy c1 h1
          refine ⟨c2, h2', ?_, fun qx => by rw [hw2, hw1], by rw [hk2, hk1]⟩
          rcases hd1 with rfl | ⟨hset1, hmem1⟩
          · rcases hd2 with rfl | ⟨hset2, lt, hlt, hvl, hrecv⟩
            · exact Or.inl rfl
            · exact Or.inr ⟨hset2, lt, List.mem_cons_of_mem p hlt, hvl, hrecv⟩
          · rcases hd2 with rfl | ⟨hset2, lt, hlt, hvl, hrecv⟩
            · exact Or.inr ⟨hset1, p, List.mem_cons_self _ _, hv, hmem1⟩
            · have hstable : c1.set_pin_value (PinIndex.Output 0) none = some c1 :=
                Comp.set_pin_value_stable (Comp.set_out0_get hset1)
              rw [hstable] at hset2
              have hc2 : c2 = c1 := Option.some_inj.mp hset2.symm
              subst hc2
              exact Or.inr ⟨hset1, p, List.mem_cons_self _ _, hv, hmem1⟩

/-- One transmit only rewrites the target component, through `set_pin_value`. -/
theorem transmitAt_comp_update {g g' : CircuitGraph} {cx i : Nat}
    (hp : transmitAt g cx i = some g') {r : Nat} {c0 : Comp}
    (hr : g.getComp r = some c0) :
    ∃ c1, g'.getComp r = some c1 ∧
      (c1 = c0 ∨ ∃ px v, c0.set_pin_value px v = some c1) := by
  unfold transmitAt at hp
  simp only [Option.bind_eq_bind] at hp
  cases hw : g.edges[i]? with
  | none => rw [hw] at hp; cases hp
  | some w =>
    rw [hw, Option.some_bind] at hp
    cases hsrc : g.getComp cx with
    | none => rw [hsrc] at hp; cases hp
    | some src =>
      rw [hsrc, Option.some_bind] at hp
      cases hdst : g.getComp w.end_comp with
      | none => rw [hdst] at hp; cases hp
      | some dst =>
        rw [hdst, Option.some_bind] at hp
        cases hsw : src.get_pin_width (PinIndex.Output w.start_pin) with
        | none => rw [hsw] at hp; cases hp
        | some sw =>
          rw [hsw, Option.some_bind] at hp
          cases hdw : dst.get_pin_width (PinIndex.Input w.end_pin) with
          | none => rw [hdw] at hp; cases hp
          | some dw =>
            rw [hdw, Option.some_bind] at hp
            by_cases heq : sw = dw
            · rw [if_pos heq] at hp
              cases hsig : src.get_pin_value (PinIndex.Output w.start_pin) with
              | none => rw [hsig] at hp; cases hp
              | some sig =>
                rw [hsig, Option.some_bind] at hp
                cases hdset : dst.set_pin_value (PinIndex.Input w.end_pin) sig with
                | none => rw [hdset] at hp; cases hp
                | some dst' =>
                  rw [hdset, Option.some_bind] at hp
                  cases hwset : w.set_signal sig with
                  | none => rw [hwset] at hp; cases hp
                  | some w' =>
                    rw [hwset, Option.some_bind] at hp
                    cases hp
                    by_cases hre : r = w.end_comp
                    · subst hre
                      rw [hdst] at hr
                      have hcd : c0 = dst := Option.some_inj.mp hr.symm
                      subst hcd
                      refine ⟨dst', ?_, Or.inr ⟨_, _, hdset⟩⟩
                      show (g.setComp w.end_comp dst').getComp w.end_comp = some dst'
                      exact getComp_setComp_self hdst
                    · refine ⟨c0, ?_, Or.inl rfl⟩
                      show (g.setComp w.end_comp dst').getComp r = some c0
                      rw [getComp_setComp_ne (fun he => hre he.symm)]
                      exact hr
            · rw [if_neg heq] at hp
              cases hwset : w.set_signal none with
              | none => rw [hwset] at hp; cases hp
              | some w' =>
                rw [hwset, Option.some_bind] at hp
                cases hdset : dst.set_pin_value (PinIndex.Input w.end_pin) none with
                | none => rw [hdset] at hp; cases hp
                | some dst' =>
                  rw [hdset, Option.some_bind] at hp
                  cases hp
                  by_cases hre : r = w.end_comp
                  · subst hre
                    rw [hdst] at hr
                    have hcd : c0 = dst := Option.some_inj.mp hr.symm
                    subst hcd
                    refine ⟨dst', ?_, Or.inr ⟨_, _, hdset⟩⟩
                    show (g.setComp w.end_comp dst').getComp w.end_comp = some dst'
                    exact getComp_setComp_self hdst
                  · refine ⟨c0, ?_, Or.inl rfl⟩
                    show (g.setComp w.end_comp dst').getComp r = some c0
                    rw [getComp_setComp_ne (fun he => hre he.symm)]
                    exact hr

/-- `processNode` keeps a tunnel a tunnel. -/
theorem processNode_tunnel {h h' : CircuitGraph} {cx : Nat}
    (hp : processNode h cx = some h') {r : Nat} {t : Tunnel}
    (hr : h.getComp r = some (Comp.tunnel t)) :
    ∃ t', h'.getComp r = some (Comp.tunnel t') := by
  unfold processNode at hp
  simp only [Option.bind_eq_bind] at hp
  cases hc : h.getComp cx with
  | none => rw [hc] at hp; cases hp
  | some c =>
    rw [hc, Option.some_bind] at hp
    cases hdl : c.do_logic with
    | none => rw [hdl] at hp; cases hp
    | some c' =>
      rw [hdl, Option.some_bind] at hp
      have haux : ∀ (idxs : List Nat) (g0 : CircuitGraph) (t0 : Tunnel),
          g0.getComp r = some (Comp.tunnel t0) →
          idxs.foldlM (fun x j => transmitAt x cx j) g0 = some h' →
          ∃ t', h'.getComp r = some (Comp.tunnel t') := by
        intro idxs
        induction idxs with
        | nil =>
          intro g0 t0 h0 hf
          cases hf
          exact ⟨t0, h0⟩
        | cons j js ihx =>
          intro g0 t0 h0 hf
          rw [List.foldlM_cons] at hf
          cases hstep : transmitAt g0 cx j with
          | none => rw [hstep] at hf; cases hf
          | some g1 =>
            rw [hstep] at hf
            have hf2 : js.foldlM (fun x j => transmitAt x cx j) g1 = some h' := hf
            obtain ⟨c1, h1', hd⟩ := transmitAt_comp_update hstep h0
            rcases hd with rfl | ⟨px, v, hset⟩
            · exact ihx g1 t0 h1' hf2
            · obtain ⟨t1, ht1⟩ := Comp.set_pin_value_tunnel_t hset
              subst ht1
              exact ihx g1 t1 h1' hf2
      by_cases hcr : cx = r
      · subst hcr
        rw [hc] at hr
        have hct : c = Comp.tunnel t := Option.some_inj.mp hr
        subst hct
        have hcc : c' = Comp.tunnel t := by
          have hdl2 : (Comp.tunnel t).do_logic = some (Comp.tunnel t) := rfl
          rw [hdl2] at hdl
          exact (Option.some_inj.mp hdl).symm
        subst hcc
        exact haux _ _ t (getComp_setComp_self hc) hp
      · refine haux _ _ t ?_ hp
        rw [getComp_setComp_ne hcr]
        exact hr

/-- The whole pass keeps a tunnel a tunnel. -/
theorem pass_tunnel {ord : List Nat} :
    ∀ {g2 g1 : CircuitGraph}, ord.foldlM processNode g2 = some g1 →
      ∀ {r : Nat} {t : Tunnel}, g2.getComp r = some (Comp.tunnel t) →
        ∃ t', g1.getComp r = some (Comp.tunnel t') := by
  induction ord with
  | nil =>
    intro g2 g1 h r t hr
    cases h
    exact ⟨t, hr⟩
  | cons cx rest ih =>
    intro g2 g1 h r t hr
    rw [List.foldlM_cons] at h
    cases hstep : processNode g2 cx with
    | none => rw [hstep] at h; cases h
    | some h1 =>
      rw [hstep] at h
      have h2 : rest.foldlM processNode h1 = some g1 := h
      obtain ⟨t1, ht1⟩ := processNode_tunnel hstep hr
      exact ih h2 ht1

theorem getElem?_append_lt {α : Type} {l1 l2 : List α} {n : Nat} (h : n < l1.length) :
    (l1 ++ l2)[n]? = l1[n]? := by
  rw [List.getElem?_append, if_pos h]

theorem getElem?_append_ge {α : Type} {l1 l2 : List α} {n : Nat} (h : l1.length ≤ n) :
    (l1 ++ l2)[n]? = l2[n - l1.length]? := by
  rw [List.getElem?_append, if_neg (by omega)]

theorem getElem?_take_lt {α : Type} {l : List α} {n i : Nat} (h : i < n) :
    (l.take n)[i]? = l[i]? := by
  rw [List.getElem?_take]
  simp [h]

/-- claim C8 (amended): a successful propagation pass is idempotent on any
circuit whose regenerated graph `g2` is width-coherent, has at most one wire
into each input pin, and whose tunnel context is coherent with the graph
(each invalid net's receivers are tunnel components, as the editor
maintains): the second pass regenerates the same virtual wires, re-forces
the same receivers, and reproduces the first pass's result exactly. -/
theorem C8_second_pass_amended {ctx : CircuitContext} {g g2 g1 : CircuitGraph}
    (hatc : add_tunnel_connections ctx (removeVirtual g) = some g2)
    (hWF : GraphWF g2)
    (hUF : ∀ (i j : Nat) (wi wj : Wire), g2.edges[i]? = some wi →
      g2.edges[j]? = some wj → wi.end_comp = wj.end_comp → wi.end_pin = wj.end_pin →
      i = j)
    (hrecv : ∀ lt, lt ∈ ctx.tunnels → lt.2.is_valid = false →
      ∀ r, r ∈ lt.2.receivers → ∃ t, g2.getComp r = some (Comp.tunnel t))
    (hrun : update_signals ctx g = some g1) :
    update_signals ctx g1 = some g1 := by
  unfold update_signals at hrun
  simp only [Option.bind_eq_bind] at hrun
  rw [hatc, Option.some_bind] at hrun
  cases hk : kahn (filteredEdges g2) g2.ids with
  | none =>
    rw [hk] at hrun
    cases hrun
  | some ord =>
    rw [hk, Option.some_bind] at hrun
    obtain ⟨hWF1, hids1, hshape1, hmaps1, hfix1', hde1⟩ := pass_final hWF hUF hk hrun
    have hfix1 : ∀ (cz : Nat) (c : Comp), g1.getComp cz = some c →
        c.do_logic = some c := by
      intro cz c hc
      refine hfix1' cz ?_ c hc
      rw [← hids1]
      exact List.mem_map.mpr ⟨(cz, c), getComp_eq_some hc, rfl⟩
    have hperm : ord.Perm g2.ids := kahnAux_perm hk
    have hsort := fun l1 v l2 hsp => kahnAux_sorted hk l1 v l2 hsp
    have hclkeq : ∀ cy, g1.isClockedAt cy = g2.isClockedAt cy :=
      fun cy => isClockedAt_of_maps hmaps1 hids1
    obtain ⟨hids20, hmaps02⟩ := atc_maps ctx.tunnels (removeVirtual g) g2 hatc
    have hmap0 : ∀ cy c, (removeVirtual g).getComp cy = some c →
        ∃ c', (removeVirtual g1).getComp cy = some c' ∧
          (∀ qx, c'.get_pin_width qx = c.get_pin_width qx) := by
      intro cy c hc
      obtain ⟨c2, h2, hw2, _⟩ := hmaps02 cy c hc
      obtain ⟨c1, h1, hw1, _⟩ := hmaps1 cy c2 h2
      exact ⟨c1, h1, fun qx => by rw [hw1, hw2]⟩
    obtain ⟨g2', hatc2, hids2', ⟨V, hVG, hVH, hVprops⟩, htrack⟩ :=
      atc_pair ctx.tunnels (removeVirtual g) (removeVirtual g1) g2 hatc hmap0
    have hlen21 : g1.edges.length = g2.edges.length := by
      have := congrArg List.length hshape1
      simpa using this
    have hlenG2 : g2.edges.length = (removeVirtual g).edges.length + V.length := by
      rw [hVG]
      simp
    have hnv0 : ∀ (j : Nat) (w : Wire), (removeVirtual g).edges[j]? = some w →
        w.is_virtual = false := by
      intro j w hw
      have hmem2 : w ∈ g.edges.filter (fun w => !w.is_virtual) := List.getElem?_mem hw
      have hpred := List.of_mem_filter hmem2
      simpa using hpred
    have hvirtAt : ∀ (j : Nat) (w : Wire), g1.edges[j]? = some w →
        ((!w.is_virtual) = true ↔ j < (removeVirtual g).edges.length) := by
      intro j w hw
      obtain ⟨w2, hw2, hwsh⟩ := edgeAt_of_shape hshape1 hw
      have hv6 := (edgeShape_fields hwsh).2.2.2.2.2
      by_cases hj : j < (removeVirtual g).edges.length
      · rw [hVG, getElem?_append_lt hj] at hw2
        have hnv : w2.is_virtual = false := hnv0 j w2 hw2
        rw [hv6, hnv]
        simp [hj]
      · rw [hVG, getElem?_append_ge (by omega)] at hw2
        have hvv : w2.is_virtual = true := (hVprops w2 (List.getElem?_mem hw2)).1
        rw [hv6, hvv]
        simp
        omega
    have hfilter : g1.edges.filter (fun w => !w.is_virtual) =
        g1.edges.take (removeVirtual g).edges.length :=
      filter_eq_take_of_split _ g1.edges _ hvirtAt
    have hrv1edges : (removeVirtual g1).edges =
        g1.edges.take (removeVirtual g).edges.length := hfilter
    have htake : (removeVirtual g1).edges.length = (removeVirtual g).edges.length := by
      rw [hrv1edges, List.length_take]
      omega
    have hlen2' : g2'.edges.length = g1.edges.length := by
      rw [hVH, List.length_append, htake]
      omega
    have hslot0 : ∀ j, SlotOK g1 g2' (fun _ s => s ∈ ord) j := by
      intro j w hw
      by_cases hj : j < (removeVirtual g).edges.length
      · refine Or.inl ?_
        rw [hVH, getElem?_append_lt (by rw [htake]; omega), hrv1edges,
          getElem?_take_lt hj]
        exact hw
      · obtain ⟨w2, hw2, hwsh⟩ := edgeAt_of_shape hshape1 hw
        have hjlen : j < g1.edges.length := getElem?_lt hw
        have hw2V : V[j - (removeVirtual g).edges.length]? = some w2 := by
          rw [hVG, getElem?_append_ge (by omega)] at hw2
          exact hw2
        refine Or.inr ⟨?_, w2, ?_, hwsh.symm,
          (hVprops w2 (List.getElem?_mem hw2V)).2⟩
        · obtain ⟨⟨srcx, hsrcx, _⟩, _, _⟩ := hWF.2.2 w2 (List.getElem?_mem hw2)
          rw [(edgeShape_fields hwsh).1]
          apply hperm.mem_iff.mpr
          exact List.mem_map.mpr ⟨(w2.start_comp, srcx), getComp_eq_some hsrcx, rfl⟩
        · rw [hVH, getElem?_append_ge (by rw [htake]; omega), htake]
          exact hw2V
    have hcomp0 : ∀ cy, CompOK g1 g2' (fun _ s => s ∈ ord) cy := by
      intro cy c hc
      obtain ⟨c', h', hdisj, hw', hk'⟩ := htrack cy c hc
      rcases hdisj with rfl | ⟨hforce, lt, hlt, hvl, hrecvmem⟩
      · exact Or.inl h'
      · obtain ⟨t0, ht0⟩ := hrecv lt hlt hvl cy hrecvmem
        obtain ⟨t1, ht1⟩ := pass_tunnel hrun ht0
        rw [hc] at ht1
        have hct : c = Comp.tunnel t1 := Option.some_inj.mp ht1
        subst hct
        have hforce2 : (Comp.tunnel t1).set_pin_value (PinIndex.Output 0) none =
            some (Comp.tunnel { t1 with value := { t1.value with signal := none } }) :=
          rfl
        rw [hforce2] at hforce
        have hc' : c' = Comp.tunnel { t1 with value := { t1.value with signal := none } } :=
          (Option.some_inj.mp hforce).symm
        subst hc'
        cases hsig : t1.value.signal with
        | none =>
          refine Or.inl ?_
          have heq : ({ t1.value with signal := none } : Pin) = t1.value := by
            rw [← hsig]
          rw [heq] at h'
          exact h'
        | some sv =>
          have hex : ∃ (j : Nat) (wj : Wire), g1.edges[j]? = some wj ∧
              wj.end_comp = cy := by
            by_contra hno
            have hnoin : ∀ w ∈ g2.edges, w.end_comp ≠ cy := by
              intro w hwm he
              apply hno
              obtain ⟨j, hwj0⟩ := List.mem_iff_getElem?.mp hwm
              obtain ⟨w1, hw1, hwsh0⟩ := edgeAt_of_shape hshape1.symm hwj0
              refine ⟨j, w1, hw1, ?_⟩
              rw [← (edgeShape_fields hwsh0).2.2.1]
              exact he
            obtain ⟨cg2, hcg2, hgetn⟩ :=
              atc_forced_none ctx.tunnels (removeVirtual g) g2 hatc lt hlt hvl cy hrecvmem
            rw [ht0] at hcg2
            have hcg2t : Comp.tunnel t0 = cg2 := Option.some_inj.mp hcg2
            rw [← hcg2t] at hgetn
            have ht0sig : t0.value.signal = none := by
              have h0 : (Comp.tunnel t0).get_pin_value (PinIndex.Output 0) =
                  some t0.value.signal := rfl
              rw [h0] at hgetn
              exact Option.some_inj.mp hgetn
            have hu := pass_untouched hWF.1 hrun ht0 rfl hnoin
            rw [hc] at hu
            have hinj := Option.some_inj.mp hu
            injection hinj with ht
            rw [ht, ht0sig] at hsig
            cases hsig
          obtain ⟨j, wj, hwj, hwjend⟩ := hex
          obtain ⟨wj2, hwj2, hwjsh⟩ := edgeAt_of_shape hshape1 hwj
          have hend2 : wj2.end_comp = cy := by
            rw [← (edgeShape_fields hwjsh).2.2.1]
            exact hwjend
          have hpin0 : ∀ (k : Nat) (wg : Wire), g2.edges[k]? = some wg →
              wg.end_comp = cy → wg.end_pin = 0 := by
            intro k wg hwg hewg
            obtain ⟨_, ⟨dstx, dwx, hdstx, hdwx⟩, _⟩ :=
              hWF.2.2 wg (List.getElem?_mem hwg)
            rw [hewg, ht0] at hdstx
            have hdx : Comp.tunnel t0 = dstx := Option.some_inj.mp hdstx
            cases hepc : wg.end_pin with
            | zero => rfl
            | succ n =>
              rw [hepc, ← hdx] at hdwx
              cases hdwx
          have hwjep : wj.end_pin = 0 := by
            rw [(edgeShape_fields hwjsh).2.2.2.1]
            exact hpin0 j wj2 hwj2 hend2
          have hsole : ∀ (k : Nat) (w2 : Wire), g1.edges[k]? = some w2 →
              w2.end_comp = cy → k = j := by
            intro k w2 hw2 he2
            obtain ⟨w2g, hw2g, hw2sh⟩ := edgeAt_of_shape hshape1 hw2
            have he2g : w2g.end_comp = cy := by
              rw [← (edgeShape_fields hw2sh).2.2.1]
              exact he2
            refine hUF k j w2g wj2 hw2g hwj2 (by rw [he2g, hend2]) ?_
            rw [hpin0 k w2g hw2g he2g, hpin0 j wj2 hwj2 hend2]
          have hclkf : g1.isClockedAt cy = false := by
            unfold CircuitGraph.isClockedAt
            rw [hc]
            rfl
          have hstartmem : wj.start_comp ∈ ord := by
            obtain ⟨⟨srcx, hsrcx, _⟩, _, _⟩ := hWF.2.2 wj2 (List.getElem?_mem hwj2)
            rw [(edgeShape_fields hwjsh).1]
            apply hperm.mem_iff.mpr
            exact List.mem_map.mpr ⟨(wj2.start_comp, srcx), getComp_eq_some hsrcx, rfl⟩
          refine Or.inr ⟨Comp.tunnel { t1 with value := { t1.value with signal := none } },
            j, wj, h', hforce2, Comp.set_pin_value_width hforce2, hclkf, hwj, hwjend,
            hstartmem, hsole, ?_⟩
          intro v hv
          have h0 : (Comp.tunnel t1).get_pin_value (PinIndex.Input wj.end_pin) =
              some t1.value.signal := by
            rw [hwjep]
            rfl
          rw [h0] at hv
          have hvv : t1.value.signal = v := Option.some_inj.mp hv
          rw [hwjep, ← hvv, hsig]
          have hstep2 : (Comp.tunnel { t1 with value := { t1.value with signal := none } }).set_pin_value (PinIndex.Input 0) (some sv) = some (Comp.tunnel { t1 with value := { t1.value with signal := some sv } }) := rfl
          rw [hstep2]
          refine congrArg some (congrArg Comp.tunnel ?_)
          rw [← hsig]
    have hclk2' : ∀ cy, g2'.isClockedAt cy = g2.isClockedAt cy := by
      intro cy
      unfold CircuitGraph.isClockedAt
      cases hgc : g2.getComp cy with
      | none =>
        have hnm : cy ∉ g2.ids := by
          intro hm
          obtain ⟨c0, hc0⟩ := getComp_isSome_of_mem hm
          rw [hc0] at hgc
          cases hgc
        have hn1 : g1.getComp cy = none := by
          apply getComp_none_of_not_mem
          rw [hids1]
          exact hnm
        have hn2 : g2'.getComp cy = none := by
          apply getComp_none_of_not_mem
          rw [hids2']
          show cy ∉ g1.ids
          intro hm
          obtain ⟨c0, hc0⟩ := getComp_isSome_of_mem hm
          rw [hc0] at hn1
          cases hn1
        rw [hn2]
      | some cg =>
        obtain ⟨c1, hc1, _, hk1⟩ := hmaps1 cy cg hgc
        obtain ⟨c1', hc1', _, _, hk1'⟩ := htrack cy c1 hc1
        rw [hc1']
        show c1'.is_clocked = cg.is_clocked
        rw [hk1', hk1]
    have hshape2' : g2'.edges.map edgeShape = g2.edges.map edgeShape := by
      rw [hVH, hVG, hrv1edges, List.map_append, List.map_append]
      congr 1
      rw [List.map_take, hshape1, hVG, List.map_append]
      exact List.take_left' (by simp)
    have hkahn2 : kahn (filteredEdges g2') g2'.ids = some ord := by
      unfold kahn
      have hidse : g2'.ids = g2.ids := by
        rw [hids2']
        show g1.ids = g2.ids
        exact hids1
      rw [hidse,
        kahnAux_congr (filteredEdges_pair_congr hshape2' (fun cy => hclk2' cy))]
      exact hk
    have hreplay : ord.foldlM processNode g2' = some g1 := by
      refine pass_replay hWF1 hde1 hfix1 hclkeq hshape1 hsort [] ord g2' rfl ?_ ?_
      · intro v hv
        rw [hids1]
        exact hperm.subset hv
      · refine ⟨?_, hlen2', hslot0, hcomp0⟩
        rw [hids2']
        rfl
    have hatc2' : add_tunnel_connections ctx (removeVirtual g1) = some g2' := hatc2
    unfold update_signals
    simp only [Option.bind_eq_bind]
    rw [hatc2', Option.some_bind, hkahn2, Option.some_bind]
    exact hreplay

theorem C8_second_pass_amended_witness :
    ∃ g1, update_signals C2ctxA C2wg = some g1 ∧ update_signals C2ctxA g1 = some g1 := by
  have hUFw : ∀ (i j : Nat) (wi wj : Wire), C2wg2.edges[i]? = some wi →
      C2wg2.edges[j]? = some wj → wi.end_comp = wj.end_comp → wi.end_pin = wj.end_pin →
      i = j := by
    intro i j wi wj hi hj _ _
    have h1 : i < 1 := getElem?_lt hi
    have h2 : j < 1 := getElem?_lt hj
    omega
  have hrecvw : ∀ lt, lt ∈ C2ctxA.tunnels → lt.2.is_valid = false →
      ∀ r, r ∈ lt.2.receivers → ∃ t, C2wg2.getComp r = some (Comp.tunnel t) := by
    intro lt hlt hinv
    rcases List.mem_cons.mp hlt with he | hm
    · rw [he] at hinv
      cases hinv
    · cases hm
  exact ⟨_, rfl, @C8_second_pass_amended C2ctxA C2wg C2wg2 _ rfl C2wg2_WF hUFw hrecvw rfl⟩

end Osmilog
